import Mathlib

unseal Rat.add Rat.sub Rat.mul Rat.inv Rat.ofScientific

/-!
# Verification of the dbscan-cpp clustering engines

This file gives a shallow embedding, in Lean 4, of the clustering engines of the
dbscan-cpp repository, and proves (or refutes) the frozen claims about them.

Embedding conventions:
* `uint32_t` values are modelled as `Nat` with an explicit `% 2 ^ 32` applied at
  every memory load (`load_coord`), mirroring the fact that C++ memory cells hold
  32-bit values.  `int32_t` label values are modelled as `Int`.
* Strided pointers are modelled as functions `Nat → Nat` from linear u32 index to
  stored value; a null pointer is `Option.none`.
* Floating point coordinates of the baseline / grid-L2 engines are modelled as
  exact rationals (`ℚ`); all concrete inputs used in counterexamples are small
  integers on which double arithmetic is exact.
* Parallel passes (`utils::parallelize` / `utils::parallel_for`) are embedded at
  their single-worker schedule: one worker claims the chunks in ascending order,
  which is a legal execution of the C++ code (num_threads = 1).  Phases that only
  write disjoint per-index data are embedded as plain maps.
* Exceptions (`std::invalid_argument`) are modelled by `Except DBSCANError`.
* The lock-free CAS operations always succeed in the single-worker schedule and
  are embedded as plain stores.
-/

namespace DbscanCpp

/-- Error category for input-validation failures (`std::invalid_argument`). -/
inductive DBSCANError where
  | invalidInput
  deriving DecidableEq, Repr

/-- `GridExpansionMode` from `include/dbscan_grid2d_l1.h`. -/
inductive GridExpansionMode where
  | Sequential
  | FrontierParallel
  | UnionFind
  deriving DecidableEq, Repr

/-- Number of `-1` (unlabeled) entries of a label vector; used as a termination
measure for the expansion loops. -/
def countNeg (labels : List Int) : Nat :=
  labels.countP (fun v => v == -1)

theorem countNeg_set_of_ne {labels : List Int} {j : Nat} {v : Int}
    (hj : j < labels.length) (hold : labels.get ⟨j, hj⟩ = -1) (hv : v ≠ -1) :
    countNeg (labels.set j v) + 1 = countNeg labels := by
  unfold countNeg
  induction labels generalizing j with
  | nil => simp at hj
  | cons a l ih =>
    cases j with
    | zero =>
      simp only [List.get] at hold
      subst hold
      simp [List.countP_cons, hv]
    | succ j =>
      simp only [List.set, List.countP_cons]
      have := ih (j := j) (by simpa using hj) (by simpa using hold)
      omega

theorem countNeg_set_le (labels : List Int) (j : Nat) (v : Int) (hv : v ≠ -1) :
    countNeg (labels.set j v) ≤ countNeg labels := by
  unfold countNeg
  induction labels generalizing j with
  | nil => simp
  | cons a l ih =>
    cases j with
    | zero =>
      have hb : (v == -1) = false := by simpa using hv
      cases h : (a == -1) <;> simp [List.set, List.countP_cons, hb, h]
    | succ j =>
      simp only [List.set, List.countP_cons]
      have := ih (j := j)
      omega

/-! ## Grid-L1 engine (`src/dbscan_grid2d_l1_impl.hpp`, namespace `dbscan::detail`) -/

namespace L1

/-- `pack_cell` : `(ix << 32) | iy` on u32 cell coordinates.  On naturals below
`2 ^ 32` the bitwise OR coincides with addition. -/
def pack_cell (ix iy : Nat) : Nat :=
  ix * 2 ^ 32 + iy

/-- `cell_of` : `cell_size == 0 ? value : value / cell_size`. -/
def cell_of (value cell_size : Nat) : Nat :=
  if cell_size = 0 then value else value / cell_size

/-- `load_coord` : strided u32 load `*(ptr + index * stride)`; the `% 2 ^ 32`
records that the memory cell holds a 32-bit value. -/
def load_coord (ptr : Nat → Nat) (stride index : Nat) : Nat :=
  ptr (index * stride) % 2 ^ 32

/-- The inputs threaded through `dbscan_grid2d_l1_impl` (pointers, strides,
count and the two clustering parameters).  The `num_threads` / `chunk_size`
knobs only affect scheduling, not results, and are kept at the entry points. -/
structure Ctx where
  x : Nat → Nat
  xStride : Nat
  y : Nat → Nat
  yStride : Nat
  count : Nat
  eps : Nat
  minSamples : Nat

/-- x-coordinate of point `i` (`load_coord(x, x_stride, i)`). -/
def Ctx.xc (ctx : Ctx) (i : Nat) : Nat := load_coord ctx.x ctx.xStride i

/-- y-coordinate of point `i`. -/
def Ctx.yc (ctx : Ctx) (i : Nat) : Nat := load_coord ctx.y ctx.yStride i

/-- `cell_x[i]` from the `precompute_cells` pass (cell size = eps). -/
def Ctx.cellX (ctx : Ctx) (i : Nat) : Nat := cell_of (ctx.xc i) ctx.eps

/-- `cell_y[i]` from the `precompute_cells` pass. -/
def Ctx.cellY (ctx : Ctx) (i : Nat) : Nat := cell_of (ctx.yc i) ctx.eps

/-- `keys[i] = pack_cell(cell_x[i], cell_y[i])`. -/
def Ctx.key (ctx : Ctx) (i : Nat) : Nat := pack_cell (ctx.cellX i) (ctx.cellY i)

/-- The comparator passed to `std::sort` in `sort_indices`: packed key primary,
point index as tie break.  (Reflexive closure of the strict C++ comparator, so
that sortedness can be stated with Mathlib's `insertionSort`.) -/
def lexIdx (keys : Nat → Nat) (a b : Nat) : Prop :=
  keys a < keys b ∨ (keys a = keys b ∧ a ≤ b)

instance lexIdx.decidableRel (keys : Nat → Nat) : DecidableRel (lexIdx keys) := fun a b => by
  unfold lexIdx; infer_instance

instance lexIdx.isTotal (keys : Nat → Nat) : IsTotal Nat (lexIdx keys) where
  total a b := by unfold lexIdx; omega

instance lexIdx.isTrans (keys : Nat → Nat) : IsTrans Nat (lexIdx keys) where
  trans a b c := by unfold lexIdx; omega

/-- `sort_indices`: `ordered_indices` starts as `iota(0..count)` and is sorted
by `(key, index)`.  The C++ comparator is a strict total order on the distinct
indices, so the sorted permutation is unique and `std::sort` computes the same
list as `insertionSort` by the reflexive closure. -/
def Ctx.orderedIndices (ctx : Ctx) : List Nat :=
  List.insertionSort (lexIdx ctx.key) (List.range ctx.count)

/-- `build_cell_offsets`: scan the sorted order, recording each new key into
`unique_keys` and the run start into `cell_offsets`, then append the final
sentinel (`count`).  `pos` is the running position in `ordered_indices`. -/
def buildCellOffsets (keyOf : Nat → Nat) : List Nat → Nat → List Nat × List Nat
  | [], pos => ([], [pos])
  | a :: rest, pos =>
    let key := keyOf a
    let run := rest.takeWhile (fun b => keyOf b == key)
    let rest' := rest.dropWhile (fun b => keyOf b == key)
    let p := buildCellOffsets keyOf rest' (pos + 1 + run.length)
    (key :: p.1, pos :: p.2)
  termination_by l _ => l.length
  decreasing_by
    simp only [List.length_cons]
    exact Nat.lt_succ_of_le (List.Sublist.length_le (List.dropWhile_sublist _))

/-- `unique_keys` for the context. -/
def Ctx.uniqueKeys (ctx : Ctx) : List Nat :=
  (buildCellOffsets ctx.key ctx.orderedIndices 0).1

/-- `cell_offsets` (length `K + 1`, CSR-style) for the context. -/
def Ctx.cellOffsets (ctx : Ctx) : List Nat :=
  (buildCellOffsets ctx.key ctx.orderedIndices 0).2

/-- The cell lookup of `for_each_neighbor`: find `key` in the sorted
`unique_keys` (the C++ does a `lower_bound` binary search; on a strictly
increasing list this equals the linear scan below) and return the slice
`ordered_indices[cell_offsets[k] .. cell_offsets[k+1])`. -/
def lookupSlice (ordered : List Nat) : List Nat → List Nat → Nat → List Nat
  | u :: us, o1 :: o2 :: os, key =>
    if key < u then []
    else if key = u then (ordered.drop o1).take (o2 - o1)
    else lookupSlice ordered us (o2 :: os) key
  | _, _, _ => []

/-- Manhattan distance `|dx| + |dy|` computed exactly as in the source
(`x_a > x_b ? x_a - x_b : x_b - x_a`, summed in 64 bits — no overflow). -/
def Ctx.manhattan (ctx : Ctx) (i j : Nat) : Nat :=
  (if ctx.xc i > ctx.xc j then ctx.xc i - ctx.xc j else ctx.xc j - ctx.xc i) +
  (if ctx.yc i > ctx.yc j then ctx.yc i - ctx.yc j else ctx.yc j - ctx.yc i)

/-- The 3×3 block of candidate cells around `(cx, cy)`: `dx` outer, `dy` inner,
each from −1 to 1, skipping coordinates that would be negative. -/
def neighborCells (cx cy : Nat) : List (Nat × Nat) :=
  (if cx = 0 then [cx, cx + 1] else [cx - 1, cx, cx + 1]).flatMap fun nx =>
    (if cy = 0 then [cy, cy + 1] else [cy - 1, cy, cy + 1]).map fun ny => (nx, ny)

/-- The full neighbor enumeration of `for_each_neighbor` (callback always
`true`): for each candidate cell, the matching slice of `ordered_indices`
filtered by the L1 radius test, in source iteration order.  Note the self index
`i` is emitted (it passes the radius test with distance 0). -/
def Ctx.neighbors (ctx : Ctx) (i : Nat) : List Nat :=
  (neighborCells (ctx.cellX i) (ctx.cellY i)).flatMap fun c =>
    (lookupSlice ctx.orderedIndices ctx.uniqueKeys ctx.cellOffsets
        (pack_cell (c.1 % 2 ^ 32) (c.2 % 2 ^ 32))).filter
      fun j => ctx.manhattan i j ≤ ctx.eps

/-- The `core_detection` pass: the callback increments `neighbor_count` and
early-terminates once it reaches `min_samples`, so the counted value is
`min (full neighbor count) min_samples`; `is_core[i]` is set when it still
reaches `min_samples`. -/
def Ctx.isCore (ctx : Ctx) (i : Nat) : Bool :=
  ctx.minSamples ≤ min (ctx.neighbors i).length ctx.minSamples

/-! ### `sequential_expand` -/

/-- One neighbor visit inside the DFS of `sequential_expand`: if the neighbor
is unlabeled it receives the current cluster id, and core neighbors are pushed
onto the stack (`j :: stack` — the stack top is the list head). -/
def seqStep (isCore : Nat → Bool) (lab : Nat) (acc : List Int × List Nat) (j : Nat) :
    List Int × List Nat :=
  if acc.1.getD j 0 = -1 then
    (acc.1.set j (lab : Int), if isCore j then j :: acc.2 else acc.2)
  else acc

theorem seqStep_measure (isCore : Nat → Bool) (lab : Nat) (acc : List Int × List Nat) (j : Nat) :
    countNeg (seqStep isCore lab acc j).1 + (seqStep isCore lab acc j).2.length ≤
      countNeg acc.1 + acc.2.length := by
  unfold seqStep
  split
  · rename_i hneg
    have hj : j < acc.1.length := by
      by_contra h
      rw [List.getD_eq_default] at hneg
      · exact absurd hneg (by norm_num)
      · omega
    have hget : acc.1.get ⟨j, hj⟩ = -1 := by
      rw [List.getD_eq_get?] at hneg
      rw [List.get?_eq_get hj] at hneg
      simpa using hneg
    have hdec := countNeg_set_of_ne hj hget (v := (lab : Int)) (by omega)
    split <;> simp <;> omega
  · omega

theorem seqFold_measure (isCore : Nat → Bool) (lab : Nat) (nb : List Nat)
    (acc : List Int × List Nat) :
    countNeg (nb.foldl (seqStep isCore lab) acc).1 +
      (nb.foldl (seqStep isCore lab) acc).2.length ≤ countNeg acc.1 + acc.2.length := by
  induction nb generalizing acc with
  | nil => simp
  | cons a l ih =>
    simp only [List.foldl_cons]
    exact le_trans (ih _) (seqStep_measure isCore lab acc a)

/-- The inner `while (!stack.empty())` loop of `sequential_expand`: pop the top,
collect its neighbors, visit each in order. -/
def expandLoop (nbrs : Nat → List Nat) (isCore : Nat → Bool) (lab : Nat)
    (labels : List Int) (stack : List Nat) : List Int :=
  match stack with
  | [] => labels
  | current :: rest =>
    let p := (nbrs current).foldl (seqStep isCore lab) (labels, rest)
    expandLoop nbrs isCore lab p.1 p.2
  termination_by countNeg labels + stack.length
  decreasing_by
    have h := seqFold_measure isCore lab (nbrs current) (labels, rest)
    dsimp only at h
    simp only [List.length_cons]
    omega

/-- `sequential_expand`: scan seeds in ascending index order; every unlabeled
core point opens a fresh cluster id and is expanded depth-first. -/
def sequentialExpand (count : Nat) (isCore : Nat → Bool) (nbrs : Nat → List Nat)
    (labels0 : List Int) : List Int :=
  ((List.range count).foldl
    (fun acc i =>
      if isCore i = true ∧ acc.1.getD i 0 = -1 then
        (expandLoop nbrs isCore acc.2 (acc.1.set i (acc.2 : Int)) [i], acc.2 + 1)
      else acc)
    (labels0, 0)).1

/-! ### `frontier_expand`

Embedded at the single-worker schedule: the worker claims the frontier chunks
in ascending order, so the frontier entries are processed in list order.  All
CAS writes of one wave store the same cluster id, so the per-chunk local
dedup + the global sort/dedup of the next frontier collapse to one global
sort + dedup of the collected winners. -/

/-- Sort ascending and remove duplicates (`std::sort` + `std::unique`). -/
def sortDedup (l : List Nat) : List Nat :=
  (List.insertionSort (· ≤ ·) l).dedup

/-- One neighbor visit inside a frontier wave: `CAS(label[j], -1, lab)`; a core
winner joins the local next frontier (appended in processing order). -/
def casStep (isCore : Nat → Bool) (lab : Nat) (acc : List Int × List Nat) (j : Nat) :
    List Int × List Nat :=
  if acc.1.getD j 0 = -1 then
    (acc.1.set j (lab : Int), if isCore j then acc.2 ++ [j] else acc.2)
  else acc

theorem casStep_measure (isCore : Nat → Bool) (lab : Nat) (acc : List Int × List Nat) (j : Nat) :
    countNeg (casStep isCore lab acc j).1 + (casStep isCore lab acc j).2.length ≤
      countNeg acc.1 + acc.2.length := by
  unfold casStep
  split
  · rename_i hneg
    have hj : j < acc.1.length := by
      by_contra h
      rw [List.getD_eq_default] at hneg
      · exact absurd hneg (by norm_num)
      · omega
    have hget : acc.1.get ⟨j, hj⟩ = -1 := by
      rw [List.getD_eq_get?] at hneg
      rw [List.get?_eq_get hj] at hneg
      simpa using hneg
    have hdec := countNeg_set_of_ne hj hget (v := (lab : Int)) (by omega)
    split <;> simp <;> omega
  · omega

theorem casFold_measure (isCore : Nat → Bool) (lab : Nat) (nb : List Nat)
    (acc : List Int × List Nat) :
    countNeg (nb.foldl (casStep isCore lab) acc).1 +
      (nb.foldl (casStep isCore lab) acc).2.length ≤ countNeg acc.1 + acc.2.length := by
  induction nb generalizing acc with
  | nil => simp
  | cons a l ih =>
    simp only [List.foldl_cons]
    exact le_trans (ih _) (casStep_measure isCore lab acc a)

/-- One wave of `frontier_expand`: visit the neighbors of every frontier entry,
CAS'ing the cluster id, then sort + dedup the collected next frontier. -/
def frontierWave (nbrs : Nat → List Nat) (isCore : Nat → Bool) (lab : Nat)
    (labels : List Int) (frontier : List Nat) : List Int × List Nat :=
  let p := frontier.foldl (fun acc f => (nbrs f).foldl (casStep isCore lab) acc) (labels, [])
  (p.1, sortDedup p.2)

theorem frontierWave_measure (nbrs : Nat → List Nat) (isCore : Nat → Bool) (lab : Nat)
    (labels : List Int) (frontier : List Nat) :
    countNeg (frontierWave nbrs isCore lab labels frontier).1 +
      ((frontierWave nbrs isCore lab labels frontier).2).length ≤ countNeg labels := by
  unfold frontierWave
  have hfold : ∀ (fr : List Nat) (acc : List Int × List Nat),
      countNeg (fr.foldl (fun acc f => (nbrs f).foldl (casStep isCore lab) acc) acc).1 +
        (fr.foldl (fun acc f => (nbrs f).foldl (casStep isCore lab) acc) acc).2.length ≤
        countNeg acc.1 + acc.2.length := by
    intro fr
    induction fr with
    | nil => intro acc; simp
    | cons a l ih =>
      intro acc
      simp only [List.foldl_cons]
      exact le_trans (ih _) (casFold_measure isCore lab (nbrs a) acc)
  have h := hfold frontier (labels, [])
  dsimp only at h ⊢
  have hd : (sortDedup (frontier.foldl
      (fun acc f => (nbrs f).foldl (casStep isCore lab) acc) (labels, [])).2).length ≤
      (frontier.foldl (fun acc f => (nbrs f).foldl (casStep isCore lab) acc) (labels, [])).2.length := by
    unfold sortDedup
    calc (List.insertionSort (· ≤ ·) _).dedup.length
        ≤ (List.insertionSort (· ≤ ·) _).length := List.Sublist.length_le (List.dedup_sublist _)
      _ = _ := (List.perm_insertionSort _ _).length_eq
  simp only [List.length_nil, Nat.add_zero] at h
  omega

theorem frontierWave_nonempty_decrease (nbrs : Nat → List Nat) (isCore : Nat → Bool) (lab : Nat)
    (labels : List Int) (frontier : List Nat)
    (h : (frontierWave nbrs isCore lab labels frontier).2 ≠ []) :
    countNeg (frontierWave nbrs isCore lab labels frontier).1 < countNeg labels := by
  have hm := frontierWave_measure nbrs isCore lab labels frontier
  have : (frontierWave nbrs isCore lab labels frontier).2.length ≠ 0 := by
    intro hc; exact h (List.length_eq_zero.mp hc)
  omega

/-- The wave loop of `frontier_expand` for one seed: repeat while the next
frontier is non-empty. -/
def frontierLoop (nbrs : Nat → List Nat) (isCore : Nat → Bool) (lab : Nat)
    (labels : List Int) (frontier : List Nat) : List Int :=
  let w := frontierWave nbrs isCore lab labels frontier
  if h : w.2 = [] then w.1
  else frontierLoop nbrs isCore lab w.1 w.2
  termination_by countNeg labels
  decreasing_by
    exact frontierWave_nonempty_decrease nbrs isCore lab labels frontier h

/-- `frontier_expand`: seeds in ascending index order; each unlabeled core seed
opens a cluster id, stores it, and is expanded wave by wave. -/
def frontierExpand (count : Nat) (isCore : Nat → Bool) (nbrs : Nat → List Nat)
    (labels0 : List Int) : List Int :=
  ((List.range count).foldl
    (fun acc s =>
      if isCore s = true ∧ acc.1.getD s 0 = -1 then
        (frontierLoop nbrs isCore acc.2 (acc.1.set s (acc.2 : Int)) [s], acc.2 + 1)
      else acc)
    (labels0, 0)).1

/-! ### `union_find_expand` -/

/-- `invalid = std::numeric_limits<uint32_t>::max()`. -/
def invalid : Nat := 2 ^ 32 - 1

/-- The loop body of `find_root` after the initial load: `gp = parent[parent]`;
roots are self-parents; otherwise compress one step and walk up.  Sequentially
every CAS succeeds, so compression is a plain store.  The fuel (strictly more
than the chain length) makes the recursion structural; it is never exhausted in
reachable states, where parent chains strictly decrease. -/
def findRootAux : Nat → List Nat → Nat → Nat → Nat × List Nat
  | 0, parents, _, _ => (invalid, parents)
  | fuel + 1, parents, node, parent =>
    let gp := parents.getD parent invalid
    if gp = parent then
      if parent ≠ node then (parent, parents.set node parent) else (parent, parents)
    else
      let parents' := parents.set node gp
      let node' := parent
      let parent' := parents'.getD node' invalid
      if parent' = invalid then (invalid, parents')
      else findRootAux fuel parents' node' parent'

/-- `find_root` of `union_find_expand`: returns the root (or `invalid`) and the
parent array after path compression. -/
def findRoot (parents : List Nat) (node : Nat) : Nat × List Nat :=
  let parent := parents.getD node invalid
  if parent = invalid then (invalid, parents)
  else findRootAux (parents.length + 1) parents node parent

/-- `unite`: find both roots; if valid and distinct, the numerically smaller
root becomes the parent of the larger (the CAS succeeds sequentially). -/
def unite (parents : List Nat) (a b : Nat) : List Nat :=
  let ra := findRoot parents a
  let rb := findRoot ra.2 b
  if ra.1 = invalid ∨ rb.1 = invalid ∨ ra.1 = rb.1 then rb.2
  else if ra.1 < rb.1 then rb.2.set rb.1 ra.1
  else rb.2.set ra.1 rb.1

/-- Comparator for `std::sort` over `(component_min, root)` pairs (reflexive
closure of lexicographic `<` on `std::pair`). -/
def lexPair (p q : Nat × Nat) : Prop :=
  p.1 < q.1 ∨ (p.1 = q.1 ∧ p.2 ≤ q.2)

instance lexPair.decidableRel : DecidableRel lexPair := fun p q => by
  unfold lexPair; infer_instance

instance lexPair.isTotal : IsTotal (Nat × Nat) lexPair where
  total p q := by unfold lexPair; omega

instance lexPair.isTrans : IsTrans (Nat × Nat) lexPair where
  trans p q r := by unfold lexPair; omega

/-- `union_find_expand`: initialize parents (cores self-parent, non-cores
`invalid`); unite every core with its core neighbors; compute per-point roots;
collect each component's minimum index; sort components by `(min, root)`;
assign dense labels in that order; label cores through their root; finally each
non-core adopts the smallest cluster id among its core neighbors. -/
def unionFindExpand (count : Nat) (isCore : Nat → Bool) (nbrs : Nat → List Nat)
    (labels0 : List Int) : List Int :=
  let parents0 := (List.range count).map (fun i => if isCore i then i else invalid)
  let parents1 := (List.range count).foldl
    (fun ps i =>
      if isCore i then (nbrs i).foldl (fun ps' j => if isCore j then unite ps' i j else ps') ps
      else ps)
    parents0
  let rfp := (List.range count).foldl
    (fun (acc : List Nat × List Nat) i =>
      if isCore i then
        let r := findRoot acc.2 i
        (acc.1 ++ [r.1], r.2)
      else (acc.1 ++ [invalid], acc.2))
    ([], parents1)
  let rootFor := rfp.1
  let componentMin := (List.range count).foldl
    (fun cm i =>
      if isCore i then
        let root := rootFor.getD i invalid
        if root = invalid then cm
        else if i < cm.getD root invalid then cm.set root i else cm
      else cm)
    (List.replicate count invalid)
  let components := (List.range count).filterMap
    (fun i => if componentMin.getD i invalid ≠ invalid then
        some (componentMin.getD i invalid, i) else none)
  let sorted := List.insertionSort lexPair components
  let rootLabel := (sorted.foldl
    (fun (acc : List Int × Nat) c => (acc.1.set c.2 (acc.2 : Int), acc.2 + 1))
    (List.replicate count (-1 : Int), 0)).1
  let labelsCore := (List.range count).foldl
    (fun ls i =>
      if isCore i then
        let root := rootFor.getD i invalid
        if root = invalid then ls else ls.set i (rootLabel.getD root (-1))
      else ls)
    labels0
  (List.range count).foldl
    (fun ls i =>
      if isCore i then ls
      else
        let best := (nbrs i).foldl
          (fun best j =>
            if isCore j then
              let cand := ls.getD j (-1)
              if cand ≠ -1 ∧ (best = -1 ∨ cand < best) then cand else best
            else best)
          (-1 : Int)
        ls.set i best)
    labelsCore

/-! ### `dbscan_grid2d_l1_impl` and the entry points -/

/-- `dbscan_grid2d_l1_impl`: empty input short-circuits; otherwise build the
grid, detect cores, and run the selected expansion over labels initialized to
`-1`.  (The perf-timing sink records wall-clock durations and is not part of
the functional model.) -/
def implLabels (ctx : Ctx) (mode : GridExpansionMode) : List Int :=
  if ctx.count = 0 then []
  else
    let labels0 := List.replicate ctx.count (-1 : Int)
    match mode with
    | .Sequential => sequentialExpand ctx.count ctx.isCore ctx.neighbors labels0
    | .FrontierParallel => frontierExpand ctx.count ctx.isCore ctx.neighbors labels0
    | .UnionFind => unionFindExpand ctx.count ctx.isCore ctx.neighbors labels0

/-- `DBSCANGrid2DL1Params` (scheduling knobs retained for interface fidelity;
they do not influence results). -/
structure Params where
  eps : Nat
  minSamples : Nat
  numThreads : Nat := 0
  chunkSize : Nat := 0

/-- The SoA entry point `dbscan_grid2d_l1` with its four validation checks, in
source order. -/
def dbscan_grid2d_l1 (x : Option (Nat → Nat)) (xStride : Nat) (y : Option (Nat → Nat))
    (yStride : Nat) (count : Nat) (params : Params) (mode : GridExpansionMode) :
    Except DBSCANError (List Int) :=
  if params.eps = 0 then .error .invalidInput
  else if params.minSamples = 0 then .error .invalidInput
  else if count ≠ 0 ∧ (x.isNone ∨ y.isNone) then .error .invalidInput
  else if count ≠ 0 ∧ (xStride = 0 ∨ yStride = 0) then .error .invalidInput
  else .ok (implLabels
    ⟨(x.getD (fun _ => 0)), xStride, (y.getD (fun _ => 0)), yStride,
      count, params.eps, params.minSamples⟩ mode)

/-- The u32 view of a tightly packed `{u32 x; u32 y;}` array: linear u32 index
`j` holds `x` of point `j/2` when `j` is even, else its `y`. -/
def interleave (p : Nat → Nat × Nat) : Nat → Nat :=
  fun j => if j % 2 = 0 then (p (j / 2)).1 else (p (j / 2)).2

/-- The AoS entry point `dbscan_grid2d_l1_aos`: validate, then delegate to the
SoA entry with `&points[0].x`, `&points[0].y` and stride 2 (null pointers when
`count == 0`, exactly as the source). -/
def dbscan_grid2d_l1_aos (points : Option (Nat → Nat × Nat)) (count : Nat)
    (params : Params) (mode : GridExpansionMode) : Except DBSCANError (List Int) :=
  if params.eps = 0 then .error .invalidInput
  else if params.minSamples = 0 then .error .invalidInput
  else if count ≠ 0 ∧ points.isNone then .error .invalidInput
  else
    let x := if count = 0 then none else points.map interleave
    let y := if count = 0 then none else points.map (fun p j => interleave p (j + 1))
    dbscan_grid2d_l1 x 2 y 2 count params mode

/-! ### Structure of the grid (sorted order, offsets, slices) -/

section GridTheory

variable (k : Nat → Nat)

theorem bc_snd_length (l : List Nat) (pos : Nat) :
    (buildCellOffsets k l pos).2.length = (buildCellOffsets k l pos).1.length + 1 := by
  induction l, pos using buildCellOffsets.induct k with
  | case1 pos => simp [buildCellOffsets]
  | case2 a rest pos key run rest' ih =>
    rw [buildCellOffsets]
    unfold_let key run rest' at ih
    simpa using ih

theorem bc_head (l : List Nat) (pos : Nat) :
    (buildCellOffsets k l pos).2.head? = some pos := by
  cases l with
  | nil => simp [buildCellOffsets]
  | cons a rest =>
    rw [buildCellOffsets]
    simp

theorem bc_snd_cons (l : List Nat) (pos : Nat) :
    ∃ t, (buildCellOffsets k l pos).2 = pos :: t := by
  have h := bc_head k l pos
  cases hp : (buildCellOffsets k l pos).2 with
  | nil => rw [hp] at h; simp at h
  | cons x t =>
    rw [hp] at h
    simp only [List.head?_cons, Option.some.injEq] at h
    exact ⟨t, by rw [h]⟩

theorem bc_last (l : List Nat) (pos : Nat) :
    (buildCellOffsets k l pos).2.getLast? = some (pos + l.length) := by
  induction l, pos using buildCellOffsets.induct k with
  | case1 pos => simp [buildCellOffsets]
  | case2 a rest pos key run rest' ih =>
    rw [buildCellOffsets]
    unfold_let key run rest' at ih
    simp only [List.length_cons]
    obtain ⟨t, ht⟩ := bc_snd_cons k
      (rest.dropWhile (fun b => k b == k a))
      (pos + 1 + (rest.takeWhile (fun b => k b == k a)).length)
    have hlen : (rest.takeWhile (fun b => k b == k a)).length +
        (rest.dropWhile (fun b => k b == k a)).length = rest.length := by
      rw [← List.length_append, List.takeWhile_append_dropWhile]
    rw [ht] at ih ⊢
    rw [List.getLast?_cons_cons, ih]
    congr 1
    omega

theorem dropWhile_head_false {α : Type} {p : α → Bool} {l : List α} {f : α} {t : List α}
    (h : l.dropWhile p = f :: t) : p f = false := by
  induction l with
  | nil => simp at h
  | cons x xs ih =>
    rw [List.dropWhile_cons] at h
    split at h
    · exact ih h
    · cases h
      rename_i hx
      simpa using hx

theorem dropWhile_key_gt (a : Nat) (rest : List Nat)
    (hs : (a :: rest).Pairwise (fun x y => k x ≤ k y)) :
    ∀ c ∈ rest.dropWhile (fun b => k b == k a), k a < k c := by
  intro c hc
  have hmem : c ∈ rest := (List.dropWhile_sublist _).subset hc
  have hle : k a ≤ k c := (List.pairwise_cons.mp hs).1 c hmem
  rcases hd : rest.dropWhile (fun b => k b == k a) with _ | ⟨f, t⟩
  · rw [hd] at hc; simp at hc
  · have hf : k f ≠ k a := by simpa using dropWhile_head_false hd
    have hfmem : f ∈ rest := (List.dropWhile_sublist _).subset (by rw [hd]; exact List.mem_cons_self f t)
    have hfle : k a ≤ k f := (List.pairwise_cons.mp hs).1 f hfmem
    have hpw : (f :: t).Pairwise (fun x y => k x ≤ k y) := by
      rw [← hd]
      exact List.Pairwise.sublist (List.dropWhile_sublist _) (List.pairwise_cons.mp hs).2
    rw [hd] at hc
    rcases List.mem_cons.mp hc with rfl | hct
    · omega
    · have := (List.pairwise_cons.mp hpw).1 c hct
      omega

theorem bc_fst_mem (l : List Nat) (pos : Nat) :
    ∀ u ∈ (buildCellOffsets k l pos).1, ∃ a, a ∈ l ∧ u = k a := by
  induction l, pos using buildCellOffsets.induct k with
  | case1 pos => simp [buildCellOffsets]
  | case2 a rest pos key run rest' ih =>
    rw [buildCellOffsets]
    unfold_let key run rest' at ih
    intro u hu
    simp only [List.mem_cons] at hu
    rcases hu with rfl | hu
    · exact ⟨a, List.mem_cons_self a rest, rfl⟩
    · obtain ⟨b, hb, rfl⟩ := ih u hu
      exact ⟨b, List.mem_cons_of_mem a ((List.dropWhile_sublist _).subset hb), rfl⟩

theorem bc_fst_strict (l : List Nat) (pos : Nat)
    (hs : l.Pairwise (fun x y => k x ≤ k y)) :
    (buildCellOffsets k l pos).1.Pairwise (· < ·) := by
  induction l, pos using buildCellOffsets.induct k with
  | case1 pos => simp [buildCellOffsets]
  | case2 a rest pos key run rest' ih =>
    rw [buildCellOffsets]
    unfold_let key run rest' at ih
    dsimp only
    have hs' : (rest.dropWhile (fun b => k b == k a)).Pairwise (fun x y => k x ≤ k y) :=
      List.Pairwise.sublist (List.dropWhile_sublist _) (List.pairwise_cons.mp hs).2
    refine List.pairwise_cons.mpr ⟨?_, ih hs'⟩
    intro u hu
    obtain ⟨b, hb, rfl⟩ := bc_fst_mem k _ _ u hu
    exact dropWhile_key_gt k a rest hs b hb

/-- The binary-search lookup of `for_each_neighbor` returns, for any `key`,
exactly the elements of the (key-sorted) order whose packed key equals `key`. -/
theorem lookupSlice_bc (ordered : List Nat) :
    ∀ (l : List Nat) (pos : Nat), ordered.drop pos = l →
      l.Pairwise (fun x y => k x ≤ k y) →
      ∀ key, lookupSlice ordered (buildCellOffsets k l pos).1 (buildCellOffsets k l pos).2 key
        = l.filter (fun j => k j == key) := by
  intro l pos
  induction l, pos using buildCellOffsets.induct k with
  | case1 pos =>
    intro _ _ key
    simp [buildCellOffsets, lookupSlice]
  | case2 a rest pos key0 run rest' ih =>
    intro hdrop hsort key
    rw [buildCellOffsets]
    unfold_let key0 run rest' at ih
    dsimp only
    obtain ⟨t, ht⟩ := bc_snd_cons k
      (rest.dropWhile (fun b => k b == k a))
      (pos + 1 + (rest.takeWhile (fun b => k b == k a)).length)
    rw [ht]
    rw [lookupSlice]
    have hsplit := List.takeWhile_append_dropWhile (fun b => k b == k a) rest
    have hrunlen : (rest.takeWhile (fun b => k b == k a)).length +
        (rest.dropWhile (fun b => k b == k a)).length = rest.length := by
      rw [← List.length_append, hsplit]
    have hrunkeys : ∀ c ∈ rest.takeWhile (fun b => k b == k a), k c = k a := by
      intro c hcmem
      simpa using List.mem_takeWhile_imp hcmem
    have hdropgt := dropWhile_key_gt k a rest hsort
    split_ifs with hlt heq
    · symm
      rw [List.filter_eq_nil_iff]
      intro c hcmem
      rcases List.mem_cons.mp hcmem with rfl | hcr
      · simp only [beq_iff_eq]; omega
      · have := (List.pairwise_cons.mp hsort).1 c hcr
        simp only [beq_iff_eq]; omega
    · -- key = k a : the slice is the head run
      subst heq
      rw [hdrop]
      have htake : (a :: rest).take (pos + 1 +
          (rest.takeWhile (fun b => k b == k a)).length - pos) =
          a :: rest.takeWhile (fun b => k b == k a) := by
        have harith : pos + 1 + (rest.takeWhile (fun b => k b == k a)).length - pos =
            (rest.takeWhile (fun b => k b == k a)).length + 1 := by omega
        rw [harith]
        simp only [List.take_succ_cons]
        congr 1
        exact (List.prefix_iff_eq_take.mp (List.takeWhile_prefix _)).symm
      rw [htake]
      symm
      rw [List.filter_cons_of_pos (by simp)]
      congr 1
      conv_lhs => rw [← hsplit, List.filter_append]
      have h1 : (rest.takeWhile (fun b => k b == k a)).filter (fun j => k j == k a) =
          rest.takeWhile (fun b => k b == k a) := by
        rw [List.filter_eq_self]
        intro c hcmem
        simp [hrunkeys c hcmem]
      have h2 : (rest.dropWhile (fun b => k b == k a)).filter (fun j => k j == k a) = [] := by
        rw [List.filter_eq_nil_iff]
        intro c hcmem
        have := hdropgt c hcmem
        simp only [beq_iff_eq]
        omega
      rw [h1, h2, List.append_nil]
    · -- key > k a : recurse past the head run
      have hka : k a < key := by omega
      have hdrop' : ordered.drop (pos + 1 + (rest.takeWhile (fun b => k b == k a)).length) =
          rest.dropWhile (fun b => k b == k a) := by
        have h1 : ordered.drop (pos + 1 + (rest.takeWhile (fun b => k b == k a)).length) =
            (ordered.drop pos).drop ((rest.takeWhile (fun b => k b == k a)).length + 1) := by
          rw [List.drop_drop]
          congr 1
          omega
        rw [h1, hdrop, List.drop_succ_cons]
        nth_rewrite 2 [← hsplit]
        exact List.drop_left _ _
      have hsort' : (rest.dropWhile (fun b => k b == k a)).Pairwise (fun x y => k x ≤ k y) :=
        List.Pairwise.sublist (List.dropWhile_sublist _) (List.pairwise_cons.mp hsort).2
      rw [← ht, ih hdrop' hsort' key]
      symm
      rw [List.filter_cons_of_neg (by simp only [beq_iff_eq]; omega)]
      conv_lhs => rw [← hsplit, List.filter_append]
      have h1 : (rest.takeWhile (fun b => k b == k a)).filter (fun j => k j == key) = [] := by
        rw [List.filter_eq_nil_iff]
        intro c hcmem
        have := hrunkeys c hcmem
        simp only [beq_iff_eq]
        omega
      rw [h1, List.nil_append]

theorem bc_pure (ordered : List Nat) :
    ∀ (l : List Nat) (pos : Nat), ordered.drop pos = l →
      ∀ kIdx q, kIdx < (buildCellOffsets k l pos).1.length →
        (buildCellOffsets k l pos).2.getD kIdx 0 ≤ q →
        q < (buildCellOffsets k l pos).2.getD (kIdx + 1) 0 →
        k (ordered.getD q 0) = (buildCellOffsets k l pos).1.getD kIdx 0 := by
  intro l pos
  induction l, pos using buildCellOffsets.induct k with
  | case1 pos =>
    intro _ kIdx q hk _ _
    simp [buildCellOffsets] at hk
  | case2 a rest pos key0 run rest' ih =>
    intro hdrop kIdx q hk hlo hhi
    rw [buildCellOffsets] at hk hlo hhi ⊢
    unfold_let key0 run rest' at ih
    dsimp only at hk hlo hhi ⊢
    obtain ⟨t, ht⟩ := bc_snd_cons k
      (rest.dropWhile (fun b => k b == k a))
      (pos + 1 + (rest.takeWhile (fun b => k b == k a)).length)
    cases kIdx with
    | zero =>
      rw [ht] at hhi
      simp only [List.getD_cons_zero, List.getD_cons_succ] at hlo hhi
      have hq : ordered.getD q 0 = (a :: rest).getD (q - pos) 0 := by
        rw [List.getD_eq_getElem?_getD, List.getD_eq_getElem?_getD, ← hdrop, List.getElem?_drop]
        congr 2
        omega
      rw [hq]
      rcases eq_or_ne (q - pos) 0 with h0 | hne
      · rw [h0]
        simp
      · obtain ⟨m, hm⟩ := Nat.exists_eq_succ_of_ne_zero hne
        rw [hm]
        simp only [List.getD_cons_succ]
        have hmlt : m < (rest.takeWhile (fun b => k b == k a)).length := by omega
        have hmrest : m < rest.length := by
          have := (List.takeWhile_prefix (l := rest) (fun b => k b == k a)).length_le
          omega
        have hget : rest.getD m 0 = rest.get ⟨m, hmrest⟩ := List.getD_eq_get rest 0 hmrest
        have hmem : rest.get ⟨m, hmrest⟩ ∈ rest.takeWhile (fun b => k b == k a) := by
          have htk := List.prefix_iff_eq_take.mp (List.takeWhile_prefix
            (l := rest) (fun b => k b == k a))
          rw [htk]
          have : (rest.take (rest.takeWhile (fun b => k b == k a)).length).get
              ⟨m, by simpa [List.length_take] using by omega⟩ = rest.get ⟨m, hmrest⟩ := by
            simp [List.get_take]
          rw [← this]
          exact List.get_mem _ _ _
        rw [hget]
        simpa using List.mem_takeWhile_imp hmem
    | succ kIdx' =>
      simp only [List.length_cons, Nat.succ_lt_succ_iff] at hk
      simp only [List.getD_cons_succ] at hlo hhi ⊢
      have hdrop' : ordered.drop (pos + 1 + (rest.takeWhile (fun b => k b == k a)).length) =
          rest.dropWhile (fun b => k b == k a) := by
        have h1 : ordered.drop (pos + 1 + (rest.takeWhile (fun b => k b == k a)).length) =
            (ordered.drop pos).drop ((rest.takeWhile (fun b => k b == k a)).length + 1) := by
          rw [List.drop_drop]
          congr 1
          omega
        rw [h1, hdrop, List.drop_succ_cons]
        nth_rewrite 2 [← List.takeWhile_append_dropWhile (fun b => k b == k a) rest]
        exact List.drop_left _ _
      exact ih hdrop' kIdx' q hk hlo hhi

end GridTheory

theorem Ctx.orderedIndices_perm (ctx : Ctx) : ctx.orderedIndices.Perm (List.range ctx.count) :=
  List.perm_insertionSort _ _

theorem Ctx.orderedIndices_sorted (ctx : Ctx) :
    List.Sorted (lexIdx ctx.key) ctx.orderedIndices :=
  List.sorted_insertionSort _ _

theorem Ctx.orderedIndices_nodup (ctx : Ctx) : ctx.orderedIndices.Nodup :=
  ctx.orderedIndices_perm.nodup_iff.mpr (List.nodup_range _)

theorem Ctx.orderedIndices_length (ctx : Ctx) : ctx.orderedIndices.length = ctx.count := by
  rw [ctx.orderedIndices_perm.length_eq, List.length_range]

theorem Ctx.orderedIndices_pairwise_strict (ctx : Ctx) :
    ctx.orderedIndices.Pairwise
      (fun a b => ctx.key a < ctx.key b ∨ (ctx.key a = ctx.key b ∧ a < b)) := by
  have h1 : ctx.orderedIndices.Pairwise (lexIdx ctx.key) := ctx.orderedIndices_sorted
  have h2 : ctx.orderedIndices.Pairwise (· ≠ ·) := ctx.orderedIndices_nodup
  refine (h1.and h2).imp ?_
  rintro a b ⟨hl, hne⟩
  unfold lexIdx at hl
  omega

theorem Ctx.orderedIndices_keySorted (ctx : Ctx) :
    ctx.orderedIndices.Pairwise (fun a b => ctx.key a ≤ ctx.key b) := by
  refine ctx.orderedIndices_sorted.imp ?_
  intro a b hl
  unfold lexIdx at hl
  omega

/-! ### The neighbor enumeration visits exactly the closed-eps L1 ball -/

theorem Ctx.xc_lt (ctx : Ctx) (i : Nat) : ctx.xc i < 2 ^ 32 :=
  Nat.mod_lt _ (by norm_num)

theorem Ctx.yc_lt (ctx : Ctx) (i : Nat) : ctx.yc i < 2 ^ 32 :=
  Nat.mod_lt _ (by norm_num)

theorem cell_of_le (v e : Nat) : cell_of v e ≤ v := by
  unfold cell_of
  split
  · exact le_refl v
  · exact Nat.div_le_self v e

theorem pack_cell_inj {a b a' b' : Nat} (hb : b < 2 ^ 32) (hb' : b' < 2 ^ 32)
    (h : pack_cell a b = pack_cell a' b') : a = a' ∧ b = b' := by
  unfold pack_cell at h
  omega

theorem Ctx.mem_orderedIndices (ctx : Ctx) (j : Nat) :
    j ∈ ctx.orderedIndices ↔ j < ctx.count := by
  rw [ctx.orderedIndices_perm.mem_iff, List.mem_range]

theorem Ctx.mem_lookupSlice (ctx : Ctx) (key j : Nat) :
    j ∈ lookupSlice ctx.orderedIndices ctx.uniqueKeys ctx.cellOffsets key ↔
      (j < ctx.count ∧ ctx.key j = key) := by
  have h := lookupSlice_bc ctx.key ctx.orderedIndices ctx.orderedIndices 0 (List.drop_zero _)
    ctx.orderedIndices_keySorted key
  rw [show ctx.uniqueKeys = (buildCellOffsets ctx.key ctx.orderedIndices 0).1 from rfl,
    show ctx.cellOffsets = (buildCellOffsets ctx.key ctx.orderedIndices 0).2 from rfl, h,
    List.mem_filter]
  rw [ctx.mem_orderedIndices]
  simp

/-- Membership in the 3×3 candidate block: exactly the cells within one step of
`(cx, cy)` in each axis (in saturating `Nat` arithmetic). -/
theorem mem_neighborCells (cx cy nx ny : Nat) :
    (nx, ny) ∈ neighborCells cx cy ↔
      (nx ≤ cx + 1 ∧ cx ≤ nx + 1 ∧ ny ≤ cy + 1 ∧ cy ≤ ny + 1) := by
  unfold neighborCells
  rcases Nat.eq_zero_or_pos cx with hx | hx <;> rcases Nat.eq_zero_or_pos cy with hy | hy
  · subst hx; subst hy
    simp [List.mem_flatMap, Prod.ext_iff]
    omega
  · subst hx
    have hy' : cy ≠ 0 := by omega
    simp [hy', List.mem_flatMap, Prod.ext_iff]
    omega
  · subst hy
    have hx' : cx ≠ 0 := by omega
    simp [hx', List.mem_flatMap, Prod.ext_iff]
    omega
  · have hx' : cx ≠ 0 := by omega
    have hy' : cy ≠ 0 := by omega
    simp [hx', hy', List.mem_flatMap, Prod.ext_iff]
    omega

theorem neighborCells_nodup (cx cy : Nat) : (neighborCells cx cy).Nodup := by
  unfold neighborCells
  rcases Nat.eq_zero_or_pos cx with hx | hx <;> rcases Nat.eq_zero_or_pos cy with hy | hy
  · subst hx; subst hy
    simp [Prod.ext_iff]
  · subst hx
    have hy' : cy ≠ 0 := by omega
    simp [hy', Prod.ext_iff]
    omega
  · subst hy
    have hx' : cx ≠ 0 := by omega
    simp [hx', Prod.ext_iff]
    omega
  · have hx' : cx ≠ 0 := by omega
    have hy' : cy ≠ 0 := by omega
    simp [hx', hy', Prod.ext_iff]
    omega

/-- Two points within L1 distance `eps` lie within one grid cell of each other
in each axis (cell size = eps). -/
theorem cell_of_within_one {a b e : Nat} (h : a ≤ b + e) (h' : b ≤ a + e) :
    cell_of a e ≤ cell_of b e + 1 ∧ cell_of b e ≤ cell_of a e + 1 := by
  unfold cell_of
  split_ifs with he
  · omega
  · have he' : 0 < e := Nat.pos_of_ne_zero he
    constructor
    · calc a / e ≤ (b + e) / e := Nat.div_le_div_right h
        _ = b / e + 1 := Nat.add_div_right b he'
    · calc b / e ≤ (a + e) / e := Nat.div_le_div_right h'
        _ = a / e + 1 := Nat.add_div_right a he'

theorem Ctx.manhattan_self (ctx : Ctx) (i : Nat) : ctx.manhattan i i = 0 := by
  unfold Ctx.manhattan
  split_ifs <;> omega

theorem Ctx.manhattan_comm (ctx : Ctx) (i j : Nat) : ctx.manhattan i j = ctx.manhattan j i := by
  unfold Ctx.manhattan
  split_ifs <;> omega

/-- Claim-level characterization of `for_each_neighbor`: for a point `i` of the
input, the enumerated neighbors are exactly the points within L1 distance
`eps` (the self index included). -/
theorem Ctx.mem_neighbors (ctx : Ctx) (i : Nat) (hi : i < ctx.count) (j : Nat) :
    j ∈ ctx.neighbors i ↔ (j < ctx.count ∧ ctx.manhattan i j ≤ ctx.eps) := by
  unfold Ctx.neighbors
  rw [List.mem_flatMap]
  constructor
  · rintro ⟨c, hcmem, hj⟩
    rw [List.mem_filter] at hj
    obtain ⟨hslice, hdist⟩ := hj
    rw [ctx.mem_lookupSlice] at hslice
    exact ⟨hslice.1, by simpa using hdist⟩
  · rintro ⟨hj, hdist⟩
    refine ⟨(ctx.cellX j, ctx.cellY j), ?_, ?_⟩
    · rw [mem_neighborCells]
      have hd : ctx.manhattan i j = ctx.manhattan i j := rfl
      have hx : ctx.xc i ≤ ctx.xc j + ctx.eps ∧ ctx.xc j ≤ ctx.xc i + ctx.eps := by
        unfold Ctx.manhattan at hdist
        split_ifs at hdist <;> omega
      have hy : ctx.yc i ≤ ctx.yc j + ctx.eps ∧ ctx.yc j ≤ ctx.yc i + ctx.eps := by
        unfold Ctx.manhattan at hdist
        split_ifs at hdist <;> omega
      have hcx := cell_of_within_one hx.2 hx.1
      have hcy := cell_of_within_one hy.2 hy.1
      unfold Ctx.cellX Ctx.cellY
      exact ⟨hcx.1, hcx.2, hcy.1, hcy.2⟩
    · rw [List.mem_filter]
      constructor
      · rw [ctx.mem_lookupSlice]
        refine ⟨hj, ?_⟩
        have h1 : ctx.cellX j % 2 ^ 32 = ctx.cellX j :=
          Nat.mod_eq_of_lt (lt_of_le_of_lt (cell_of_le _ _) (ctx.xc_lt j))
        have h2 : ctx.cellY j % 2 ^ 32 = ctx.cellY j :=
          Nat.mod_eq_of_lt (lt_of_le_of_lt (cell_of_le _ _) (ctx.yc_lt j))
        rw [h1, h2]
        rfl
      · simpa using hdist

/-- The neighbor list is duplicate-free: distinct candidate cells have
distinct (u32-reduced) packed keys, and each slice is duplicate-free. -/
theorem Ctx.neighbors_nodup (ctx : Ctx) (i : Nat) : (ctx.neighbors i).Nodup := by
  unfold Ctx.neighbors
  rw [List.nodup_flatMap]
  constructor
  · intro c _
    apply List.Nodup.filter
    rw [show ctx.uniqueKeys = (buildCellOffsets ctx.key ctx.orderedIndices 0).1 from rfl,
      show ctx.cellOffsets = (buildCellOffsets ctx.key ctx.orderedIndices 0).2 from rfl,
      lookupSlice_bc ctx.key ctx.orderedIndices ctx.orderedIndices 0 (List.drop_zero _)
        ctx.orderedIndices_keySorted]
    exact List.Nodup.filter _ ctx.orderedIndices_nodup
  · -- distinct cells in the 3×3 block have disjoint slices
    have hcells : ∀ c ∈ neighborCells (ctx.cellX i) (ctx.cellY i),
        c.1 ≤ ctx.cellX i + 1 ∧ ctx.cellX i ≤ c.1 + 1 ∧
        c.2 ≤ ctx.cellY i + 1 ∧ ctx.cellY i ≤ c.2 + 1 := by
      intro c hc
      exact (mem_neighborCells (ctx.cellX i) (ctx.cellY i) c.1 c.2).mp (by
        rcases c with ⟨c1, c2⟩
        exact hc)
    have hxb : ctx.cellX i < 2 ^ 32 := lt_of_le_of_lt (cell_of_le _ _) (ctx.xc_lt i)
    have hyb : ctx.cellY i < 2 ^ 32 := lt_of_le_of_lt (cell_of_le _ _) (ctx.yc_lt i)
    refine List.Pairwise.imp_of_mem ?_ (neighborCells_nodup (ctx.cellX i) (ctx.cellY i))
    intro c c' hc hc' hne
    intro j hj hj'
    rw [List.mem_filter] at hj hj'
    have h1 := (ctx.mem_lookupSlice _ j).mp hj.1
    have h2 := (ctx.mem_lookupSlice _ j).mp hj'.1
    have hkey : pack_cell (c.1 % 2 ^ 32) (c.2 % 2 ^ 32) =
        pack_cell (c'.1 % 2 ^ 32) (c'.2 % 2 ^ 32) := by
      rw [← h1.2, ← h2.2]
    have hbc1 := (mem_neighborCells (ctx.cellX i) (ctx.cellY i) c.1 c.2).mp
      (by rcases c with ⟨u, v⟩; exact hc)
    have hbc2 := (mem_neighborCells (ctx.cellX i) (ctx.cellY i) c'.1 c'.2).mp
      (by rcases c' with ⟨u, v⟩; exact hc')
    have hinj := pack_cell_inj (Nat.mod_lt _ (by norm_num)) (Nat.mod_lt _ (by norm_num)) hkey
    apply hne
    have e1 : c.1 = c'.1 := by omega
    have e2 : c.2 = c'.2 := by omega
    exact Prod.ext e1 e2

/-- The neighbor enumeration is a permutation of the closed-eps L1 ball of `i`
within the input range. -/
theorem Ctx.neighbors_perm (ctx : Ctx) (i : Nat) (hi : i < ctx.count) :
    (ctx.neighbors i).Perm
      ((List.range ctx.count).filter (fun j => ctx.manhattan i j ≤ ctx.eps)) := by
  rw [List.perm_ext_iff_of_nodup (ctx.neighbors_nodup i)
    (List.Nodup.filter _ (List.nodup_range _))]
  intro j
  rw [ctx.mem_neighbors i hi j, List.mem_filter, List.mem_range]
  simp

theorem Ctx.isCore_iff (ctx : Ctx) (i : Nat) (hi : i < ctx.count) :
    ctx.isCore i = true ↔
      ctx.minSamples ≤
        ((List.range ctx.count).filter (fun j => ctx.manhattan i j ≤ ctx.eps)).length := by
  unfold Ctx.isCore
  rw [← (ctx.neighbors_perm i hi).length_eq]
  rw [decide_eq_true_iff]
  omega

/-- The class interface of `src/dbscan_grid2d_l1.cpp`: the constructor
validates `eps` and `min_samples`; `fit_predict` then rejects null coordinate
pointers *before* the `count == 0` early return, and otherwise runs the
(stride-1, sequential-expansion) pipeline. -/
def classFitPredict (eps minSamples : Nat) (x y : Option (Nat → Nat)) (count : Nat) :
    Except DBSCANError (List Int) :=
  if eps = 0 then .error .invalidInput
  else if minSamples = 0 then .error .invalidInput
  else if x.isNone ∨ y.isNone then .error .invalidInput
  else if count = 0 then .ok []
  else .ok (implLabels
    ⟨(x.getD (fun _ => 0)), 1, (y.getD (fun _ => 0)), 1, count, eps, minSamples⟩ .Sequential)

/-! ### Core-graph components

The three expansion strategies are proved equivalent by relating each to a
canonical labeling derived from the connected components of the core graph
(cores adjacent when one enumerates the other as a neighbor).  Components are
computed by iterating a one-step closure `n` times, which suffices to reach the
fixed point. -/

section Components

variable (isCore : Nat → Bool) (nbrs : Nat → List Nat)

theorem mem_sortDedup {a : Nat} {l : List Nat} : a ∈ sortDedup l ↔ a ∈ l := by
  unfold sortDedup
  rw [List.mem_dedup]
  exact (List.perm_insertionSort _ _).mem_iff

theorem sortDedup_nodup (l : List Nat) : (sortDedup l).Nodup :=
  List.nodup_dedup _

theorem sortDedup_sorted (l : List Nat) : List.Sorted (· ≤ ·) (sortDedup l) :=
  List.Pairwise.sublist (List.dedup_sublist _) (List.sorted_insertionSort _ _)

theorem sortDedup_eq_of_mem_iff {l₁ l₂ : List Nat}
    (h : ∀ a, a ∈ sortDedup l₁ ↔ a ∈ sortDedup l₂) : sortDedup l₁ = sortDedup l₂ :=
  List.eq_of_perm_of_sorted
    ((List.perm_ext_iff_of_nodup (sortDedup_nodup l₁) (sortDedup_nodup l₂)).mpr h)
    (sortDedup_sorted l₁) (sortDedup_sorted l₂)

/-- One closure step: keep the current cores and add every core neighbor of a
member. -/
def closureStep (s : List Nat) : List Nat :=
  sortDedup (s ++ s.flatMap (fun u => (nbrs u).filter isCore))

/-- Iterate the closure step. -/
def iterStep : Nat → List Nat → List Nat
  | 0, s => s
  | Nat.succ k, s => iterStep k (closureStep isCore nbrs s)

/-- The core-graph component of a seed `i`, as the `n`-fold closure of `{i}`
(`n` = point count). -/
def component (n i : Nat) : List Nat := iterStep isCore nbrs n [i]

theorem mem_closureStep {s : List Nat} {a : Nat} :
    a ∈ closureStep isCore nbrs s ↔
      a ∈ s ∨ ∃ u ∈ s, a ∈ nbrs u ∧ isCore a = true := by
  unfold closureStep
  rw [mem_sortDedup, List.mem_append, List.mem_flatMap]
  simp only [List.mem_filter]

theorem subset_closureStep (s : List Nat) : ∀ a ∈ s, a ∈ closureStep isCore nbrs s :=
  fun a ha => (mem_closureStep isCore nbrs).mpr (Or.inl ha)

theorem iterStep_add (k₁ k₂ : Nat) (s : List Nat) :
    iterStep isCore nbrs (k₁ + k₂) s = iterStep isCore nbrs k₂ (iterStep isCore nbrs k₁ s) := by
  induction k₁ generalizing s with
  | zero => simp [iterStep]
  | succ k ih =>
    have : k + 1 + k₂ = (k + k₂) + 1 := by omega
    rw [this]
    show iterStep isCore nbrs (k + k₂) (closureStep isCore nbrs s) = _
    rw [ih]
    rfl

theorem iterStep_fixed {s : List Nat} (h : closureStep isCore nbrs s = s) (k : Nat) :
    iterStep isCore nbrs k s = s := by
  induction k with
  | zero => rfl
  | succ k ih =>
    show iterStep isCore nbrs k (closureStep isCore nbrs s) = s
    rw [h, ih]

theorem subset_iterStep (k : Nat) (s : List Nat) : ∀ a ∈ s, a ∈ iterStep isCore nbrs k s := by
  induction k generalizing s with
  | zero => exact fun a ha => ha
  | succ k ih =>
    intro a ha
    exact ih _ a (subset_closureStep isCore nbrs s a ha)

theorem iterStep_invariant (S : Nat → Prop)
    (hstep : ∀ u v, S u → v ∈ nbrs u → isCore v = true → S v) :
    ∀ (k : Nat) (s : List Nat), (∀ a ∈ s, S a) → ∀ a ∈ iterStep isCore nbrs k s, S a := by
  intro k
  induction k with
  | zero => exact fun s hs => hs
  | succ k ih =>
    intro s hs
    refine ih _ ?_
    intro a ha
    rcases (mem_closureStep isCore nbrs).mp ha with h | ⟨u, hu, hn, hc⟩
    · exact hs a h
    · exact hstep u a (hs u hu) hn hc

theorem mem_component_self (n i : Nat) : i ∈ component isCore nbrs n i :=
  subset_iterStep isCore nbrs n [i] i (List.mem_singleton_self i)

theorem component_mem_core {n i : Nat} (hcore : isCore i = true) :
    ∀ j ∈ component isCore nbrs n i, isCore j = true :=
  iterStep_invariant isCore nbrs (fun a => isCore a = true)
    (fun _ _ _ _ hc => hc) n [i] (by simpa using hcore)

theorem component_mem_lt {n i : Nat} (hi : i < n)
    (Hmem : ∀ u j, j ∈ nbrs u → j < n) :
    ∀ j ∈ component isCore nbrs n i, j < n :=
  iterStep_invariant isCore nbrs (fun a => a < n)
    (fun u v _ hv _ => Hmem u v hv) n [i] (by simpa using hi)

theorem closureStep_canonical (s : List Nat) : ∃ t, closureStep isCore nbrs s = sortDedup t :=
  ⟨_, rfl⟩

theorem iterStep_one (s : List Nat) : iterStep isCore nbrs 1 s = closureStep isCore nbrs s := rfl

theorem iterStep_succ_out (k : Nat) (s : List Nat) :
    iterStep isCore nbrs (k + 1) s = closureStep isCore nbrs (iterStep isCore nbrs k s) := by
  rw [iterStep_add isCore nbrs k 1 s, iterStep_one]

theorem iterStep_nodup (k : Nat) {s : List Nat} (hs : s.Nodup) :
    (iterStep isCore nbrs k s).Nodup := by
  cases k with
  | zero => exact hs
  | succ k =>
    rw [iterStep_succ_out]
    exact sortDedup_nodup _

theorem iterStep_canonical (k : Nat) {s : List Nat} (hs : ∃ t, s = sortDedup t) :
    ∃ t, iterStep isCore nbrs k s = sortDedup t := by
  cases k with
  | zero => exact hs
  | succ k =>
    rw [iterStep_succ_out]
    exact ⟨_, rfl⟩

theorem closureStep_mono_length {s : List Nat} (hnd : s.Nodup) :
    s.length ≤ (closureStep isCore nbrs s).length :=
  (List.subperm_of_subset hnd (fun a ha => subset_closureStep isCore nbrs s a ha)).length_le

theorem closureStep_eq_of_length_le {s : List Nat} (hcanon : ∃ t, s = sortDedup t)
    (hlen : (closureStep isCore nbrs s).length ≤ s.length) :
    closureStep isCore nbrs s = s := by
  obtain ⟨t, rfl⟩ := hcanon
  have hperm : (sortDedup t).Perm (closureStep isCore nbrs (sortDedup t)) :=
    (List.subperm_of_subset (sortDedup_nodup t)
      (fun a ha => subset_closureStep isCore nbrs _ a ha)).perm_of_length_le hlen
  exact (List.eq_of_perm_of_sorted hperm (sortDedup_sorted t)
    (by obtain ⟨u, hu⟩ := closureStep_canonical isCore nbrs (sortDedup t)
        rw [hu]; exact sortDedup_sorted u)).symm

/-- Within `n` closure steps the component of a seed `i < n` reaches its fixed
point: it is closed under adding core neighbors. -/
theorem component_closed (n i : Nat) (hi : i < n)
    (Hmem : ∀ u j, j ∈ nbrs u → j < n) :
    closureStep isCore nbrs (component isCore nbrs n i) = component isCore nbrs n i := by
  have hlt : ∀ k, ∀ a ∈ iterStep isCore nbrs k [i], a < n := by
    intro k
    exact iterStep_invariant isCore nbrs (fun a => a < n)
      (fun u v _ hv _ => Hmem u v hv) k [i] (by simpa using hi)
  have hnodup : ∀ k, (iterStep isCore nbrs k [i]).Nodup := by
    intro k
    exact iterStep_nodup isCore nbrs k (List.nodup_singleton i)
  have hcanon : ∀ k, ∃ t, iterStep isCore nbrs k [i] = sortDedup t := by
    intro k
    exact iterStep_canonical isCore nbrs k ⟨[i], rfl⟩
  have hbound : ∀ k, (iterStep isCore nbrs k [i]).length ≤ n := by
    intro k
    exact (List.subperm_of_subset (hnodup k)
      (fun a ha => List.mem_range.mpr (hlt k a ha))).length_le.trans
      (le_of_eq (List.length_range n))
  by_cases hstable : ∃ k, k ≤ n ∧
      closureStep isCore nbrs (iterStep isCore nbrs k [i]) = iterStep isCore nbrs k [i]
  · obtain ⟨k, hk, hfix⟩ := hstable
    have hcomp : component isCore nbrs n i = iterStep isCore nbrs k [i] := by
      unfold component
      have : n = k + (n - k) := by omega
      rw [this, iterStep_add]
      exact iterStep_fixed isCore nbrs hfix _
    rw [hcomp]
    exact hfix
  · exfalso
    push_neg at hstable
    have hgrow : ∀ k, k ≤ n + 1 → k ≤ (iterStep isCore nbrs k [i]).length := by
      intro k
      induction k with
      | zero => omega
      | succ k ih =>
        intro hk
        have h1 := ih (by omega)
        have hne := hstable k (by omega)
        rw [iterStep_succ_out]
        have hmono := closureStep_mono_length isCore nbrs (hnodup k)
        rcases lt_or_le (iterStep isCore nbrs k [i]).length
          (closureStep isCore nbrs (iterStep isCore nbrs k [i])).length with hlt' | hle'
        · omega
        · exact absurd (closureStep_eq_of_length_le isCore nbrs (hcanon k) hle') hne
    have h1 := hgrow (n + 1) (le_refl _)
    have h2 := hbound (n + 1)
    omega

theorem mem_component_closed {n i : Nat} (hi : i < n)
    (Hmem : ∀ u j, j ∈ nbrs u → j < n) :
    ∀ u ∈ component isCore nbrs n i, ∀ v ∈ nbrs u, isCore v = true →
      v ∈ component isCore nbrs n i := by
  intro u hu v hv hc
  have := component_closed isCore nbrs n i hi Hmem
  rw [← this]
  exact (mem_closureStep isCore nbrs).mpr (Or.inr ⟨u, hu, hv, hc⟩)

/-- `component i` is the least set containing `i` that is closed under adding
core neighbors. -/
theorem component_minimal (n i : Nat) (S : Nat → Prop) (hbase : S i)
    (hstep : ∀ u v, S u → v ∈ nbrs u → isCore v = true → S v) :
    ∀ j ∈ component isCore nbrs n i, S j :=
  iterStep_invariant isCore nbrs S hstep n [i] (by simpa using hbase)

theorem component_canonical (n i : Nat) : ∃ t, component isCore nbrs n i = sortDedup t :=
  iterStep_canonical isCore nbrs n ⟨[i], rfl⟩

theorem component_subset_of_mem {n i j : Nat} (hi : i < n)
    (Hmem : ∀ u v, v ∈ nbrs u → v < n)
    (hj : j ∈ component isCore nbrs n i) :
    ∀ a ∈ component isCore nbrs n j, a ∈ component isCore nbrs n i :=
  component_minimal isCore nbrs n j (fun a => a ∈ component isCore nbrs n i) hj
    (fun u v hu hv hc => mem_component_closed isCore nbrs hi Hmem u hu v hv hc)

theorem mem_component_symm {n i j : Nat} (hi : i < n) (hcore : isCore i = true)
    (Hmem : ∀ u v, v ∈ nbrs u → v < n)
    (Hsym : ∀ u v, u < n → v < n → (v ∈ nbrs u ↔ u ∈ nbrs v))
    (hj : j ∈ component isCore nbrs n i) :
    i ∈ component isCore nbrs n j := by
  have := component_minimal isCore nbrs n i
    (fun u => u < n ∧ isCore u = true ∧ i ∈ component isCore nbrs n u)
    ⟨hi, hcore, mem_component_self isCore nbrs n i⟩
    (fun u v hu hv hc => by
      obtain ⟨hun, hucore, hiu⟩ := hu
      have hvn : v < n := Hmem u v hv
      have huv : u ∈ nbrs v := (Hsym u v hun hvn).mp hv
      have huc : u ∈ component isCore nbrs n v :=
        mem_component_closed isCore nbrs hvn Hmem v (mem_component_self isCore nbrs n v)
          u huv hucore
      exact ⟨hvn, hc, component_subset_of_mem isCore nbrs hvn Hmem huc i hiu⟩)
  exact (this j hj).2.2

/-- Connected cores have literally equal component lists (components are
canonical sorted duplicate-free lists). -/
theorem component_congr {n i j : Nat} (hi : i < n) (hcore : isCore i = true)
    (Hmem : ∀ u v, v ∈ nbrs u → v < n)
    (Hsym : ∀ u v, u < n → v < n → (v ∈ nbrs u ↔ u ∈ nbrs v))
    (hj : j ∈ component isCore nbrs n i) :
    component isCore nbrs n j = component isCore nbrs n i := by
  obtain ⟨t₁, ht₁⟩ := component_canonical isCore nbrs n j
  obtain ⟨t₂, ht₂⟩ := component_canonical isCore nbrs n i
  rw [ht₁, ht₂]
  apply sortDedup_eq_of_mem_iff
  intro a
  rw [← ht₁, ← ht₂]
  constructor
  · exact fun ha => component_subset_of_mem isCore nbrs hi Hmem hj a ha
  · intro ha
    have hij : i ∈ component isCore nbrs n j :=
      mem_component_symm isCore nbrs hi hcore Hmem Hsym hj
    have hjn : j < n := component_mem_lt isCore nbrs hi Hmem j hj
    exact component_subset_of_mem isCore nbrs hjn Hmem hij a ha

/-! ### Component minima, seeds and ranks -/

theorem foldr_min_spec (init : Nat) (l : List Nat) :
    (l.foldr min init = init ∨ l.foldr min init ∈ l) ∧
      l.foldr min init ≤ init ∧ ∀ x ∈ l, l.foldr min init ≤ x := by
  induction l with
  | nil => simp
  | cons a t ih =>
    obtain ⟨hmem, hinit, hlb⟩ := ih
    have hminle₁ : min a (t.foldr min init) ≤ a := min_le_left _ _
    have hminle₂ : min a (t.foldr min init) ≤ t.foldr min init := min_le_right _ _
    have hmineq : min a (t.foldr min init) = a ∨
        min a (t.foldr min init) = t.foldr min init :=
      min_choice a (t.foldr min init)
    refine ⟨?_, ?_, ?_⟩
    · simp only [List.foldr_cons, List.mem_cons]
      rcases hmineq with h | h
      · right; left; exact h
      · rcases hmem with h' | h'
        · left; omega
        · right; right; rw [h]; exact h'
    · simp only [List.foldr_cons]
      omega
    · intro x hx
      simp only [List.foldr_cons]
      rcases List.mem_cons.mp hx with rfl | hx'
      · omega
      · have := hlb x hx'
        omega

/-- Minimum index of the component of `i` (including `i` itself). -/
def compMin (n i : Nat) : Nat := (component isCore nbrs n i).foldr min i

theorem compMin_mem (n i : Nat) :
    compMin isCore nbrs n i ∈ component isCore nbrs n i := by
  have h := foldr_min_spec i (component isCore nbrs n i)
  rcases h.1 with heq | hmem
  · rw [show compMin isCore nbrs n i = (component isCore nbrs n i).foldr min i from rfl, heq]
    exact mem_component_self isCore nbrs n i
  · exact hmem

theorem compMin_le_self (n i : Nat) : compMin isCore nbrs n i ≤ i :=
  (foldr_min_spec i (component isCore nbrs n i)).2.1

theorem compMin_le_mem (n i : Nat) : ∀ j ∈ component isCore nbrs n i,
    compMin isCore nbrs n i ≤ j :=
  (foldr_min_spec i (component isCore nbrs n i)).2.2

theorem compMin_congr {n i j : Nat} (hi : i < n) (hcore : isCore i = true)
    (Hmem : ∀ u v, v ∈ nbrs u → v < n)
    (Hsym : ∀ u v, u < n → v < n → (v ∈ nbrs u ↔ u ∈ nbrs v))
    (hj : j ∈ component isCore nbrs n i) :
    compMin isCore nbrs n j = compMin isCore nbrs n i := by
  have hcc := component_congr isCore nbrs hi hcore Hmem Hsym hj
  have h₁ := foldr_min_spec j (component isCore nbrs n j)
  have h₂ := foldr_min_spec i (component isCore nbrs n i)
  have hm₁ : compMin isCore nbrs n j ∈ component isCore nbrs n i := by
    rw [← hcc]; exact compMin_mem isCore nbrs n j
  have hm₂ : compMin isCore nbrs n i ∈ component isCore nbrs n j := by
    rw [hcc]; exact compMin_mem isCore nbrs n i
  have hle₁ := compMin_le_mem isCore nbrs n j _ hm₂
  have hle₂ := compMin_le_mem isCore nbrs n i _ hm₁
  omega

/-- A seed is a core point that is the minimum of its own component: exactly
the points at which the sequential / frontier scans open a new cluster. -/
def seedB (n s : Nat) : Bool := isCore s && decide (compMin isCore nbrs n s = s)

/-- Number of seeds with index strictly below `x`. -/
def seedsBelow (n x : Nat) : Nat :=
  (List.range n).countP (fun s => seedB isCore nbrs n s && decide (s < x))

/-- Rank of the component of a core point `i`: the number of seeds strictly
below its component minimum.  This is the cluster id every expansion strategy
assigns to the component. -/
def rankOf (n i : Nat) : Nat := seedsBelow isCore nbrs n (compMin isCore nbrs n i)

theorem countP_mono_of_imp {l : List Nat} {p q : Nat → Bool}
    (h : ∀ x ∈ l, p x = true → q x = true) : l.countP p ≤ l.countP q := by
  induction l with
  | nil => simp
  | cons a t ih =>
    simp only [List.countP_cons]
    have ht := ih (fun x hx => h x (List.mem_cons_of_mem a hx))
    by_cases hpa : p a = true
    · rw [if_pos hpa, if_pos (h a (List.mem_cons_self a t) hpa)]
      omega
    · rw [if_neg hpa]
      split_ifs <;> omega

theorem countP_strict_of_imp {l : List Nat} {p q : Nat → Bool} {a : Nat}
    (h : ∀ x ∈ l, p x = true → q x = true) (ha : a ∈ l) (hqa : q a = true)
    (hpa : p a = false) : l.countP p < l.countP q := by
  induction l with
  | nil => simp at ha
  | cons b t ih =>
    simp only [List.countP_cons]
    have hmono := countP_mono_of_imp (fun x hx => h x (List.mem_cons_of_mem b hx))
    rcases List.mem_cons.mp ha with rfl | hat
    · rw [if_pos hqa, if_neg (by simp [hpa])]
      omega
    · have hlt := ih (fun x hx => h x (List.mem_cons_of_mem b hx)) hat
      by_cases hpb : p b = true
      · rw [if_pos hpb, if_pos (h b (List.mem_cons_self b t) hpb)]
        omega
      · rw [if_neg hpb]
        split_ifs <;> omega

theorem seedsBelow_mono {n x y : Nat} (hxy : x ≤ y) :
    seedsBelow isCore nbrs n x ≤ seedsBelow isCore nbrs n y := by
  apply countP_mono_of_imp
  intro s _ hs
  simp only [Bool.and_eq_true, decide_eq_true_eq] at hs ⊢
  exact ⟨hs.1, by omega⟩

theorem seedsBelow_strict {n x y a : Nat} (ha : a < n) (hseed : seedB isCore nbrs n a = true)
    (hax : x ≤ a) (hay : a < y) :
    seedsBelow isCore nbrs n x < seedsBelow isCore nbrs n y := by
  apply countP_strict_of_imp (a := a)
  · intro s _ hs
    simp only [Bool.and_eq_true, decide_eq_true_eq] at hs ⊢
    exact ⟨hs.1, by omega⟩
  · exact List.mem_range.mpr ha
  · simp only [Bool.and_eq_true, decide_eq_true_eq]
    exact ⟨hseed, hay⟩
  · have hd : decide (a < x) = false := by
      simp only [decide_eq_false_iff_not]
      omega
    rw [hd, Bool.and_false]

theorem compMin_lt {n i : Nat} (hi : i < n) : compMin isCore nbrs n i < n :=
  lt_of_le_of_lt (compMin_le_self isCore nbrs n i) hi

theorem compMin_is_seed {n i : Nat} (hi : i < n) (hcore : isCore i = true)
    (Hmem : ∀ u v, v ∈ nbrs u → v < n)
    (Hsym : ∀ u v, u < n → v < n → (v ∈ nbrs u ↔ u ∈ nbrs v)) :
    seedB isCore nbrs n (compMin isCore nbrs n i) = true := by
  have hm := compMin_mem isCore nbrs n i
  have hmcore := component_mem_core isCore nbrs hcore _ hm
  have hcc := compMin_congr isCore nbrs hi hcore Hmem Hsym hm
  unfold seedB
  rw [hmcore, hcc]
  simp

theorem rankOf_lt_iff {n i x : Nat} (hi : i < n) (hcore : isCore i = true)
    (Hmem : ∀ u v, v ∈ nbrs u → v < n)
    (Hsym : ∀ u v, u < n → v < n → (v ∈ nbrs u ↔ u ∈ nbrs v)) :
    rankOf isCore nbrs n i < seedsBelow isCore nbrs n x ↔ compMin isCore nbrs n i < x := by
  constructor
  · intro h
    by_contra hc
    push_neg at hc
    have := seedsBelow_mono isCore nbrs (n := n) hc
    unfold rankOf at h
    omega
  · intro h
    exact seedsBelow_strict isCore nbrs (compMin_lt isCore nbrs hi)
      (compMin_is_seed isCore nbrs hi hcore Hmem Hsym) (le_refl _) h

theorem rankOf_congr {n i j : Nat} (hi : i < n) (hcore : isCore i = true)
    (Hmem : ∀ u v, v ∈ nbrs u → v < n)
    (Hsym : ∀ u v, u < n → v < n → (v ∈ nbrs u ↔ u ∈ nbrs v))
    (hj : j ∈ component isCore nbrs n i) :
    rankOf isCore nbrs n j = rankOf isCore nbrs n i := by
  unfold rankOf
  rw [compMin_congr isCore nbrs hi hcore Hmem Hsym hj]

/-- When a new cluster is opened at a seed `i` by the ascending scans, its id
equals the seed count below `i`. -/
theorem rankOf_seed {n i : Nat} (hmin : compMin isCore nbrs n i = i) :
    rankOf isCore nbrs n i = seedsBelow isCore nbrs n i := by
  unfold rankOf
  rw [hmin]

/-! ### The canonical labeling -/

theorem foldl_min_spec (c : Nat) (cs : List Nat) :
    (cs.foldl min c = c ∨ cs.foldl min c ∈ cs) ∧
      cs.foldl min c ≤ c ∧ ∀ x ∈ cs, cs.foldl min c ≤ x := by
  induction cs generalizing c with
  | nil => simp
  | cons a t ih =>
    simp only [List.foldl_cons]
    obtain ⟨h1, h2, h3⟩ := ih (min c a)
    have hle1 : min c a ≤ c := min_le_left _ _
    have hle2 : min c a ≤ a := min_le_right _ _
    have hch : min c a = c ∨ min c a = a := by omega
    refine ⟨?_, le_trans h2 hle1, ?_⟩
    · rcases h1 with h | h
      · rcases hch with hc | hc
        · left
          rw [h, hc]
        · right
          rw [h, hc]
          exact List.mem_cons_self a t
      · right
        exact List.mem_cons_of_mem a h
    · intro x hx
      rcases List.mem_cons.mp hx with rfl | hx'
      · omega
      · exact h3 x hx'

/-- The ranks of the core neighbors of `j`, in enumeration order. -/
def coreRanks (n j : Nat) : List Nat :=
  ((nbrs j).filter isCore).map (fun u => rankOf isCore nbrs n u)

/-- Minimum rank among the core neighbors of `j` (`none` when there is no core
neighbor). -/
def minAdjRank (n j : Nat) : Option Nat :=
  match coreRanks isCore nbrs n j with
  | [] => none
  | c :: cs => some (cs.foldl min c)

theorem minAdjRank_none_iff (n j : Nat) :
    minAdjRank isCore nbrs n j = none ↔ ∀ u ∈ nbrs j, isCore u = false := by
  unfold minAdjRank
  constructor
  · intro h u hu
    by_contra hc
    have hcore : isCore u = true := by
      cases h' : isCore u
      · exact absurd h' hc
      · rfl
    have hmem : rankOf isCore nbrs n u ∈ coreRanks isCore nbrs n j := by
      unfold coreRanks
      rw [List.mem_map]
      exact ⟨u, List.mem_filter.mpr ⟨hu, hcore⟩, rfl⟩
    cases hcr : coreRanks isCore nbrs n j with
    | nil =>
      rw [hcr] at hmem
      simp at hmem
    | cons c cs =>
      rw [hcr] at h
      simp at h
  · intro hall
    have hnil : coreRanks isCore nbrs n j = [] := by
      unfold coreRanks
      rw [List.map_eq_nil, List.filter_eq_nil_iff]
      intro u hu
      rw [hall u hu]
      simp
    rw [hnil]

theorem minAdjRank_spec {n j m : Nat} (h : minAdjRank isCore nbrs n j = some m) :
    (∃ u ∈ nbrs j, isCore u = true ∧ rankOf isCore nbrs n u = m) ∧
      (∀ u ∈ nbrs j, isCore u = true → m ≤ rankOf isCore nbrs n u) := by
  unfold minAdjRank at h
  cases hcr : coreRanks isCore nbrs n j with
  | nil => rw [hcr] at h; simp at h
  | cons c cs =>
    rw [hcr] at h
    simp only [Option.some.injEq] at h
    obtain ⟨h1, h2, h3⟩ := foldl_min_spec c cs
    constructor
    · have hmem : m ∈ c :: cs := by
        rcases h1 with hh | hh
        · rw [← h, hh]; exact List.mem_cons_self c cs
        · rw [← h]; exact List.mem_cons_of_mem c hh
      rw [← hcr] at hmem
      unfold coreRanks at hmem
      rw [List.mem_map] at hmem
      obtain ⟨u, humem, hrank⟩ := hmem
      rw [List.mem_filter] at humem
      exact ⟨u, humem.1, humem.2, hrank⟩
    · intro u hu hcore
      have : rankOf isCore nbrs n u ∈ coreRanks isCore nbrs n j := by
        unfold coreRanks
        rw [List.mem_map]
        exact ⟨u, List.mem_filter.mpr ⟨hu, hcore⟩, rfl⟩
      rw [hcr] at this
      rcases List.mem_cons.mp this with heq | hmem
      · rw [← h, heq]; exact h2
      · rw [← h]; exact h3 _ hmem

/-- The canonical final label of point `j`: cores get the rank of their
component; non-cores adopt the minimum rank among their core neighbors, or
`-1` when they have none.  All three expansion modes compute this labeling. -/
def canonLabel (n j : Nat) : Int :=
  if isCore j then (rankOf isCore nbrs n j : Int)
  else
    match minAdjRank isCore nbrs n j with
    | none => -1
    | some m => (m : Int)

/-- The labeling after the first `r` clusters have been expanded: labels with
rank `< r` are already assigned, the rest still `-1`. -/
def canonUpTo (r n j : Nat) : Int :=
  if isCore j then
    (if rankOf isCore nbrs n j < r then (rankOf isCore nbrs n j : Int) else -1)
  else
    match minAdjRank isCore nbrs n j with
    | none => -1
    | some m => if m < r then (m : Int) else -1

/-- The canonical label vector. -/
def canonLabels (n : Nat) : List Int := (List.range n).map (canonLabel isCore nbrs n)

theorem canonUpTo_zero (n j : Nat) : canonUpTo isCore nbrs 0 n j = -1 := by
  unfold canonUpTo
  by_cases h : isCore j = true
  · rw [if_pos h, if_neg (Nat.not_lt_zero (rankOf isCore nbrs n j))]
  · rw [if_neg h]
    cases minAdjRank isCore nbrs n j with
    | none => rfl
    | some m =>
      show (if m < 0 then (m : Int) else -1) = -1
      rw [if_neg (Nat.not_lt_zero m)]

theorem seedsBelow_zero (n : Nat) : seedsBelow isCore nbrs n 0 = 0 := by
  unfold seedsBelow
  rw [List.countP_eq_zero]
  intro s _
  simp

theorem countP_eq_of_agree {l : List Nat} {p q : Nat → Bool}
    (h : ∀ x ∈ l, p x = q x) : l.countP p = l.countP q := by
  induction l with
  | nil => simp
  | cons a t ih =>
    simp only [List.countP_cons]
    rw [h a (List.mem_cons_self a t), ih (fun x hx => h x (List.mem_cons_of_mem a hx))]

theorem countP_split_one {l : List Nat} (hnd : l.Nodup) {p q : Nat → Bool} {a : Nat}
    (ha : a ∈ l) (hq : q a = true) (hp : p a = false)
    (hagree : ∀ x ∈ l, x ≠ a → p x = q x) :
    l.countP q = l.countP p + 1 := by
  induction l with
  | nil => simp at ha
  | cons b t ih =>
    simp only [List.countP_cons]
    rcases List.mem_cons.mp ha with rfl | hat
    · have hnotmem := (List.nodup_cons.mp hnd).1
      have htail : t.countP p = t.countP q := by
        apply countP_eq_of_agree
        intro x hx
        exact hagree x (List.mem_cons_of_mem _ hx) (by rintro rfl; exact hnotmem hx)
      rw [if_pos hq, if_neg (by simp [hp]), htail]
    · have hba : b ≠ a := by
        rintro rfl
        exact (List.nodup_cons.mp hnd).1 hat
      have hrec := ih (List.nodup_cons.mp hnd).2 hat
        (fun x hx hxa => hagree x (List.mem_cons_of_mem b hx) hxa)
      rw [hagree b (List.mem_cons_self b t) hba, hrec]
      omega

theorem seedsBelow_succ_seed {n i : Nat} (hi : i < n)
    (hseed : seedB isCore nbrs n i = true) :
    seedsBelow isCore nbrs n (i + 1) = seedsBelow isCore nbrs n i + 1 := by
  unfold seedsBelow
  apply countP_split_one (List.nodup_range n) (List.mem_range.mpr hi)
  · simp only [Bool.and_eq_true, decide_eq_true_eq]
    exact ⟨hseed, by omega⟩
  · have : decide (i < i) = false := by simp
    rw [this, Bool.and_false]
  · intro x _ hxa
    by_cases hs : seedB isCore nbrs n x = true
    · rw [hs, Bool.true_and, Bool.true_and]
      simp only [decide_eq_decide]
      omega
    · have hs' : seedB isCore nbrs n x = false := by
        cases h : seedB isCore nbrs n x
        · rfl
        · exact absurd h hs
      rw [hs', Bool.false_and, Bool.false_and]

theorem seedsBelow_succ_not {n i : Nat} (hnotseed : seedB isCore nbrs n i = false) :
    seedsBelow isCore nbrs n (i + 1) = seedsBelow isCore nbrs n i := by
  unfold seedsBelow
  apply countP_eq_of_agree
  intro x _
  by_cases hxi : x = i
  · subst hxi
    rw [hnotseed, Bool.false_and, Bool.false_and]
  · by_cases hs : seedB isCore nbrs n x = true
    · rw [hs, Bool.true_and, Bool.true_and]
      simp only [decide_eq_decide]
      omega
    · have hs' : seedB isCore nbrs n x = false := by
        cases h : seedB isCore nbrs n x
        · rfl
        · exact absurd h hs
      rw [hs', Bool.false_and, Bool.false_and]

/-- The contract each cluster-expansion routine satisfies when invoked on an
unlabeled core seed `s` with a fresh cluster id `lab` (seed already stored):
it labels exactly the component of `s` and its still-unlabeled neighbors with
`lab`, and touches nothing else. -/
def ExpandSpec (n : Nat) (expandFn : Nat → List Int → Nat → List Int) : Prop :=
  ∀ (lab : Nat) (labels : List Int) (s : Nat),
    s < n → isCore s = true → labels.length = n →
    (∀ u ∈ component isCore nbrs n s, labels.getD u 0 = -1) →
    (∀ j, j < n → labels.getD j 0 ≠ (lab : Int)) →
    (expandFn lab (labels.set s (lab : Int)) s).length = n ∧
    (∀ u ∈ component isCore nbrs n s,
      (expandFn lab (labels.set s (lab : Int)) s).getD u 0 = (lab : Int)) ∧
    (∀ j, labels.getD j 0 ≠ -1 →
      (expandFn lab (labels.set s (lab : Int)) s).getD j 0 = labels.getD j 0) ∧
    (∀ j, labels.getD j 0 = -1 → j ∉ component isCore nbrs n s →
      (∀ u ∈ component isCore nbrs n s, j ∉ nbrs u) →
      (expandFn lab (labels.set s (lab : Int)) s).getD j 0 = -1) ∧
    (∀ j, labels.getD j 0 = -1 → (∃ u ∈ component isCore nbrs n s, j ∈ nbrs u) →
      (expandFn lab (labels.set s (lab : Int)) s).getD j 0 = (lab : Int))

theorem canonUpTo_core (r n j : Nat) (hc : isCore j = true) :
    canonUpTo isCore nbrs r n j =
      if rankOf isCore nbrs n j < r then (rankOf isCore nbrs n j : Int) else -1 := by
  unfold canonUpTo
  rw [if_pos hc]

theorem canonUpTo_noncore_none (r n j : Nat) (hnc : isCore j = false)
    (hm : minAdjRank isCore nbrs n j = none) :
    canonUpTo isCore nbrs r n j = -1 := by
  unfold canonUpTo
  have hcnd : ¬ (isCore j = true) := by simp [hnc]
  rw [if_neg hcnd, hm]

theorem canonUpTo_noncore_some (r n j m : Nat) (hnc : isCore j = false)
    (hm : minAdjRank isCore nbrs n j = some m) :
    canonUpTo isCore nbrs r n j = if m < r then (m : Int) else -1 := by
  unfold canonUpTo
  have hcnd : ¬ (isCore j = true) := by simp [hnc]
  rw [if_neg hcnd, hm]

theorem canonLabel_core (n j : Nat) (hc : isCore j = true) :
    canonLabel isCore nbrs n j = (rankOf isCore nbrs n j : Int) := by
  unfold canonLabel
  rw [if_pos hc]

theorem canonLabel_noncore_none (n j : Nat) (hnc : isCore j = false)
    (hm : minAdjRank isCore nbrs n j = none) :
    canonLabel isCore nbrs n j = -1 := by
  unfold canonLabel
  have hcnd : ¬ (isCore j = true) := by simp [hnc]
  rw [if_neg hcnd, hm]

theorem canonLabel_noncore_some (n j m : Nat) (hnc : isCore j = false)
    (hm : minAdjRank isCore nbrs n j = some m) :
    canonLabel isCore nbrs n j = (m : Int) := by
  unfold canonLabel
  have hcnd : ¬ (isCore j = true) := by simp [hnc]
  rw [if_neg hcnd, hm]

/-- Once every seed has been expanded, the partial labeling is the canonical
one. -/
theorem canonUpTo_top {n j : Nat} (hj : j < n)
    (Hmem : ∀ u v, v ∈ nbrs u → v < n)
    (Hsym : ∀ u v, u < n → v < n → (v ∈ nbrs u ↔ u ∈ nbrs v)) :
    canonUpTo isCore nbrs (seedsBelow isCore nbrs n n) n j =
      canonLabel isCore nbrs n j := by
  by_cases hjc : isCore j = true
  · rw [canonUpTo_core isCore nbrs _ n j hjc, canonLabel_core isCore nbrs n j hjc]
    have hr : rankOf isCore nbrs n j < seedsBelow isCore nbrs n n :=
      (rankOf_lt_iff isCore nbrs hj hjc Hmem Hsym).mpr (compMin_lt isCore nbrs hj)
    rw [if_pos hr]
  · have hjnc : isCore j = false := by
      cases hh : isCore j
      · rfl
      · exact absurd hh hjc
    cases hm : minAdjRank isCore nbrs n j with
    | none =>
      rw [canonUpTo_noncore_none isCore nbrs _ n j hjnc hm,
        canonLabel_noncore_none isCore nbrs n j hjnc hm]
    | some m =>
      rw [canonUpTo_noncore_some isCore nbrs _ n j m hjnc hm,
        canonLabel_noncore_some isCore nbrs n j m hjnc hm]
      obtain ⟨⟨u, hu, hucore, hur⟩, _⟩ := minAdjRank_spec isCore nbrs hm
      have hun : u < n := Hmem j u hu
      have hr : m < seedsBelow isCore nbrs n n := by
        rw [← hur]
        exact (rankOf_lt_iff isCore nbrs hun hucore Hmem Hsym).mpr
          (compMin_lt isCore nbrs hun)
      rw [if_pos hr]

/-- One iteration of the outer seed scan shared by `sequential_expand` and
`frontier_expand`: an unlabeled core opens a fresh cluster id, stores it at the
seed, and hands over to the expansion routine. -/
def outerStep (expandFn : Nat → List Int → Nat → List Int)
    (acc : List Int × Nat) (j : Nat) : List Int × Nat :=
  if isCore j = true ∧ acc.1.getD j 0 = -1 then
    (expandFn acc.2 (acc.1.set j (acc.2 : Int)) j, acc.2 + 1)
  else acc

/-- The outer seed scan over all indices, starting from the all-`-1` labeling. -/
def outerScan (expandFn : Nat → List Int → Nat → List Int) (n : Nat) : List Int :=
  ((List.range n).foldl (outerStep isCore expandFn)
    (List.replicate n (-1 : Int), 0)).1

/-- Any expansion routine satisfying `ExpandSpec`, driven by the ascending
outer seed scan, produces exactly the canonical labeling. -/
theorem outerScan_eq_canon (n : Nat)
    (Hmem : ∀ u v, v ∈ nbrs u → v < n)
    (Hsym : ∀ u v, u < n → v < n → (v ∈ nbrs u ↔ u ∈ nbrs v))
    (expandFn : Nat → List Int → Nat → List Int)
    (hspec : ExpandSpec isCore nbrs n expandFn) :
    outerScan isCore expandFn n = canonLabels isCore nbrs n := by
  have key : ∀ i, i ≤ n →
      ((List.range i).foldl (outerStep isCore expandFn)
          (List.replicate n (-1 : Int), 0)).1.length = n ∧
      ((List.range i).foldl (outerStep isCore expandFn)
          (List.replicate n (-1 : Int), 0)).2 = seedsBelow isCore nbrs n i ∧
      ∀ j, j < n →
        ((List.range i).foldl (outerStep isCore expandFn)
            (List.replicate n (-1 : Int), 0)).1.getD j 0 =
          canonUpTo isCore nbrs (seedsBelow isCore nbrs n i) n j := by
    intro i
    induction i with
    | zero =>
      intro _
      refine ⟨by simp, by rw [seedsBelow_zero]; simp, ?_⟩
      intro j hj
      rw [seedsBelow_zero, canonUpTo_zero]
      simp only [List.range_zero, List.foldl_nil]
      rw [List.getD_eq_getElem _ _ (by simpa using hj)]
      simp
    | succ i ih =>
      intro hin
      have hi : i < n := hin
      have ihh := ih (Nat.le_of_succ_le hin)
      rw [List.range_succ, List.foldl_append, List.foldl_cons, List.foldl_nil]
      set st := (List.range i).foldl (outerStep isCore expandFn)
        (List.replicate n (-1 : Int), 0) with hst
      obtain ⟨hlen, hnext, hinv⟩ := ihh
      by_cases hcond : isCore i = true ∧ st.1.getD i 0 = -1
      · have hstep : outerStep isCore expandFn st i =
            (expandFn st.2 (st.1.set i (st.2 : Int)) i, st.2 + 1) := by
          unfold outerStep
          rw [if_pos hcond]
        rw [hstep]
        have hcanon_i : canonUpTo isCore nbrs (seedsBelow isCore nbrs n i) n i = -1 := by
          rw [← hinv i hi, hcond.2]
        have hrk_ge : ¬ rankOf isCore nbrs n i < seedsBelow isCore nbrs n i := by
          intro hlt
          rw [canonUpTo_core isCore nbrs _ n i hcond.1, if_pos hlt] at hcanon_i
          omega
        have hcm : compMin isCore nbrs n i = i := by
          have hle := compMin_le_self isCore nbrs n i
          rcases Nat.lt_or_ge (compMin isCore nbrs n i) i with hlt | _
          · exact absurd ((rankOf_lt_iff isCore nbrs hi hcond.1 Hmem Hsym).mpr hlt) hrk_ge
          · omega
        have hseed : seedB isCore nbrs n i = true := by
          unfold seedB
          rw [hcond.1, hcm]
          simp
        have hrk_eq : rankOf isCore nbrs n i = seedsBelow isCore nbrs n i :=
          rankOf_seed isCore nbrs hcm
        have hfreshcomp : ∀ u ∈ component isCore nbrs n i, st.1.getD u 0 = -1 := by
          intro u hu
          have hun : u < n := component_mem_lt isCore nbrs hi Hmem u hu
          have hucore : isCore u = true := component_mem_core isCore nbrs hcond.1 u hu
          have hru : rankOf isCore nbrs n u = rankOf isCore nbrs n i :=
            rankOf_congr isCore nbrs hi hcond.1 Hmem Hsym hu
          rw [hinv u hun, canonUpTo_core isCore nbrs _ n u hucore]
          have hcnd : ¬ rankOf isCore nbrs n u < seedsBelow isCore nbrs n i := by
            rw [hru, hrk_eq]
            omega
          rw [if_neg hcnd]
        have hfresh : ∀ j, j < n → st.1.getD j 0 ≠ (st.2 : Int) := by
          intro j hj
          rw [hinv j hj, hnext]
          by_cases hjc : isCore j = true
          · rw [canonUpTo_core isCore nbrs _ n j hjc]
            by_cases hr : rankOf isCore nbrs n j < seedsBelow isCore nbrs n i
            · rw [if_pos hr]
              intro h
              omega
            · rw [if_neg hr]
              intro h
              omega
          · have hjnc : isCore j = false := by
              cases hh : isCore j
              · rfl
              · exact absurd hh hjc
            cases hm : minAdjRank isCore nbrs n j with
            | none =>
              rw [canonUpTo_noncore_none isCore nbrs _ n j hjnc hm]
              intro h
              omega
            | some m =>
              rw [canonUpTo_noncore_some isCore nbrs _ n j m hjnc hm]
              by_cases hr : m < seedsBelow isCore nbrs n i
              · rw [if_pos hr]
                intro h
                omega
              · rw [if_neg hr]
                intro h
                omega
        obtain ⟨hL1, hL2, hL3, hL4, hL5⟩ :=
          hspec st.2 st.1 i hi hcond.1 hlen hfreshcomp hfresh
        refine ⟨hL1, ?_, ?_⟩
        · show st.2 + 1 = seedsBelow isCore nbrs n (i + 1)
          rw [seedsBelow_succ_seed isCore nbrs hi hseed, hnext]
        · intro j hj
          show (expandFn st.2 (st.1.set i (st.2 : Int)) i).getD j 0 =
            canonUpTo isCore nbrs (seedsBelow isCore nbrs n (i + 1)) n j
          rw [seedsBelow_succ_seed isCore nbrs hi hseed]
          by_cases hjcomp : j ∈ component isCore nbrs n i
          · rw [hL2 j hjcomp]
            have hjcore : isCore j = true := component_mem_core isCore nbrs hcond.1 j hjcomp
            have hjr : rankOf isCore nbrs n j = rankOf isCore nbrs n i :=
              rankOf_congr isCore nbrs hi hcond.1 Hmem Hsym hjcomp
            rw [canonUpTo_core isCore nbrs _ n j hjcore, hjr, hrk_eq]
            have hlt : seedsBelow isCore nbrs n i < seedsBelow isCore nbrs n i + 1 := by
              omega
            rw [if_pos hlt, hnext]
          · by_cases hjlab : st.1.getD j 0 = -1
            · by_cases hjadj : ∃ u ∈ component isCore nbrs n i, j ∈ nbrs u
              · rw [hL5 j hjlab hjadj]
                obtain ⟨u, hu, hju⟩ := hjadj
                have hun : u < n := component_mem_lt isCore nbrs hi Hmem u hu
                have hucore : isCore u = true := component_mem_core isCore nbrs hcond.1 u hu
                have hjnotcore : isCore j = false := by
                  cases hjc : isCore j
                  · rfl
                  · exact absurd
                      (mem_component_closed isCore nbrs hi Hmem u hu j hju hjc) hjcomp
                have huj : u ∈ nbrs j := (Hsym u j hun hj).mp hju
                have hur : rankOf isCore nbrs n u = seedsBelow isCore nbrs n i := by
                  rw [rankOf_congr isCore nbrs hi hcond.1 Hmem Hsym hu, hrk_eq]
                cases hm : minAdjRank isCore nbrs n j with
                | none =>
                  have := (minAdjRank_none_iff isCore nbrs n j).mp hm u huj
                  rw [hucore] at this
                  cases this
                | some m =>
                  obtain ⟨_, hmin⟩ := minAdjRank_spec isCore nbrs hm
                  have hle : m ≤ seedsBelow isCore nbrs n i := hur ▸ hmin u huj hucore
                  have hge : seedsBelow isCore nbrs n i ≤ m := by
                    have h : canonUpTo isCore nbrs (seedsBelow isCore nbrs n i) n j = -1 := by
                      rw [← hinv j hj, hjlab]
                    rw [canonUpTo_noncore_some isCore nbrs _ n j m hjnotcore hm] at h
                    by_cases hr : m < seedsBelow isCore nbrs n i
                    · rw [if_pos hr] at h
                      omega
                    · omega
                  have hmeq : m = seedsBelow isCore nbrs n i := le_antisymm hle hge
                  rw [canonUpTo_noncore_some isCore nbrs _ n j m hjnotcore hm, hmeq]
                  have hlt : seedsBelow isCore nbrs n i < seedsBelow isCore nbrs n i + 1 := by
                    omega
                  rw [if_pos hlt, hnext]
              · push_neg at hjadj
                rw [hL4 j hjlab hjcomp hjadj]
                have h : canonUpTo isCore nbrs (seedsBelow isCore nbrs n i) n j = -1 := by
                  rw [← hinv j hj, hjlab]
                by_cases hjc : isCore j = true
                · rw [canonUpTo_core isCore nbrs _ n j hjc] at h
                  have hnr : ¬ rankOf isCore nbrs n j < seedsBelow isCore nbrs n i := by
                    intro hr
                    rw [if_pos hr] at h
                    omega
                  have hne : rankOf isCore nbrs n j ≠ seedsBelow isCore nbrs n i := by
                    intro heq
                    have hlt1 : compMin isCore nbrs n j < i + 1 :=
                      (rankOf_lt_iff isCore nbrs hj hjc Hmem Hsym).mp
                        (by rw [seedsBelow_succ_seed isCore nbrs hi hseed, heq]; omega)
                    have hge1 : i ≤ compMin isCore nbrs n j := by
                      by_contra hc
                      push_neg at hc
                      exact hnr ((rankOf_lt_iff isCore nbrs hj hjc Hmem Hsym).mpr hc)
                    have hcmj : compMin isCore nbrs n j = i := by omega
                    have hicomp : i ∈ component isCore nbrs n j :=
                      hcmj ▸ compMin_mem isCore nbrs n j
                    exact hjcomp (mem_component_symm isCore nbrs hj hjc Hmem Hsym hicomp)
                  rw [canonUpTo_core isCore nbrs _ n j hjc]
                  have hcnd : ¬ rankOf isCore nbrs n j < seedsBelow isCore nbrs n i + 1 := by
                    omega
                  rw [if_neg hcnd]
                · have hjnc : isCore j = false := by
                    cases hh : isCore j
                    · rfl
                    · exact absurd hh hjc
                  cases hm : minAdjRank isCore nbrs n j with
                  | none =>
                    rw [canonUpTo_noncore_none isCore nbrs _ n j hjnc hm]
                  | some m =>
                    rw [canonUpTo_noncore_some isCore nbrs _ n j m hjnc hm] at h
                    have hge : ¬ m < seedsBelow isCore nbrs n i := by
                      intro hr
                      rw [if_pos hr] at h
                      omega
                    have hne : m ≠ seedsBelow isCore nbrs n i := by
                      intro hmeq
                      obtain ⟨⟨u, huj, hucore, hur⟩, _⟩ := minAdjRank_spec isCore nbrs hm
                      have hun : u < n := Hmem j u huj
                      have hnr : ¬ rankOf isCore nbrs n u < seedsBelow isCore nbrs n i := by
                        rw [hur, hmeq]
                        omega
                      have hlt1 : compMin isCore nbrs n u < i + 1 :=
                        (rankOf_lt_iff isCore nbrs hun hucore Hmem Hsym).mp
                          (by rw [seedsBelow_succ_seed isCore nbrs hi hseed, hur, hmeq]
                              omega)
                      have hge1 : i ≤ compMin isCore nbrs n u := by
                        by_contra hc
                        push_neg at hc
                        exact hnr ((rankOf_lt_iff isCore nbrs hun hucore Hmem Hsym).mpr hc)
                      have hcmu : compMin isCore nbrs n u = i := by omega
                      have hicomp : i ∈ component isCore nbrs n u :=
                        hcmu ▸ compMin_mem isCore nbrs n u
                      have hucomp : u ∈ component isCore nbrs n i :=
                        mem_component_symm isCore nbrs hun hucore Hmem Hsym hicomp
                      exact hjadj u hucomp ((Hsym u j hun hj).mpr huj)
                    rw [canonUpTo_noncore_some isCore nbrs _ n j m hjnc hm]
                    have hcnd : ¬ m < seedsBelow isCore nbrs n i + 1 := by
                      omega
                    rw [if_neg hcnd]
            · rw [hL3 j hjlab, hinv j hj]
              have hneq : canonUpTo isCore nbrs (seedsBelow isCore nbrs n i) n j ≠ -1 := by
                rw [← hinv j hj]
                exact hjlab
              by_cases hjc : isCore j = true
              · rw [canonUpTo_core isCore nbrs _ n j hjc] at hneq
                rw [canonUpTo_core isCore nbrs _ n j hjc,
                  canonUpTo_core isCore nbrs _ n j hjc]
                have hr : rankOf isCore nbrs n j < seedsBelow isCore nbrs n i := by
                  by_contra hc
                  rw [if_neg hc] at hneq
                  exact hneq rfl
                have hr1 : rankOf isCore nbrs n j < seedsBelow isCore nbrs n i + 1 := by
                  omega
                rw [if_pos hr, if_pos hr1]
              · have hjnc : isCore j = false := by
                  cases hh : isCore j
                  · rfl
                  · exact absurd hh hjc
                cases hm : minAdjRank isCore nbrs n j with
                | none =>
                  rw [canonUpTo_noncore_none isCore nbrs _ n j hjnc hm,
                    canonUpTo_noncore_none isCore nbrs _ n j hjnc hm]
                | some m =>
                  rw [canonUpTo_noncore_some isCore nbrs _ n j m hjnc hm] at hneq
                  rw [canonUpTo_noncore_some isCore nbrs _ n j m hjnc hm,
                    canonUpTo_noncore_some isCore nbrs _ n j m hjnc hm]
                  have hr : m < seedsBelow isCore nbrs n i := by
                    by_contra hc
                    rw [if_neg hc] at hneq
                    exact hneq rfl
                  have hr1 : m < seedsBelow isCore nbrs n i + 1 := by
                    omega
                  rw [if_pos hr, if_pos hr1]
      · have hstep : outerStep isCore expandFn st i = st := by
          unfold outerStep
          rw [if_neg hcond]
        rw [hstep]
        have hnotseed : seedB isCore nbrs n i = false := by
          by_cases hic : isCore i = true
          · have hne : ¬ st.1.getD i 0 = -1 := fun h => hcond ⟨hic, h⟩
            have h := hinv i hi
            rw [canonUpTo_core isCore nbrs _ n i hic] at h
            have hr : rankOf isCore nbrs n i < seedsBelow isCore nbrs n i := by
              by_contra hc
              rw [if_neg hc] at h
              exact hne h
            have hlt : compMin isCore nbrs n i < i :=
              (rankOf_lt_iff isCore nbrs hi hic Hmem Hsym).mp hr
            have hneq : compMin isCore nbrs n i ≠ i := by omega
            unfold seedB
            simp [hneq]
          · have hic' : isCore i = false := by
              cases hh : isCore i
              · rfl
              · exact absurd hh hic
            unfold seedB
            rw [hic']
            rfl
        refine ⟨hlen, ?_, ?_⟩
        · rw [seedsBelow_succ_not isCore nbrs hnotseed]
          exact hnext
        · intro j hj
          rw [seedsBelow_succ_not isCore nbrs hnotseed]
          exact hinv j hj
  obtain ⟨hlen, _, hinv⟩ := key n (le_refl n)
  unfold outerScan
  apply List.ext_getElem
  · rw [hlen]
    unfold canonLabels
    rw [List.length_map, List.length_range]
  · intro j h1 h2
    have hj : j < n := by
      rw [hlen] at h1
      exact h1
    rw [← List.getD_eq_getElem _ 0 h1, hinv j hj,
      canonUpTo_top isCore nbrs hj Hmem Hsym]
    unfold canonLabels
    rw [List.getElem_map, List.getElem_range]

/-! ### `sequential_expand` satisfies the expansion contract -/

theorem getD_neg_lt {l : List Int} {j : Nat} (h : l.getD j 0 = -1) : j < l.length := by
  by_contra hc
  rw [List.getD_eq_default] at h
  · exact absurd h (by norm_num)
  · omega

theorem getD_set_self (l : List Int) (j : Nat) (v : Int) (h : j < l.length) :
    (l.set j v).getD j 0 = v := by
  rw [List.getD_eq_get?, List.get?_eq_getElem?, List.getElem?_set_self (by simpa using h)]
  rfl

theorem getD_set_ne (l : List Int) (j x : Nat) (v : Int) (h : x ≠ j) :
    (l.set j v).getD x 0 = l.getD x 0 := by
  rw [List.getD_eq_get?, List.get?_eq_getElem?, List.getElem?_set_ne (by omega),
    ← List.get?_eq_getElem?, ← List.getD_eq_get?]

theorem seqStep_fst (lab : Nat) (acc : List Int × List Nat) (j : Nat) :
    (seqStep isCore lab acc j).1 =
      if acc.1.getD j 0 = -1 then acc.1.set j (lab : Int) else acc.1 := by
  unfold seqStep
  by_cases h : acc.1.getD j 0 = -1
  · rw [if_pos h, if_pos h]
  · rw [if_neg h, if_neg h]

theorem seqStep_snd_mem (lab : Nat) (acc : List Int × List Nat) (j c : Nat) :
    c ∈ (seqStep isCore lab acc j).2 ↔
      (acc.1.getD j 0 = -1 ∧ isCore j = true ∧ c = j) ∨ c ∈ acc.2 := by
  unfold seqStep
  by_cases h : acc.1.getD j 0 = -1
  · rw [if_pos h]
    by_cases hc : isCore j = true
    · rw [if_pos hc]
      show c ∈ j :: acc.2 ↔ _
      rw [List.mem_cons]
      constructor
      · rintro (rfl | hm)
        · exact Or.inl ⟨h, hc, rfl⟩
        · exact Or.inr hm
      · rintro (⟨_, _, rfl⟩ | hm)
        · exact Or.inl rfl
        · exact Or.inr hm
    · rw [if_neg hc]
      show c ∈ acc.2 ↔ _
      constructor
      · exact fun hm => Or.inr hm
      · rintro (⟨_, hcc, _⟩ | hm)
        · exact absurd hcc hc
        · exact hm
  · rw [if_neg h]
    constructor
    · exact fun hm => Or.inr hm
    · rintro (⟨hh, _, _⟩ | hm)
      · exact absurd hh h
      · exact hm

theorem seqFold_len (lab : Nat) (nb : List Nat) :
    ∀ (acc : List Int × List Nat),
      (nb.foldl (seqStep isCore lab) acc).1.length = acc.1.length := by
  induction nb with
  | nil => intro acc; rfl
  | cons a nb ih =>
    intro acc
    rw [List.foldl_cons, ih, seqStep_fst isCore lab acc a]
    split <;> simp

theorem seqFold_mono (lab : Nat) (nb : List Nat) :
    ∀ (acc : List Int × List Nat) (x : Nat), acc.1.getD x 0 ≠ -1 →
      (nb.foldl (seqStep isCore lab) acc).1.getD x 0 = acc.1.getD x 0 := by
  induction nb with
  | nil => intro acc x _; rfl
  | cons a nb ih =>
    intro acc x hx
    rw [List.foldl_cons]
    have hstep : (seqStep isCore lab acc a).1.getD x 0 = acc.1.getD x 0 := by
      rw [seqStep_fst isCore lab acc a]
      by_cases h : acc.1.getD a 0 = -1
      · rw [if_pos h]
        by_cases hxa : x = a
        · subst hxa
          exact absurd h hx
        · exact getD_set_ne _ _ _ _ hxa
      · rw [if_neg h]
    rw [ih _ x (by rw [hstep]; exact hx), hstep]

theorem seqFold_writes (lab : Nat) (nb : List Nat) :
    ∀ (acc : List Int × List Nat) (x : Nat),
      (nb.foldl (seqStep isCore lab) acc).1.getD x 0 = acc.1.getD x 0 ∨
        ((nb.foldl (seqStep isCore lab) acc).1.getD x 0 = (lab : Int) ∧
          acc.1.getD x 0 = -1 ∧ x ∈ nb) := by
  induction nb with
  | nil =>
    intro acc x
    left
    rfl
  | cons a nb ih =>
    intro acc x
    rw [List.foldl_cons]
    have hstep : (seqStep isCore lab acc a).1.getD x 0 = acc.1.getD x 0 ∨
        ((seqStep isCore lab acc a).1.getD x 0 = (lab : Int) ∧
          acc.1.getD x 0 = -1 ∧ x = a) := by
      rw [seqStep_fst isCore lab acc a]
      by_cases h : acc.1.getD a 0 = -1
      · rw [if_pos h]
        by_cases hxa : x = a
        · subst hxa
          right
          exact ⟨getD_set_self _ _ _ (getD_neg_lt h), h, rfl⟩
        · left
          exact getD_set_ne _ _ _ _ hxa
      · rw [if_neg h]
        left
        rfl
    rcases ih (seqStep isCore lab acc a) x with hl | ⟨hlab, hneg, hmem⟩
    · rcases hstep with hsl | ⟨hslab, hsneg, hxa⟩
      · left
        rw [hl, hsl]
      · right
        exact ⟨by rw [hl, hslab], hsneg, by rw [hxa]; exact List.mem_cons_self a nb⟩
    · rcases hstep with hsl | ⟨hslab, hsneg, hxa⟩
      · right
        exact ⟨hlab, by rw [← hsl]; exact hneg, List.mem_cons_of_mem a hmem⟩
      · exfalso
        rw [hslab] at hneg
        omega

theorem seqFold_stack_keep (lab : Nat) (nb : List Nat) :
    ∀ (acc : List Int × List Nat) (c : Nat), c ∈ acc.2 →
      c ∈ (nb.foldl (seqStep isCore lab) acc).2 := by
  induction nb with
  | nil => intro acc c hc; exact hc
  | cons a nb ih =>
    intro acc c hc
    rw [List.foldl_cons]
    exact ih _ c ((seqStep_snd_mem isCore lab acc a c).mpr (Or.inr hc))

theorem seqFold_stack (lab : Nat) (nb : List Nat) :
    ∀ (acc : List Int × List Nat) (c : Nat), c ∈ (nb.foldl (seqStep isCore lab) acc).2 →
      c ∈ acc.2 ∨ (c ∈ nb ∧ isCore c = true ∧
        (nb.foldl (seqStep isCore lab) acc).1.getD c 0 = (lab : Int)) := by
  induction nb with
  | nil => intro acc c hc; left; exact hc
  | cons a nb ih =>
    intro acc c hc
    rw [List.foldl_cons] at hc ⊢
    rcases ih _ c hc with hm | ⟨hmem, hcore, hlab⟩
    · rcases (seqStep_snd_mem isCore lab acc a c).mp hm with ⟨hneg, hcore, hca⟩ | hm2
      · right
        refine ⟨by rw [hca]; exact List.mem_cons_self a nb, by rw [hca]; exact hcore, ?_⟩
        have hset : (seqStep isCore lab acc a).1.getD c 0 = (lab : Int) := by
          rw [hca, seqStep_fst isCore lab acc a, if_pos hneg]
          exact getD_set_self _ _ _ (getD_neg_lt hneg)
        rw [seqFold_mono isCore lab nb _ c (by rw [hset]; omega), hset]
      · left
        exact hm2
    · right
      exact ⟨List.mem_cons_of_mem a hmem, hcore, hlab⟩

theorem seqFold_processed (lab : Nat) (nb : List Nat) :
    ∀ (acc : List Int × List Nat) (v : Nat), v ∈ nb →
      (nb.foldl (seqStep isCore lab) acc).1.getD v 0 ≠ -1 := by
  induction nb with
  | nil => intro acc v hv; exact absurd hv (List.not_mem_nil v)
  | cons a nb ih =>
    intro acc v hv
    rw [List.foldl_cons]
    rcases List.mem_cons.mp hv with rfl | hvnb
    · have hstep : (seqStep isCore lab acc v).1.getD v 0 ≠ -1 := by
        rw [seqStep_fst isCore lab acc v]
        by_cases h : acc.1.getD v 0 = -1
        · rw [if_pos h, getD_set_self _ _ _ (getD_neg_lt h)]
          omega
        · rw [if_neg h]
          exact h
      rw [seqFold_mono isCore lab nb _ v hstep]
      exact hstep
    · exact ih _ v hvnb

theorem seqFold_push (lab : Nat) (nb : List Nat) :
    ∀ (acc : List Int × List Nat) (u : Nat), isCore u = true →
      (nb.foldl (seqStep isCore lab) acc).1.getD u 0 ≠ acc.1.getD u 0 →
      u ∈ (nb.foldl (seqStep isCore lab) acc).2 := by
  induction nb with
  | nil => intro acc u _ hch; exact absurd rfl hch
  | cons a nb ih =>
    intro acc u hcore hch
    rw [List.foldl_cons] at hch ⊢
    by_cases h1 : (seqStep isCore lab acc a).1.getD u 0 = acc.1.getD u 0
    · exact ih _ u hcore (by rw [h1]; exact hch)
    · by_cases h : acc.1.getD a 0 = -1
      · by_cases hua : u = a
        · subst hua
          apply seqFold_stack_keep isCore lab nb
          exact (seqStep_snd_mem isCore lab acc u u).mpr (Or.inl ⟨h, hcore, rfl⟩)
        · exfalso
          apply h1
          rw [seqStep_fst isCore lab acc a, if_pos h]
          exact getD_set_ne _ _ _ _ hua
      · exfalso
        apply h1
        rw [seqStep_fst isCore lab acc a, if_neg h]

/-- The loop invariant of the inner stack loop of `sequential_expand`, for the
expansion of the component of seed `s` under cluster id `lab`, starting from
the pre-expansion labels `L0`. -/
def SeqInv (n lab s : Nat) (L0 L : List Int) (stack : List Nat) : Prop :=
  L.length = n ∧
  (∀ j, j < n → L.getD j 0 = L0.getD j 0 ∨ L.getD j 0 = (lab : Int)) ∧
  (∀ j, (L0.set s (lab : Int)).getD j 0 ≠ -1 →
    L.getD j 0 = (L0.set s (lab : Int)).getD j 0) ∧
  (∀ j, j < n → L.getD j 0 = (lab : Int) →
    j ∈ component isCore nbrs n s ∨
      (L0.getD j 0 = -1 ∧ ∃ u ∈ component isCore nbrs n s, j ∈ nbrs u)) ∧
  (∀ c ∈ stack, c ∈ component isCore nbrs n s ∧ L.getD c 0 = (lab : Int)) ∧
  (∀ u ∈ component isCore nbrs n s, L.getD u 0 = (lab : Int) → u ∉ stack →
    ∀ v ∈ nbrs u, L.getD v 0 ≠ -1)

theorem expandLoop_inv (n lab s : Nat) (L0 : List Int) (hs : s < n)
    (hscore : isCore s = true)
    (Hmem : ∀ u v, v ∈ nbrs u → v < n) :
    ∀ (L : List Int) (stack : List Nat),
      SeqInv isCore nbrs n lab s L0 L stack →
      SeqInv isCore nbrs n lab s L0 (expandLoop nbrs isCore lab L stack) [] := by
  intro L stack
  induction L, stack using expandLoop.induct nbrs isCore lab with
  | case1 labels =>
    intro hinv
    rw [expandLoop]
    exact hinv
  | case2 labels current rest p ih =>
    intro hinv
    obtain ⟨h1, h2, h3, h4, h5, h6⟩ := hinv
    obtain ⟨hcurC, hcurlab⟩ := h5 current (List.mem_cons_self _ _)
    rw [expandLoop]
    unfold_let p at ih
    apply ih
    clear ih
    have hlabne : ((lab : Int)) ≠ -1 := by omega
    have hP1 : ((nbrs current).foldl (seqStep isCore lab) (labels, rest)).1.length = n := by
      rw [seqFold_len isCore lab (nbrs current) (labels, rest)]
      exact h1
    refine ⟨hP1, ?_, ?_, ?_, ?_, ?_⟩
    · intro j hj
      rcases seqFold_writes isCore lab (nbrs current) (labels, rest) j with hw | ⟨hw, _, _⟩
      · rw [hw]
        exact h2 j hj
      · right
        exact hw
    · intro j hj
      have hLj : labels.getD j 0 = (L0.set s (lab : Int)).getD j 0 := h3 j hj
      have hne : labels.getD j 0 ≠ -1 := by
        rw [hLj]
        exact hj
      rw [seqFold_mono isCore lab (nbrs current) (labels, rest) j hne]
      exact hLj
    · intro j hj hjlab
      rcases seqFold_writes isCore lab (nbrs current) (labels, rest) j with hw | ⟨_, hneg, hmem⟩
      · rw [hw] at hjlab
        exact h4 j hj hjlab
      · right
        have hL0j : labels.getD j 0 = L0.getD j 0 ∨ labels.getD j 0 = (lab : Int) := h2 j hj
        have hL0neg : L0.getD j 0 = -1 := by
          rcases hL0j with hh | hh
          · rw [← hh]
            exact hneg
          · rw [hneg] at hh
            omega
        exact ⟨hL0neg, current, hcurC, hmem⟩
    · intro c hc
      rcases seqFold_stack isCore lab (nbrs current) (labels, rest) c hc with hm | ⟨hmem, hcore, hlab⟩
      · obtain ⟨hcC, hclab⟩ := h5 c (List.mem_cons_of_mem current hm)
        refine ⟨hcC, ?_⟩
        rw [seqFold_mono isCore lab (nbrs current) (labels, rest) c (by rw [hclab]; omega)]
        exact hclab
      · exact ⟨mem_component_closed isCore nbrs hs Hmem current hcurC c hmem hcore, hlab⟩
    · intro u huC hulab hustack
      by_cases hucur : u = current
      · subst hucur
        intro v hv
        exact seqFold_processed isCore lab (nbrs u) (labels, rest) v hv
      · by_cases hch : ((nbrs current).foldl (seqStep isCore lab) (labels, rest)).1.getD u 0 =
            labels.getD u 0
        · have hulabels : labels.getD u 0 = (lab : Int) := by
            rw [← hch]
            exact hulab
          have hurest : u ∉ (current :: rest) := by
            intro hmem
            rcases List.mem_cons.mp hmem with h | h
            · exact hucur h
            · exact hustack (seqFold_stack_keep isCore lab (nbrs current) (labels, rest) u h)
          intro v hv
          have hvne : labels.getD v 0 ≠ -1 := h6 u huC hulabels hurest v hv
          rw [seqFold_mono isCore lab (nbrs current) (labels, rest) v hvne]
          exact hvne
        · exfalso
          apply hustack
          have hucore : isCore u = true := component_mem_core isCore nbrs hscore u huC
          exact seqFold_push isCore lab (nbrs current) (labels, rest) u hucore hch

/-- The invariant holds when a cluster is opened: seed stored, frontier/stack
is the singleton seed. -/
theorem SeqInv_init (n lab s : Nat) (L0 : List Int) (hs : s < n) (hlen : L0.length = n)
    (hcomp : ∀ u ∈ component isCore nbrs n s, L0.getD u 0 = -1)
    (hfresh : ∀ j, j < n → L0.getD j 0 ≠ (lab : Int)) :
    SeqInv isCore nbrs n lab s L0 (L0.set s (lab : Int)) [s] := by
  have hs_len : s < L0.length := by omega
  have hsC : s ∈ component isCore nbrs n s := mem_component_self isCore nbrs n s
  refine ⟨by simp [hlen], ?_, ?_, ?_, ?_, ?_⟩
  · intro j hj
    by_cases hjs : j = s
    · subst hjs
      right
      exact getD_set_self _ _ _ hs_len
    · left
      exact getD_set_ne _ _ _ _ hjs
  · intro j _
    rfl
  · intro j hj hjlab
    by_cases hjs : j = s
    · subst hjs
      left
      exact hsC
    · rw [getD_set_ne _ _ _ _ hjs] at hjlab
      exact absurd hjlab (hfresh j hj)
  · intro c hc
    rw [List.mem_singleton] at hc
    subst hc
    exact ⟨hsC, getD_set_self _ _ _ hs_len⟩
  · intro u huC hulab hustack
    have hus : u ≠ s := by
      intro h
      subst h
      exact hustack (List.mem_singleton_self _)
    intro v hv
    exfalso
    rw [getD_set_ne _ _ _ _ hus, hcomp u huC] at hulab
    omega

/-- Once the frontier/stack is exhausted, the invariant yields exactly the
expansion contract's postconditions. -/
theorem SeqInv_final (n lab s : Nat) (L0 F : List Int) (hs : s < n) (hlen : L0.length = n)
    (Hmem : ∀ u v, v ∈ nbrs u → v < n)
    (hcomp : ∀ u ∈ component isCore nbrs n s, L0.getD u 0 = -1)
    (hfin : SeqInv isCore nbrs n lab s L0 F []) :
    F.length = n ∧
    (∀ u ∈ component isCore nbrs n s, F.getD u 0 = (lab : Int)) ∧
    (∀ j, L0.getD j 0 ≠ -1 → F.getD j 0 = L0.getD j 0) ∧
    (∀ j, L0.getD j 0 = -1 → j ∉ component isCore nbrs n s →
      (∀ u ∈ component isCore nbrs n s, j ∉ nbrs u) → F.getD j 0 = -1) ∧
    (∀ j, L0.getD j 0 = -1 → (∃ u ∈ component isCore nbrs n s, j ∈ nbrs u) →
      F.getD j 0 = (lab : Int)) := by
  obtain ⟨p1, p2, p3, p4, p5, p6⟩ := hfin
  have hs_len : s < L0.length := by omega
  have hsC : s ∈ component isCore nbrs n s := mem_component_self isCore nbrs n s
  have hL0s : L0.getD s 0 = -1 := hcomp s hsC
  have hFs : F.getD s 0 = (lab : Int) := by
    have hne : (L0.set s (lab : Int)).getD s 0 ≠ -1 := by
      rw [getD_set_self _ _ _ hs_len]
      omega
    rw [p3 s hne, getD_set_self _ _ _ hs_len]
  have hb : ∀ u ∈ component isCore nbrs n s, F.getD u 0 = (lab : Int) := by
    intro u hu
    refine (component_minimal isCore nbrs n s
      (fun w => F.getD w 0 = (lab : Int) ∧ w ∈ component isCore nbrs n s)
      ⟨hFs, hsC⟩ ?_ u hu).1
    intro a v ha hav hvc
    have hvC : v ∈ component isCore nbrs n s :=
      mem_component_closed isCore nbrs hs Hmem a ha.2 v hav hvc
    have hvn : v < n := Hmem a v hav
    have hvne : F.getD v 0 ≠ -1 := p6 a ha.2 ha.1 (List.not_mem_nil a) v hav
    rcases p2 v hvn with hL | hlab2
    · exfalso
      apply hvne
      rw [hL]
      exact hcomp v hvC
    · exact ⟨hlab2, hvC⟩
  refine ⟨p1, hb, ?_, ?_, ?_⟩
  · intro j hj
    have hjs : j ≠ s := by
      intro h
      subst h
      exact hj hL0s
    have hne : (L0.set s (lab : Int)).getD j 0 ≠ -1 := by
      rw [getD_set_ne _ _ _ _ hjs]
      exact hj
    rw [p3 j hne, getD_set_ne _ _ _ _ hjs]
  · intro j hj hjC hjadj
    have hjn : j < n := by
      have := getD_neg_lt hj
      omega
    rcases p2 j hjn with hL | hlab2
    · rw [hL]
      exact hj
    · exfalso
      rcases p4 j hjn hlab2 with hC | ⟨_, u, huC, hjnb⟩
      · exact hjC hC
      · exact hjadj u huC hjnb
  · intro j hj hjadj
    obtain ⟨u, huC, hjnb⟩ := hjadj
    have hjn : j < n := Hmem u j hjnb
    have hune : F.getD j 0 ≠ -1 := p6 u huC (hb u huC) (List.not_mem_nil u) j hjnb
    rcases p2 j hjn with hL | hlab2
    · exfalso
      apply hune
      rw [hL]
      exact hj
    · exact hlab2

theorem expandLoop_expandSpec (n : Nat)
    (Hmem : ∀ u v, v ∈ nbrs u → v < n) :
    ExpandSpec isCore nbrs n (fun lab ls s => expandLoop nbrs isCore lab ls [s]) := by
  intro lab L0 s hs hscore hlen hcomp hfresh
  have hs_len : s < L0.length := by omega
  have hsC : s ∈ component isCore nbrs n s := mem_component_self isCore nbrs n s
  have hL0s : L0.getD s 0 = -1 := hcomp s hsC
  have hlabne : ((lab : Int)) ≠ -1 := by omega
  have hinit : SeqInv isCore nbrs n lab s L0 (L0.set s (lab : Int)) [s] := by
    refine ⟨by simp [hlen], ?_, ?_, ?_, ?_, ?_⟩
    · intro j hj
      by_cases hjs : j = s
      · subst hjs
        right
        exact getD_set_self _ _ _ hs_len
      · left
        exact getD_set_ne _ _ _ _ hjs
    · intro j _
      rfl
    · intro j hj hjlab
      by_cases hjs : j = s
      · subst hjs
        left
        exact hsC
      · rw [getD_set_ne _ _ _ _ hjs] at hjlab
        exact absurd hjlab (hfresh j hj)
    · intro c hc
      rw [List.mem_singleton] at hc
      subst hc
      exact ⟨hsC, getD_set_self _ _ _ hs_len⟩
    · intro u huC hulab hustack
      have hus : u ≠ s := by
        intro h
        subst h
        exact hustack (List.mem_singleton_self _)
      intro v hv
      exfalso
      rw [getD_set_ne _ _ _ _ hus, hcomp u huC] at hulab
      omega
  obtain ⟨p1, p2, p3, p4, p5, p6⟩ :=
    expandLoop_inv isCore nbrs n lab s L0 hs hscore Hmem (L0.set s (lab : Int)) [s] hinit
  have hFs : (expandLoop nbrs isCore lab (L0.set s (lab : Int)) [s]).getD s 0 = (lab : Int) := by
    have hne : (L0.set s (lab : Int)).getD s 0 ≠ -1 := by
      rw [getD_set_self _ _ _ hs_len]
      omega
    rw [p3 s hne, getD_set_self _ _ _ hs_len]
  have hb : ∀ u ∈ component isCore nbrs n s,
      (expandLoop nbrs isCore lab (L0.set s (lab : Int)) [s]).getD u 0 = (lab : Int) := by
    intro u hu
    refine (component_minimal isCore nbrs n s
      (fun w => (expandLoop nbrs isCore lab (L0.set s (lab : Int)) [s]).getD w 0 = (lab : Int) ∧
        w ∈ component isCore nbrs n s)
      ⟨hFs, hsC⟩ ?_ u hu).1
    intro a v ha hav hvc
    have hvC : v ∈ component isCore nbrs n s :=
      mem_component_closed isCore nbrs hs Hmem a ha.2 v hav hvc
    have hvn : v < n := Hmem a v hav
    have hvne : (expandLoop nbrs isCore lab (L0.set s (lab : Int)) [s]).getD v 0 ≠ -1 :=
      p6 a ha.2 ha.1 (List.not_mem_nil a) v hav
    rcases p2 v hvn with hL | hlab2
    · exfalso
      apply hvne
      rw [hL]
      exact hcomp v hvC
    · exact ⟨hlab2, hvC⟩
  refine ⟨p1, hb, ?_, ?_, ?_⟩
  · intro j hj
    have hjs : j ≠ s := by
      intro h
      subst h
      exact hj hL0s
    have hne : (L0.set s (lab : Int)).getD j 0 ≠ -1 := by
      rw [getD_set_ne _ _ _ _ hjs]
      exact hj
    rw [p3 j hne, getD_set_ne _ _ _ _ hjs]
  · intro j hj hjC hjadj
    have hjn : j < n := by
      have := getD_neg_lt hj
      omega
    rcases p2 j hjn with hL | hlab2
    · rw [hL]
      exact hj
    · exfalso
      rcases p4 j hjn hlab2 with hC | ⟨_, u, huC, hjnb⟩
      · exact hjC hC
      · exact hjadj u huC hjnb
  · intro j hj hjadj
    obtain ⟨u, huC, hjnb⟩ := hjadj
    have hjn : j < n := Hmem u j hjnb
    have hune : (expandLoop nbrs isCore lab (L0.set s (lab : Int)) [s]).getD j 0 ≠ -1 :=
      p6 u huC (hb u huC) (List.not_mem_nil u) j hjnb
    rcases p2 j hjn with hL | hlab2
    · exfalso
      apply hune
      rw [hL]
      exact hj
    · exact hlab2

/-- The stack loop of `sequential_expand` never rewrites an already-labeled
point. -/
theorem expandLoop_write_once (lab : Nat) :
    ∀ (labels : List Int) (stack : List Nat) (j : Nat), labels.getD j 0 ≠ -1 →
      (expandLoop nbrs isCore lab labels stack).getD j 0 = labels.getD j 0 := by
  intro labels stack
  induction labels, stack using expandLoop.induct nbrs isCore lab with
  | case1 labels =>
    intro j _
    rw [expandLoop]
  | case2 labels current rest p ih =>
    intro j hj
    rw [expandLoop]
    unfold_let p at ih
    have hfold := seqFold_mono isCore lab (nbrs current) (labels, rest) j hj
    rw [ih j (by rw [hfold]; exact hj), hfold]

/-! ### `frontier_expand` satisfies the expansion contract -/

theorem casStep_fst (lab : Nat) (acc : List Int × List Nat) (j : Nat) :
    (casStep isCore lab acc j).1 =
      if acc.1.getD j 0 = -1 then acc.1.set j (lab : Int) else acc.1 := by
  unfold casStep
  by_cases h : acc.1.getD j 0 = -1
  · rw [if_pos h, if_pos h]
  · rw [if_neg h, if_neg h]

theorem casStep_snd_mem (lab : Nat) (acc : List Int × List Nat) (j c : Nat) :
    c ∈ (casStep isCore lab acc j).2 ↔
      (acc.1.getD j 0 = -1 ∧ isCore j = true ∧ c = j) ∨ c ∈ acc.2 := by
  unfold casStep
  by_cases h : acc.1.getD j 0 = -1
  · rw [if_pos h]
    by_cases hc : isCore j = true
    · rw [if_pos hc]
      show c ∈ acc.2 ++ [j] ↔ _
      rw [List.mem_append, List.mem_singleton]
      constructor
      · rintro (hm | rfl)
        · exact Or.inr hm
        · exact Or.inl ⟨h, hc, rfl⟩
      · rintro (⟨_, _, rfl⟩ | hm)
        · exact Or.inr rfl
        · exact Or.inl hm
    · rw [if_neg hc]
      show c ∈ acc.2 ↔ _
      constructor
      · exact fun hm => Or.inr hm
      · rintro (⟨_, hcc, _⟩ | hm)
        · exact absurd hcc hc
        · exact hm
  · rw [if_neg h]
    constructor
    · exact fun hm => Or.inr hm
    · rintro (⟨hh, _, _⟩ | hm)
      · exact absurd hh h
      · exact hm

theorem casFold_len (lab : Nat) (nb : List Nat) :
    ∀ (acc : List Int × List Nat),
      (nb.foldl (casStep isCore lab) acc).1.length = acc.1.length := by
  induction nb with
  | nil => intro acc; rfl
  | cons a nb ih =>
    intro acc
    rw [List.foldl_cons, ih, casStep_fst isCore lab acc a]
    split <;> simp

theorem casFold_mono (lab : Nat) (nb : List Nat) :
    ∀ (acc : List Int × List Nat) (x : Nat), acc.1.getD x 0 ≠ -1 →
      (nb.foldl (casStep isCore lab) acc).1.getD x 0 = acc.1.getD x 0 := by
  induction nb with
  | nil => intro acc x _; rfl
  | cons a nb ih =>
    intro acc x hx
    rw [List.foldl_cons]
    have hstep : (casStep isCore lab acc a).1.getD x 0 = acc.1.getD x 0 := by
      rw [casStep_fst isCore lab acc a]
      by_cases h : acc.1.getD a 0 = -1
      · rw [if_pos h]
        by_cases hxa : x = a
        · subst hxa
          exact absurd h hx
        · exact getD_set_ne _ _ _ _ hxa
      · rw [if_neg h]
    rw [ih _ x (by rw [hstep]; exact hx), hstep]

theorem casFold_writes (lab : Nat) (nb : List Nat) :
    ∀ (acc : List Int × List Nat) (x : Nat),
      (nb.foldl (casStep isCore lab) acc).1.getD x 0 = acc.1.getD x 0 ∨
        ((nb.foldl (casStep isCore lab) acc).1.getD x 0 = (lab : Int) ∧
          acc.1.getD x 0 = -1 ∧ x ∈ nb) := by
  induction nb with
  | nil =>
    intro acc x
    left
    rfl
  | cons a nb ih =>
    intro acc x
    rw [List.foldl_cons]
    have hstep : (casStep isCore lab acc a).1.getD x 0 = acc.1.getD x 0 ∨
        ((casStep isCore lab acc a).1.getD x 0 = (lab : Int) ∧
          acc.1.getD x 0 = -1 ∧ x = a) := by
      rw [casStep_fst isCore lab acc a]
      by_cases h : acc.1.getD a 0 = -1
      · rw [if_pos h]
        by_cases hxa : x = a
        · subst hxa
          right
          exact ⟨getD_set_self _ _ _ (getD_neg_lt h), h, rfl⟩
        · left
          exact getD_set_ne _ _ _ _ hxa
      · rw [if_neg h]
        left
        rfl
    rcases ih (casStep isCore lab acc a) x with hl | ⟨hlab, hneg, hmem⟩
    · rcases hstep with hsl | ⟨hslab, hsneg, hxa⟩
      · left
        rw [hl, hsl]
      · right
        exact ⟨by rw [hl, hslab], hsneg, by rw [hxa]; exact List.mem_cons_self a nb⟩
    · rcases hstep with hsl | ⟨hslab, hsneg, hxa⟩
      · right
        exact ⟨hlab, by rw [← hsl]; exact hneg, List.mem_cons_of_mem a hmem⟩
      · exfalso
        rw [hslab] at hneg
        omega

theorem casFold_stack_keep (lab : Nat) (nb : List Nat) :
    ∀ (acc : List Int × List Nat) (c : Nat), c ∈ acc.2 →
      c ∈ (nb.foldl (casStep isCore lab) acc).2 := by
  induction nb with
  | nil => intro acc c hc; exact hc
  | cons a nb ih =>
    intro acc c hc
    rw [List.foldl_cons]
    exact ih _ c ((casStep_snd_mem isCore lab acc a c).mpr (Or.inr hc))

theorem casFold_stack (lab : Nat) (nb : List Nat) :
    ∀ (acc : List Int × List Nat) (c : Nat), c ∈ (nb.foldl (casStep isCore lab) acc).2 →
      c ∈ acc.2 ∨ (c ∈ nb ∧ isCore c = true ∧
        (nb.foldl (casStep isCore lab) acc).1.getD c 0 = (lab : Int)) := by
  induction nb with
  | nil => intro acc c hc; left; exact hc
  | cons a nb ih =>
    intro acc c hc
    rw [List.foldl_cons] at hc ⊢
    rcases ih _ c hc with hm | ⟨hmem, hcore, hlab⟩
    · rcases (casStep_snd_mem isCore lab acc a c).mp hm with ⟨hneg, hcore, hca⟩ | hm2
      · right
        refine ⟨by rw [hca]; exact List.mem_cons_self a nb, by rw [hca]; exact hcore, ?_⟩
        have hset : (casStep isCore lab acc a).1.getD c 0 = (lab : Int) := by
          rw [hca, casStep_fst isCore lab acc a, if_pos hneg]
          exact getD_set_self _ _ _ (getD_neg_lt hneg)
        rw [casFold_mono isCore lab nb _ c (by rw [hset]; omega), hset]
      · left
        exact hm2
    · right
      exact ⟨List.mem_cons_of_mem a hmem, hcore, hlab⟩

theorem casFold_processed (lab : Nat) (nb : List Nat) :
    ∀ (acc : List Int × List Nat) (v : Nat), v ∈ nb →
      (nb.foldl (casStep isCore lab) acc).1.getD v 0 ≠ -1 := by
  induction nb with
  | nil => intro acc v hv; exact absurd hv (List.not_mem_nil v)
  | cons a nb ih =>
    intro acc v hv
    rw [List.foldl_cons]
    rcases List.mem_cons.mp hv with rfl | hvnb
    · have hstep : (casStep isCore lab acc v).1.getD v 0 ≠ -1 := by
        rw [casStep_fst isCore lab acc v]
        by_cases h : acc.1.getD v 0 = -1
        · rw [if_pos h, getD_set_self _ _ _ (getD_neg_lt h)]
          omega
        · rw [if_neg h]
          exact h
      rw [casFold_mono isCore lab nb _ v hstep]
      exact hstep
    · exact ih _ v hvnb

theorem casFold_push (lab : Nat) (nb : List Nat) :
    ∀ (acc : List Int × List Nat) (u : Nat), isCore u = true →
      (nb.foldl (casStep isCore lab) acc).1.getD u 0 ≠ acc.1.getD u 0 →
      u ∈ (nb.foldl (casStep isCore lab) acc).2 := by
  induction nb with
  | nil => intro acc u _ hch; exact absurd rfl hch
  | cons a nb ih =>
    intro acc u hcore hch
    rw [List.foldl_cons] at hch ⊢
    by_cases h1 : (casStep isCore lab acc a).1.getD u 0 = acc.1.getD u 0
    · exact ih _ u hcore (by rw [h1]; exact hch)
    · by_cases h : acc.1.getD a 0 = -1
      · by_cases hua : u = a
        · subst hua
          apply casFold_stack_keep isCore lab nb
          exact (casStep_snd_mem isCore lab acc u u).mpr (Or.inl ⟨h, hcore, rfl⟩)
        · exfalso
          apply h1
          rw [casStep_fst isCore lab acc a, if_pos h]
          exact getD_set_ne _ _ _ _ hua
      · exfalso
        apply h1
        rw [casStep_fst isCore lab acc a, if_neg h]

theorem waveFold_len (lab : Nat) (fr : List Nat) :
    ∀ (acc : List Int × List Nat),
      (fr.foldl (fun acc f => (nbrs f).foldl (casStep isCore lab) acc) acc).1.length =
        acc.1.length := by
  induction fr with
  | nil => intro acc; rfl
  | cons a fr ih =>
    intro acc
    rw [List.foldl_cons, ih, casFold_len isCore lab (nbrs a) acc]

theorem waveFold_mono (lab : Nat) (fr : List Nat) :
    ∀ (acc : List Int × List Nat) (x : Nat), acc.1.getD x 0 ≠ -1 →
      (fr.foldl (fun acc f => (nbrs f).foldl (casStep isCore lab) acc) acc).1.getD x 0 =
        acc.1.getD x 0 := by
  induction fr with
  | nil => intro acc x _; rfl
  | cons a fr ih =>
    intro acc x hx
    rw [List.foldl_cons]
    have hstep := casFold_mono isCore lab (nbrs a) acc x hx
    rw [ih _ x (by rw [hstep]; exact hx), hstep]

theorem waveFold_writes (lab : Nat) (fr : List Nat) :
    ∀ (acc : List Int × List Nat) (x : Nat),
      (fr.foldl (fun acc f => (nbrs f).foldl (casStep isCore lab) acc) acc).1.getD x 0 =
          acc.1.getD x 0 ∨
        ((fr.foldl (fun acc f => (nbrs f).foldl (casStep isCore lab) acc) acc).1.getD x 0 =
            (lab : Int) ∧
          acc.1.getD x 0 = -1 ∧ ∃ f ∈ fr, x ∈ nbrs f) := by
  induction fr with
  | nil =>
    intro acc x
    left
    rfl
  | cons a fr ih =>
    intro acc x
    rw [List.foldl_cons]
    rcases ih ((nbrs a).foldl (casStep isCore lab) acc) x with hl | ⟨hlab, hneg, f, hf, hx⟩
    · rcases casFold_writes isCore lab (nbrs a) acc x with hsl | ⟨hslab, hsneg, hxa⟩
      · left
        rw [hl, hsl]
      · right
        exact ⟨by rw [hl, hslab], hsneg, a, List.mem_cons_self a fr, hxa⟩
    · rcases casFold_writes isCore lab (nbrs a) acc x with hsl | ⟨hslab, hsneg, _⟩
      · right
        exact ⟨hlab, by rw [← hsl]; exact hneg, f, List.mem_cons_of_mem a hf, hx⟩
      · exfalso
        rw [hslab] at hneg
        omega

theorem waveFold_stack_keep (lab : Nat) (fr : List Nat) :
    ∀ (acc : List Int × List Nat) (c : Nat), c ∈ acc.2 →
      c ∈ (fr.foldl (fun acc f => (nbrs f).foldl (casStep isCore lab) acc) acc).2 := by
  induction fr with
  | nil => intro acc c hc; exact hc
  | cons a fr ih =>
    intro acc c hc
    rw [List.foldl_cons]
    exact ih _ c (casFold_stack_keep isCore lab (nbrs a) acc c hc)

theorem waveFold_stack (lab : Nat) (fr : List Nat) :
    ∀ (acc : List Int × List Nat) (c : Nat),
      c ∈ (fr.foldl (fun acc f => (nbrs f).foldl (casStep isCore lab) acc) acc).2 →
      c ∈ acc.2 ∨ ((∃ f ∈ fr, c ∈ nbrs f) ∧ isCore c = true ∧
        (fr.foldl (fun acc f => (nbrs f).foldl (casStep isCore lab) acc) acc).1.getD c 0 =
          (lab : Int)) := by
  induction fr with
  | nil => intro acc c hc; left; exact hc
  | cons a fr ih =>
    intro acc c hc
    rw [List.foldl_cons] at hc ⊢
    rcases ih _ c hc with hm | ⟨⟨f, hf, hcnb⟩, hcore, hlab⟩
    · rcases casFold_stack isCore lab (nbrs a) acc c hm with hm2 | ⟨hmem, hcore, hlab⟩
      · left
        exact hm2
      · right
        refine ⟨⟨a, List.mem_cons_self a fr, hmem⟩, hcore, ?_⟩
        rw [waveFold_mono isCore nbrs lab fr _ c (by rw [hlab]; omega), hlab]
    · right
      exact ⟨⟨f, List.mem_cons_of_mem a hf, hcnb⟩, hcore, hlab⟩

theorem waveFold_processed (lab : Nat) (fr : List Nat) :
    ∀ (acc : List Int × List Nat) (f v : Nat), f ∈ fr → v ∈ nbrs f →
      (fr.foldl (fun acc f => (nbrs f).foldl (casStep isCore lab) acc) acc).1.getD v 0 ≠
        -1 := by
  induction fr with
  | nil => intro acc f v hf _; exact absurd hf (List.not_mem_nil f)
  | cons a fr ih =>
    intro acc f v hf hv
    rw [List.foldl_cons]
    rcases List.mem_cons.mp hf with rfl | hffr
    · have hstep := casFold_processed isCore lab (nbrs f) acc v hv
      rw [waveFold_mono isCore nbrs lab fr _ v hstep]
      exact hstep
    · exact ih _ f v hffr hv

theorem waveFold_push (lab : Nat) (fr : List Nat) :
    ∀ (acc : List Int × List Nat) (u : Nat), isCore u = true →
      (fr.foldl (fun acc f => (nbrs f).foldl (casStep isCore lab) acc) acc).1.getD u 0 ≠
        acc.1.getD u 0 →
      u ∈ (fr.foldl (fun acc f => (nbrs f).foldl (casStep isCore lab) acc) acc).2 := by
  induction fr with
  | nil => intro acc u _ hch; exact absurd rfl hch
  | cons a fr ih =>
    intro acc u hcore hch
    rw [List.foldl_cons] at hch ⊢
    by_cases h1 : ((nbrs a).foldl (casStep isCore lab) acc).1.getD u 0 = acc.1.getD u 0
    · exact ih _ u hcore (by rw [h1]; exact hch)
    · exact waveFold_stack_keep isCore nbrs lab fr _ u
        (casFold_push isCore lab (nbrs a) acc u hcore h1)

/-- One frontier wave preserves the expansion invariant. -/
theorem frontierWave_inv (n lab s : Nat) (L0 : List Int) (hs : s < n)
    (hscore : isCore s = true)
    (Hmem : ∀ u v, v ∈ nbrs u → v < n)
    (L : List Int) (fr : List Nat)
    (hinv : SeqInv isCore nbrs n lab s L0 L fr) :
    SeqInv isCore nbrs n lab s L0 (frontierWave nbrs isCore lab L fr).1
      (frontierWave nbrs isCore lab L fr).2 := by
  obtain ⟨h1, h2, h3, h4, h5, h6⟩ := hinv
  show SeqInv isCore nbrs n lab s L0
    (fr.foldl (fun acc f => (nbrs f).foldl (casStep isCore lab) acc) (L, [])).1
    (sortDedup (fr.foldl (fun acc f => (nbrs f).foldl (casStep isCore lab) acc) (L, [])).2)
  refine ⟨?_, ?_, ?_, ?_, ?_, ?_⟩
  · rw [waveFold_len isCore nbrs lab fr (L, [])]
    exact h1
  · intro j hj
    rcases waveFold_writes isCore nbrs lab fr (L, []) j with hw | ⟨hw, _, _⟩
    · rw [hw]
      exact h2 j hj
    · right
      exact hw
  · intro j hj
    have hLj : L.getD j 0 = (L0.set s (lab : Int)).getD j 0 := h3 j hj
    have hne : L.getD j 0 ≠ -1 := by
      rw [hLj]
      exact hj
    rw [waveFold_mono isCore nbrs lab fr (L, []) j hne]
    exact hLj
  · intro j hj hjlab
    rcases waveFold_writes isCore nbrs lab fr (L, []) j with hw | ⟨_, hneg, f, hf, hmem⟩
    · rw [hw] at hjlab
      exact h4 j hj hjlab
    · right
      have hL0j : L.getD j 0 = L0.getD j 0 ∨ L.getD j 0 = (lab : Int) := h2 j hj
      have hL0neg : L0.getD j 0 = -1 := by
        rcases hL0j with hh | hh
        · rw [← hh]
          exact hneg
        · rw [hneg] at hh
          omega
      exact ⟨hL0neg, f, (h5 f hf).1, hmem⟩
  · intro c hc
    rw [mem_sortDedup] at hc
    rcases waveFold_stack isCore nbrs lab fr (L, []) c hc with hm | ⟨⟨f, hf, hcnb⟩, hcore, hlab⟩
    · exact absurd hm (List.not_mem_nil c)
    · exact ⟨mem_component_closed isCore nbrs hs Hmem f (h5 f hf).1 c hcnb hcore, hlab⟩
  · intro u huC hulab hustack
    have hun2 : u ∉ (fr.foldl (fun acc f => (nbrs f).foldl (casStep isCore lab) acc) (L, [])).2 := by
      intro h
      exact hustack (by rw [mem_sortDedup]; exact h)
    by_cases hufr : u ∈ fr
    · intro v hv
      exact waveFold_processed isCore nbrs lab fr (L, []) u v hufr hv
    · by_cases hch : (fr.foldl (fun acc f => (nbrs f).foldl (casStep isCore lab) acc)
          (L, [])).1.getD u 0 = L.getD u 0
      · have hulabels : L.getD u 0 = (lab : Int) := by
          rw [← hch]
          exact hulab
        intro v hv
        have hvne : L.getD v 0 ≠ -1 := h6 u huC hulabels hufr v hv
        rw [waveFold_mono isCore nbrs lab fr (L, []) v hvne]
        exact hvne
      · exfalso
        apply hun2
        have hucore : isCore u = true := component_mem_core isCore nbrs hscore u huC
        exact waveFold_push isCore nbrs lab fr (L, []) u hucore hch

theorem frontierLoop_inv (n lab s : Nat) (L0 : List Int) (hs : s < n)
    (hscore : isCore s = true)
    (Hmem : ∀ u v, v ∈ nbrs u → v < n) :
    ∀ (L : List Int) (fr : List Nat),
      SeqInv isCore nbrs n lab s L0 L fr →
      SeqInv isCore nbrs n lab s L0 (frontierLoop nbrs isCore lab L fr) [] := by
  intro L fr
  induction L, fr using frontierLoop.induct nbrs isCore lab with
  | case1 labels frontier w hw =>
    intro hinv
    unfold_let w at hw
    rw [frontierLoop, dif_pos hw]
    have hww := frontierWave_inv isCore nbrs n lab s L0 hs hscore Hmem labels frontier hinv
    rw [hw] at hww
    exact hww
  | case2 labels frontier w hw ih =>
    intro hinv
    unfold_let w at hw ih
    rw [frontierLoop, dif_neg hw]
    exact ih (frontierWave_inv isCore nbrs n lab s L0 hs hscore Hmem labels frontier hinv)

theorem frontierLoop_expandSpec (n : Nat)
    (Hmem : ∀ u v, v ∈ nbrs u → v < n) :
    ExpandSpec isCore nbrs n (fun lab ls s => frontierLoop nbrs isCore lab ls [s]) := by
  intro lab L0 s hs hscore hlen hcomp hfresh
  exact SeqInv_final isCore nbrs n lab s L0 _ hs hlen Hmem hcomp
    (frontierLoop_inv isCore nbrs n lab s L0 hs hscore Hmem (L0.set s (lab : Int)) [s]
      (SeqInv_init isCore nbrs n lab s L0 hs hlen hcomp hfresh))

/-! ### The canonical-labeling theorems for the two scan modes -/

theorem sequentialExpand_eq_outerScan (n : Nat) :
    sequentialExpand n isCore nbrs (List.replicate n (-1 : Int)) =
      outerScan isCore (fun lab ls s => expandLoop nbrs isCore lab ls [s]) n := rfl

theorem frontierExpand_eq_outerScan (n : Nat) :
    frontierExpand n isCore nbrs (List.replicate n (-1 : Int)) =
      outerScan isCore (fun lab ls s => frontierLoop nbrs isCore lab ls [s]) n := rfl

theorem sequentialExpand_canon (n : Nat)
    (Hmem : ∀ u v, v ∈ nbrs u → v < n)
    (Hsym : ∀ u v, u < n → v < n → (v ∈ nbrs u ↔ u ∈ nbrs v)) :
    sequentialExpand n isCore nbrs (List.replicate n (-1 : Int)) =
      canonLabels isCore nbrs n := by
  rw [sequentialExpand_eq_outerScan isCore nbrs n]
  exact outerScan_eq_canon isCore nbrs n Hmem Hsym _ (expandLoop_expandSpec isCore nbrs n Hmem)

/-! ### `union_find_expand`: the parents array and root chasing -/

theorem set_getD_self {α : Type} (l : List α) (j : Nat) (v d : α) (h : j < l.length) :
    (l.set j v).getD j d = v := by
  rw [List.getD_eq_get?, List.get?_eq_getElem?, List.getElem?_set_self (by simpa using h)]
  rfl

theorem set_getD_ne {α : Type} (l : List α) (j x : Nat) (v d : α) (h : x ≠ j) :
    (l.set j v).getD x d = l.getD x d := by
  rw [List.getD_eq_get?, List.get?_eq_getElem?, List.getElem?_set_ne (by omega),
    ← List.get?_eq_getElem?, ← List.getD_eq_get?]

/-- Chase parent pointers for at most `fuel` steps (roots are self-parents). -/
def rootOfAux (parents : List Nat) : Nat → Nat → Nat
  | 0, i => i
  | fuel + 1, i =>
    if parents.getD i invalid = i then i else rootOfAux parents fuel (parents.getD i invalid)

/-- The root of `i` in the parents forest.  In every reachable state parent
chains strictly decrease, so `i + 1` steps always suffice. -/
def rootOf (parents : List Nat) (i : Nat) : Nat := rootOfAux parents (i + 1) i

theorem rootOfAux_succ (parents : List Nat) (fuel i : Nat) :
    rootOfAux parents (fuel + 1) i =
      if parents.getD i invalid = i then i
      else rootOfAux parents fuel (parents.getD i invalid) := rfl

theorem rootOf_root (parents : List Nat) (i : Nat) (h : parents.getD i invalid = i) :
    rootOf parents i = i := by
  unfold rootOf
  rw [rootOfAux_succ, if_pos h]

/-- The invariant of the union-find state: non-cores are `invalid`, cores point
to a smaller-or-equal core of the same component. -/
def goodParents (n : Nat) (parents : List Nat) : Prop :=
  parents.length = n ∧
  (∀ i, i < n → isCore i = false → parents.getD i invalid = invalid) ∧
  (∀ i, i < n → isCore i = true →
    parents.getD i invalid ≤ i ∧ isCore (parents.getD i invalid) = true ∧
    parents.getD i invalid ∈ component isCore nbrs n i)

theorem rootOfAux_fuel {n : Nat} {parents : List Nat}
    (hgood : goodParents isCore nbrs n parents) :
    ∀ fuel i, i < n → isCore i = true → i < fuel →
      rootOfAux parents fuel i = rootOf parents i := by
  intro fuel
  induction fuel using Nat.strong_induction_on with
  | _ fuel ih =>
    intro i hi hcore hlt
    cases fuel with
    | zero => omega
    | succ f =>
      rw [rootOfAux_succ]
      by_cases hroot : parents.getD i invalid = i
      · rw [if_pos hroot, rootOf_root parents i hroot]
      · rw [if_neg hroot]
        obtain ⟨hle, hcore', _⟩ := hgood.2.2 i hi hcore
        have hplt : parents.getD i invalid < i := lt_of_le_of_ne hle hroot
        have hpn : parents.getD i invalid < n := lt_trans hplt hi
        rw [ih f (by omega) (parents.getD i invalid) hpn hcore' (by omega)]
        have hstep : rootOf parents i = rootOfAux parents i (parents.getD i invalid) := by
          unfold rootOf
          rw [rootOfAux_succ, if_neg hroot]
        rw [hstep, ih i (by omega) (parents.getD i invalid) hpn hcore' (by omega)]

theorem rootOf_step {n : Nat} {parents : List Nat}
    (hgood : goodParents isCore nbrs n parents) {i : Nat} (hi : i < n)
    (hcore : isCore i = true) (hne : parents.getD i invalid ≠ i) :
    rootOf parents i = rootOf parents (parents.getD i invalid) := by
  obtain ⟨hle, hcore', _⟩ := hgood.2.2 i hi hcore
  have hplt : parents.getD i invalid < i := lt_of_le_of_ne hle hne
  have hpn : parents.getD i invalid < n := lt_trans hplt hi
  have hstep : rootOf parents i = rootOfAux parents i (parents.getD i invalid) := by
    unfold rootOf
    rw [rootOfAux_succ, if_neg hne]
  rw [hstep, rootOfAux_fuel isCore nbrs hgood i (parents.getD i invalid) hpn hcore' hplt]

theorem rootOf_props {n : Nat} {parents : List Nat}
    (hgood : goodParents isCore nbrs n parents)
    (Hmem : ∀ u v, v ∈ nbrs u → v < n) :
    ∀ i, i < n → isCore i = true →
      rootOf parents i ≤ i ∧ rootOf parents i < n ∧ isCore (rootOf parents i) = true ∧
      rootOf parents i ∈ component isCore nbrs n i ∧
      parents.getD (rootOf parents i) invalid = rootOf parents i := by
  intro i
  induction i using Nat.strong_induction_on with
  | _ i ih =>
    intro hi hcore
    by_cases hroot : parents.getD i invalid = i
    · rw [rootOf_root parents i hroot]
      exact ⟨le_refl i, hi, hcore, mem_component_self isCore nbrs n i, hroot⟩
    · obtain ⟨hle, hcore', hcomp'⟩ := hgood.2.2 i hi hcore
      have hplt : parents.getD i invalid < i := lt_of_le_of_ne hle hroot
      have hpn : parents.getD i invalid < n := lt_trans hplt hi
      rw [rootOf_step isCore nbrs hgood hi hcore hroot]
      obtain ⟨a1, a2, a3, a4, a5⟩ := ih (parents.getD i invalid) hplt hpn hcore'
      exact ⟨le_trans a1 (le_of_lt hplt), a2, a3,
        component_subset_of_mem isCore nbrs hi Hmem hcomp' _ a4, a5⟩

/-- Path compression: repointing a node to one of its ancestors preserves the
invariant and every root. -/
theorem rootOf_set {n : Nat} {parents : List Nat}
    (hgood : goodParents isCore nbrs n parents)
    (a g : Nat) (ha : a < n) (hacore : isCore a = true)
    (hgn : g < n) (hgcore : isCore g = true) (hglt : g < a)
    (hgcomp : g ∈ component isCore nbrs n a)
    (hgroot : rootOf parents g = rootOf parents a) :
    goodParents isCore nbrs n (parents.set a g) ∧
    ∀ j, j < n → isCore j = true → rootOf (parents.set a g) j = rootOf parents j := by
  have hlen := hgood.1
  have hgood' : goodParents isCore nbrs n (parents.set a g) := by
    refine ⟨by simp [hlen], ?_, ?_⟩
    · intro i hi hnc
      have hia : i ≠ a := by
        intro h
        subst h
        rw [hacore] at hnc
        cases hnc
      rw [set_getD_ne _ _ _ _ _ hia]
      exact hgood.2.1 i hi hnc
    · intro i hi hic
      by_cases hia : i = a
      · subst hia
        rw [set_getD_self _ _ _ _ (by omega)]
        exact ⟨le_of_lt hglt, hgcore, hgcomp⟩
      · rw [set_getD_ne _ _ _ _ _ hia]
        exact hgood.2.2 i hi hic
  refine ⟨hgood', ?_⟩
  intro j
  induction j using Nat.strong_induction_on with
  | _ j ih =>
    intro hj hjcore
    by_cases hja : j = a
    · subst hja
      have hset : (parents.set j g).getD j invalid = g := set_getD_self _ _ _ _ (by omega)
      have hne' : (parents.set j g).getD j invalid ≠ j := by
        rw [hset]
        omega
      rw [rootOf_step isCore nbrs hgood' hj hjcore hne', hset,
        ih g hglt hgn hgcore, hgroot]
    · have hpe : (parents.set a g).getD j invalid = parents.getD j invalid :=
        set_getD_ne _ _ _ _ _ hja
      by_cases hroot : parents.getD j invalid = j
      · rw [rootOf_root parents j hroot, rootOf_root (parents.set a g) j (by rw [hpe]; exact hroot)]
      · obtain ⟨hle, hcore', _⟩ := hgood.2.2 j hj hjcore
        have hplt : parents.getD j invalid < j := lt_of_le_of_ne hle hroot
        have hpn : parents.getD j invalid < n := lt_trans hplt hj
        have hne' : (parents.set a g).getD j invalid ≠ j := by
          rw [hpe]
          exact hroot
        rw [rootOf_step isCore nbrs hgood' hj hjcore hne', hpe,
          ih (parents.getD j invalid) hplt hpn hcore',
          ← rootOf_step isCore nbrs hgood hj hjcore hroot]

/-- Merging: pointing the larger root at the smaller one relabels exactly the
`hi` class to `lo`. -/
theorem rootOf_merge {n : Nat} {parents : List Nat}
    (hgood : goodParents isCore nbrs n parents)
    (hi lo : Nat) (hhin : hi < n) (hlon : lo < n)
    (hhicore : isCore hi = true) (hlocore : isCore lo = true)
    (hhiroot : parents.getD hi invalid = hi)
    (hloroot : parents.getD lo invalid = lo)
    (hlt : lo < hi) (hcomp : lo ∈ component isCore nbrs n hi) :
    goodParents isCore nbrs n (parents.set hi lo) ∧
    ∀ j, j < n → isCore j = true →
      rootOf (parents.set hi lo) j =
        if rootOf parents j = hi then lo else rootOf parents j := by
  have hlen := hgood.1
  have hgood' : goodParents isCore nbrs n (parents.set hi lo) := by
    refine ⟨by simp [hlen], ?_, ?_⟩
    · intro i hin hnc
      have hia : i ≠ hi := by
        intro h
        subst h
        rw [hhicore] at hnc
        cases hnc
      rw [set_getD_ne _ _ _ _ _ hia]
      exact hgood.2.1 i hin hnc
    · intro i hin hic
      by_cases hia : i = hi
      · subst hia
        rw [set_getD_self _ _ _ _ (by omega)]
        exact ⟨le_of_lt hlt, hlocore, hcomp⟩
      · rw [set_getD_ne _ _ _ _ _ hia]
        exact hgood.2.2 i hin hic
  refine ⟨hgood', ?_⟩
  intro j
  induction j using Nat.strong_induction_on with
  | _ j ih =>
    intro hj hjcore
    by_cases hja : j = hi
    · subst hja
      have hset : (parents.set j lo).getD j invalid = lo := set_getD_self _ _ _ _ (by omega)
      have hne' : (parents.set j lo).getD j invalid ≠ j := by
        rw [hset]
        omega
      rw [rootOf_step isCore nbrs hgood' hj hjcore hne', hset,
        ih lo hlt hlon hlocore, rootOf_root parents lo hloroot,
        rootOf_root parents j hhiroot]
      rw [if_neg (by omega), if_pos rfl]
    · have hpe : (parents.set hi lo).getD j invalid = parents.getD j invalid :=
        set_getD_ne _ _ _ _ _ hja
      by_cases hroot : parents.getD j invalid = j
      · rw [rootOf_root parents j hroot,
          rootOf_root (parents.set hi lo) j (by rw [hpe]; exact hroot)]
        rw [if_neg hja]
      · obtain ⟨hle, hcore', _⟩ := hgood.2.2 j hj hjcore
        have hplt : parents.getD j invalid < j := lt_of_le_of_ne hle hroot
        have hpn : parents.getD j invalid < n := lt_trans hplt hj
        have hne' : (parents.set hi lo).getD j invalid ≠ j := by
          rw [hpe]
          exact hroot
        rw [rootOf_step isCore nbrs hgood' hj hjcore hne', hpe,
          ih (parents.getD j invalid) hplt hpn hcore',
          ← rootOf_step isCore nbrs hgood hj hjcore hroot]

theorem findRootAux_succ (fuel : Nat) (parents : List Nat) (node parent : Nat) :
    findRootAux (fuel + 1) parents node parent =
      if parents.getD parent invalid = parent then
        (if parent ≠ node then (parent, parents.set node parent) else (parent, parents))
      else
        if (parents.set node (parents.getD parent invalid)).getD parent invalid = invalid then
          (invalid, parents.set node (parents.getD parent invalid))
        else
          findRootAux fuel (parents.set node (parents.getD parent invalid)) parent
            ((parents.set node (parents.getD parent invalid)).getD parent invalid) := rfl

theorem findRootAux_spec {n : Nat} (hninv : n ≤ invalid)
    (Hmem : ∀ u v, v ∈ nbrs u → v < n) :
    ∀ (fuel : Nat) (parents : List Nat) (node : Nat),
      goodParents isCore nbrs n parents → node < n → isCore node = true → node < fuel →
      (findRootAux fuel parents node (parents.getD node invalid)).1 = rootOf parents node ∧
      goodParents isCore nbrs n (findRootAux fuel parents node (parents.getD node invalid)).2 ∧
      (∀ j, j < n → isCore j = true →
        rootOf (findRootAux fuel parents node (parents.getD node invalid)).2 j =
          rootOf parents j) := by
  intro fuel
  induction fuel with
  | zero =>
    intro parents node _ _ _ hlt
    omega
  | succ f ih =>
    intro parents node hgood hn hcore hlt
    obtain ⟨hple, hpcore, hpcomp⟩ := hgood.2.2 node hn hcore
    have hpn : parents.getD node invalid < n := lt_of_le_of_lt hple hn
    rw [findRootAux_succ]
    by_cases hgp : parents.getD (parents.getD node invalid) invalid = parents.getD node invalid
    · rw [if_pos hgp]
      have hrootp : rootOf parents (parents.getD node invalid) = parents.getD node invalid :=
        rootOf_root parents _ hgp
      by_cases hpne : parents.getD node invalid ≠ node
      · rw [if_pos hpne]
        have hplt : parents.getD node invalid < node := lt_of_le_of_ne hple hpne
        have hres := rootOf_set isCore nbrs hgood node (parents.getD node invalid) hn hcore
          hpn hpcore hplt hpcomp
          (by rw [rootOf_step isCore nbrs hgood hn hcore hpne])
        refine ⟨?_, hres.1, hres.2⟩
        show parents.getD node invalid = rootOf parents node
        rw [rootOf_step isCore nbrs hgood hn hcore hpne, hrootp]
      · rw [if_neg hpne]
        push_neg at hpne
        refine ⟨?_, hgood, fun j _ _ => rfl⟩
        show parents.getD node invalid = rootOf parents node
        rw [rootOf_root parents node hpne, hpne]
    · rw [if_neg hgp]
      obtain ⟨hgple, hgpcore, hgpcomp⟩ := hgood.2.2 _ hpn hpcore
      have hpnode : parents.getD node invalid ≠ node := by
        intro h
        apply hgp
        rw [h]
        exact h
      have hplt : parents.getD node invalid < node := lt_of_le_of_ne hple hpnode
      have hgplt : parents.getD (parents.getD node invalid) invalid <
          parents.getD node invalid := lt_of_le_of_ne hgple hgp
      have hgpn : parents.getD (parents.getD node invalid) invalid < n :=
        lt_trans hgplt hpn
      have hgpcompnode : parents.getD (parents.getD node invalid) invalid ∈
          component isCore nbrs n node :=
        component_subset_of_mem isCore nbrs hn Hmem hpcomp _ hgpcomp
      have hgroot : rootOf parents (parents.getD (parents.getD node invalid) invalid) =
          rootOf parents node := by
        rw [rootOf_step isCore nbrs hgood hn hcore hpnode,
          rootOf_step isCore nbrs hgood hpn hpcore hgp]
      have hset := rootOf_set isCore nbrs hgood node
        (parents.getD (parents.getD node invalid) invalid) hn hcore hgpn hgpcore
        (lt_trans hgplt hplt) hgpcompnode hgroot
      have hpar' : (parents.set node (parents.getD (parents.getD node invalid) invalid)).getD
          (parents.getD node invalid) invalid = parents.getD (parents.getD node invalid) invalid :=
        set_getD_ne _ _ _ _ _ hpnode
      have hne2 : ¬ ((parents.set node (parents.getD (parents.getD node invalid) invalid)).getD
          (parents.getD node invalid) invalid = invalid) := by
        rw [hpar']
        omega
      rw [if_neg hne2]
      have hih := ih (parents.set node (parents.getD (parents.getD node invalid) invalid))
        (parents.getD node invalid) hset.1 hpn hpcore (by omega)
      refine ⟨?_, hih.2.1, ?_⟩
      · rw [hih.1, hset.2 _ hpn hpcore,
          ← rootOf_step isCore nbrs hgood hn hcore hpnode]
      · intro j hj hjcore
        rw [hih.2.2 j hj hjcore, hset.2 j hj hjcore]

theorem findRoot_spec {n : Nat} (hninv : n ≤ invalid)
    (Hmem : ∀ u v, v ∈ nbrs u → v < n)
    (parents : List Nat) (node : Nat)
    (hgood : goodParents isCore nbrs n parents) (hn : node < n)
    (hcore : isCore node = true) :
    (findRoot parents node).1 = rootOf parents node ∧
    goodParents isCore nbrs n (findRoot parents node).2 ∧
    (∀ j, j < n → isCore j = true →
      rootOf (findRoot parents node).2 j = rootOf parents j) := by
  have hple := (hgood.2.2 node hn hcore).1
  have hpinv : ¬ (parents.getD node invalid = invalid) := by
    omega
  have hlen := hgood.1
  simp only [findRoot]
  rw [if_neg hpinv]
  exact findRootAux_spec isCore nbrs hninv Hmem (parents.length + 1) parents node hgood hn
    hcore (by omega)

/-- `unite`: the two classes are merged under the numerically smaller root;
every other class is untouched. -/
theorem unite_spec {n : Nat} (hninv : n ≤ invalid)
    (Hmem : ∀ u v, v ∈ nbrs u → v < n)
    (Hsym : ∀ u v, u < n → v < n → (v ∈ nbrs u ↔ u ∈ nbrs v))
    (parents : List Nat) (a b : Nat)
    (hgood : goodParents isCore nbrs n parents)
    (ha : a < n) (hb : b < n) (hacore : isCore a = true) (hbcore : isCore b = true)
    (hconn : b ∈ component isCore nbrs n a) :
    goodParents isCore nbrs n (unite parents a b) ∧
    (∀ j, j < n → isCore j = true →
      rootOf (unite parents a b) j =
        if rootOf parents j = rootOf parents a ∨ rootOf parents j = rootOf parents b
        then min (rootOf parents a) (rootOf parents b)
        else rootOf parents j) := by
  obtain ⟨hra1, hra2, hra3⟩ := findRoot_spec isCore nbrs hninv Hmem parents a hgood ha hacore
  obtain ⟨hrb1, hrb2, hrb3⟩ := findRoot_spec isCore nbrs hninv Hmem (findRoot parents a).2 b
    hra2 hb hbcore
  have hra3' : ∀ j, j < n → isCore j = true →
      rootOf (findRoot (findRoot parents a).2 b).2 j = rootOf parents j := by
    intro j hj hjc
    rw [hrb3 j hj hjc, hra3 j hj hjc]
  obtain ⟨hrap1, hrap2, hrap3, hrap4, hrap5⟩ :=
    rootOf_props isCore nbrs hrb2 Hmem a ha hacore
  obtain ⟨hrbp1, hrbp2, hrbp3, hrbp4, hrbp5⟩ :=
    rootOf_props isCore nbrs hrb2 Hmem b hb hbcore
  rw [hra3' a ha hacore] at hrap1 hrap2 hrap3 hrap4 hrap5
  rw [hra3' b hb hbcore] at hrbp1 hrbp2 hrbp3 hrbp4 hrbp5
  have hcompb : component isCore nbrs n b = component isCore nbrs n a :=
    component_congr isCore nbrs ha hacore Hmem Hsym hconn
  have hrbcompa : rootOf parents b ∈ component isCore nbrs n a := by
    rw [← hcompb]
    exact hrbp4
  simp only [unite]
  rw [hra1, hrb1, hra3 b hb hbcore]
  by_cases heq : rootOf parents a = rootOf parents b
  · rw [if_pos (Or.inr (Or.inr heq))]
    refine ⟨hrb2, ?_⟩
    intro j hj hjc
    rw [hra3' j hj hjc]
    split_ifs with h
    · rcases h with h | h <;> omega
    · rfl
  · have hcond : ¬ (rootOf parents a = invalid ∨ rootOf parents b = invalid ∨
        rootOf parents a = rootOf parents b) := by
      omega
    rw [if_neg hcond]
    by_cases hlt : rootOf parents a < rootOf parents b
    · rw [if_pos hlt]
      have hmerge := rootOf_merge isCore nbrs hrb2 (rootOf parents b) (rootOf parents a)
        hrbp2 hrap2 hrbp3 hrap3 hrbp5 hrap5 hlt
        (by
          have hcc : component isCore nbrs n (rootOf parents b) =
              component isCore nbrs n a :=
            component_congr isCore nbrs ha hacore Hmem Hsym hrbcompa
          rw [hcc]
          exact hrap4)
      refine ⟨hmerge.1, ?_⟩
      intro j hj hjc
      rw [hmerge.2 j hj hjc, hra3' j hj hjc]
      split_ifs with h1 h2 h2 <;> omega
    · rw [if_neg hlt]
      have hltba : rootOf parents b < rootOf parents a := by omega
      have hmerge := rootOf_merge isCore nbrs hrb2 (rootOf parents a) (rootOf parents b)
        hrap2 hrbp2 hrap3 hrbp3 hrap5 hrbp5 hltba
        (by
          have hcc : component isCore nbrs n (rootOf parents a) =
              component isCore nbrs n a :=
            component_congr isCore nbrs ha hacore Hmem Hsym hrap4
          rw [hcc]
          exact hrbcompa)
      refine ⟨hmerge.1, ?_⟩
      intro j hj hjc
      rw [hmerge.2 j hj hjc, hra3' j hj hjc]
      split_ifs with h1 h2 h2 <;> omega

theorem uniteEdges_spec {n : Nat} (hninv : n ≤ invalid)
    (Hmem : ∀ u v, v ∈ nbrs u → v < n)
    (Hsym : ∀ u v, u < n → v < n → (v ∈ nbrs u ↔ u ∈ nbrs v))
    (E : List (Nat × Nat)) :
    ∀ parents, goodParents isCore nbrs n parents →
    (∀ e ∈ E, e.1 < n ∧ e.2 < n ∧ isCore e.1 = true ∧ isCore e.2 = true ∧
      e.2 ∈ component isCore nbrs n e.1) →
    goodParents isCore nbrs n (E.foldl (fun ps e => unite ps e.1 e.2) parents) ∧
    (∀ j k, j < n → k < n → isCore j = true → isCore k = true →
      rootOf parents j = rootOf parents k →
      rootOf (E.foldl (fun ps e => unite ps e.1 e.2) parents) j =
        rootOf (E.foldl (fun ps e => unite ps e.1 e.2) parents) k) ∧
    (∀ e ∈ E, rootOf (E.foldl (fun ps e => unite ps e.1 e.2) parents) e.1 =
      rootOf (E.foldl (fun ps e => unite ps e.1 e.2) parents) e.2) := by
  induction E with
  | nil =>
    intro parents hgood _
    exact ⟨hgood, fun j k _ _ _ _ h => h, fun e he => absurd he (List.not_mem_nil e)⟩
  | cons e E ih =>
    intro parents hgood hE
    obtain ⟨he1, he2, he3, he4, he5⟩ := hE e (List.mem_cons_self e E)
    obtain ⟨hg', hchar⟩ := unite_spec isCore nbrs hninv Hmem Hsym parents e.1 e.2 hgood
      he1 he2 he3 he4 he5
    obtain ⟨g1, g2, g3⟩ := ih (unite parents e.1 e.2) hg'
      (fun e' he' => hE e' (List.mem_cons_of_mem e he'))
    rw [List.foldl_cons]
    refine ⟨g1, ?_, ?_⟩
    · intro j k hj hk hjc hkc hjk
      apply g2 j k hj hk hjc hkc
      rw [hchar j hj hjc, hchar k hk hkc, hjk]
    · intro e' he'
      rcases List.mem_cons.mp he' with heq | hmem
      · rw [heq]
        apply g2 e.1 e.2 he1 he2 he3 he4
        rw [hchar e.1 he1 he3, hchar e.2 he2 he4,
          if_pos (Or.inl rfl), if_pos (Or.inr rfl)]
      · exact g3 e' hmem

theorem foldl_flatMap {α β γ : Type} (l : List α) (f : α → List β) (g : γ → β → γ)
    (init : γ) :
    (l.flatMap f).foldl g init = l.foldl (fun acc x => (f x).foldl g acc) init := by
  induction l generalizing init with
  | nil => rfl
  | cons a l ih => rw [List.flatMap_cons, List.foldl_append, List.foldl_cons, ih]

theorem foldl_filter_cond {α γ : Type} (p : α → Bool) (l : List α) (g : γ → α → γ)
    (init : γ) :
    (l.filter p).foldl g init = l.foldl (fun acc x => if p x then g acc x else acc) init := by
  induction l generalizing init with
  | nil => rfl
  | cons a l ih =>
    rw [List.filter_cons, List.foldl_cons]
    by_cases h : p a = true
    · rw [if_pos h, List.foldl_cons, if_pos h, ih]
    · rw [if_neg h, if_neg h, ih]

theorem foldl_congr_fn {α γ : Type} (l : List α) (f g : γ → α → γ) (init : γ)
    (h : ∀ acc, ∀ x ∈ l, f acc x = g acc x) : l.foldl f init = l.foldl g init := by
  induction l generalizing init with
  | nil => rfl
  | cons a l ih =>
    rw [List.foldl_cons, List.foldl_cons, h init a (List.mem_cons_self a l)]
    exact ih _ (fun acc x hx => h acc x (List.mem_cons_of_mem a hx))

/-- The list of core-core edges the union-find pass unites, in traversal
order. -/
def uniteEdgeList (n : Nat) : List (Nat × Nat) :=
  (List.range n).flatMap (fun i =>
    if isCore i = true then ((nbrs i).filter isCore).map (fun j => (i, j)) else [])

theorem unionFold_eq_edges (n : Nat) (parents0 : List Nat) :
    (List.range n).foldl
      (fun ps i =>
        if isCore i then (nbrs i).foldl
          (fun ps' j => if isCore j then unite ps' i j else ps') ps
        else ps)
      parents0 =
    (uniteEdgeList isCore nbrs n).foldl (fun ps e => unite ps e.1 e.2) parents0 := by
  unfold uniteEdgeList
  rw [foldl_flatMap]
  apply foldl_congr_fn
  intro acc i _
  by_cases h : isCore i = true
  · rw [if_pos h, if_pos h, List.foldl_map, foldl_filter_cond]
  · rw [if_neg h, if_neg h]
    rfl

theorem uniteEdgeList_mem {n : Nat}
    (Hmem : ∀ u v, v ∈ nbrs u → v < n) :
    ∀ e ∈ uniteEdgeList isCore nbrs n, e.1 < n ∧ e.2 < n ∧ isCore e.1 = true ∧
      isCore e.2 = true ∧ e.2 ∈ component isCore nbrs n e.1 := by
  intro e he
  unfold uniteEdgeList at he
  rw [List.mem_flatMap] at he
  obtain ⟨i, hi, hmem⟩ := he
  rw [List.mem_range] at hi
  by_cases h : isCore i = true
  · rw [if_pos h, List.mem_map] at hmem
    obtain ⟨j, hj, hej⟩ := hmem
    rw [List.mem_filter] at hj
    subst hej
    exact ⟨hi, Hmem i j hj.1, h, hj.2,
      mem_component_closed isCore nbrs hi Hmem i (mem_component_self isCore nbrs n i)
        j hj.1 hj.2⟩
  · rw [if_neg h] at hmem
    exact absurd hmem (List.not_mem_nil e)

theorem uniteEdgeList_complete {n : Nat} (i j : Nat) (hi : i < n)
    (hicore : isCore i = true) (hj : j ∈ nbrs i) (hjcore : isCore j = true) :
    (i, j) ∈ uniteEdgeList isCore nbrs n := by
  unfold uniteEdgeList
  rw [List.mem_flatMap]
  refine ⟨i, List.mem_range.mpr hi, ?_⟩
  rw [if_pos hicore, List.mem_map]
  exact ⟨j, List.mem_filter.mpr ⟨hj, hjcore⟩, rfl⟩

theorem parents0_good (n : Nat) :
    goodParents isCore nbrs n
      ((List.range n).map (fun i => if isCore i then i else invalid)) := by
  have hget : ∀ i, i < n →
      ((List.range n).map (fun i => if isCore i then i else invalid)).getD i invalid =
        if isCore i then i else invalid := by
    intro i hi
    rw [List.getD_eq_getElem _ _ (by simpa using hi), List.getElem_map, List.getElem_range]
  refine ⟨by simp, ?_, ?_⟩
  · intro i hi hnc
    rw [hget i hi, if_neg (by simp [hnc])]
  · intro i hi hic
    rw [hget i hi, if_pos hic]
    exact ⟨le_refl i, hic, mem_component_self isCore nbrs n i⟩

/-- After the union pass, the root of every core point is the minimum index of
its component. -/
theorem parents1_rootOf {n : Nat} (hninv : n ≤ invalid)
    (Hmem : ∀ u v, v ∈ nbrs u → v < n)
    (Hsym : ∀ u v, u < n → v < n → (v ∈ nbrs u ↔ u ∈ nbrs v)) :
    goodParents isCore nbrs n
      ((List.range n).foldl
        (fun ps i =>
          if isCore i then (nbrs i).foldl
            (fun ps' j => if isCore j then unite ps' i j else ps') ps
          else ps)
        ((List.range n).map (fun i => if isCore i then i else invalid))) ∧
    ∀ i, i < n → isCore i = true →
      rootOf
        ((List.range n).foldl
          (fun ps i =>
            if isCore i then (nbrs i).foldl
              (fun ps' j => if isCore j then unite ps' i j else ps') ps
            else ps)
          ((List.range n).map (fun i => if isCore i then i else invalid))) i =
        compMin isCore nbrs n i := by
  rw [unionFold_eq_edges isCore nbrs n]
  obtain ⟨g1, g2, g3⟩ := uniteEdges_spec isCore nbrs hninv Hmem Hsym
    (uniteEdgeList isCore nbrs n) _ (parents0_good isCore nbrs n)
    (uniteEdgeList_mem isCore nbrs Hmem)
  refine ⟨g1, ?_⟩
  intro i hi hicore
  have hconst : ∀ u ∈ component isCore nbrs n i,
      rootOf ((uniteEdgeList isCore nbrs n).foldl (fun ps e => unite ps e.1 e.2)
        ((List.range n).map (fun i => if isCore i then i else invalid))) u =
      rootOf ((uniteEdgeList isCore nbrs n).foldl (fun ps e => unite ps e.1 e.2)
        ((List.range n).map (fun i => if isCore i then i else invalid))) i := by
    intro u hu
    refine (component_minimal isCore nbrs n i
      (fun u => u ∈ component isCore nbrs n i ∧
        rootOf ((uniteEdgeList isCore nbrs n).foldl (fun ps e => unite ps e.1 e.2)
          ((List.range n).map (fun i => if isCore i then i else invalid))) u =
        rootOf ((uniteEdgeList isCore nbrs n).foldl (fun ps e => unite ps e.1 e.2)
          ((List.range n).map (fun i => if isCore i then i else invalid))) i)
      ⟨mem_component_self isCore nbrs n i, rfl⟩ ?_ u hu).2
    intro a v ha hav hvc
    have haC := ha.1
    have hacore : isCore a = true := component_mem_core isCore nbrs hicore a haC
    have han : a < n := component_mem_lt isCore nbrs hi Hmem a haC
    have hedge := g3 (a, v) (uniteEdgeList_complete isCore nbrs a v han hacore hav hvc)
    exact ⟨mem_component_closed isCore nbrs hi Hmem a haC v hav hvc,
      by rw [← hedge]; exact ha.2⟩
  have hm := compMin_mem isCore nbrs n i
  have hmn : compMin isCore nbrs n i < n := compMin_lt isCore nbrs hi
  have hmcore : isCore (compMin isCore nbrs n i) = true :=
    component_mem_core isCore nbrs hicore _ hm
  obtain ⟨q1, _, _, q4, _⟩ := rootOf_props isCore nbrs g1 Hmem (compMin isCore nbrs n i)
    hmn hmcore
  have hcc : component isCore nbrs n (compMin isCore nbrs n i) =
      component isCore nbrs n i :=
    component_congr isCore nbrs hi hicore Hmem Hsym hm
  have hrminmem : rootOf ((uniteEdgeList isCore nbrs n).foldl (fun ps e => unite ps e.1 e.2)
      ((List.range n).map (fun i => if isCore i then i else invalid)))
      (compMin isCore nbrs n i) ∈ component isCore nbrs n i := by
    rw [← hcc]
    exact q4
  have hge := compMin_le_mem isCore nbrs n i _ hrminmem
  have hrm : rootOf ((uniteEdgeList isCore nbrs n).foldl (fun ps e => unite ps e.1 e.2)
      ((List.range n).map (fun i => if isCore i then i else invalid)))
      (compMin isCore nbrs n i) = compMin isCore nbrs n i := by
    omega
  rw [← hconst (compMin isCore nbrs n i) hm, hrm]

/-- The per-point root vector computed after the union pass: cores map to their
component minimum, non-cores to `invalid`. -/
theorem rfp_spec {n : Nat} (hninv : n ≤ invalid)
    (Hmem : ∀ u v, v ∈ nbrs u → v < n)
    (parents1 : List Nat)
    (hgood : goodParents isCore nbrs n parents1)
    (hroot : ∀ i, i < n → isCore i = true →
      rootOf parents1 i = compMin isCore nbrs n i) :
    ((List.range n).foldl
      (fun (acc : List Nat × List Nat) i =>
        if isCore i then (acc.1 ++ [(findRoot acc.2 i).1], (findRoot acc.2 i).2)
        else (acc.1 ++ [invalid], acc.2))
      ([], parents1)).1.length = n ∧
    ∀ i, i < n →
      ((List.range n).foldl
        (fun (acc : List Nat × List Nat) i =>
          if isCore i then (acc.1 ++ [(findRoot acc.2 i).1], (findRoot acc.2 i).2)
          else (acc.1 ++ [invalid], acc.2))
        ([], parents1)).1.getD i invalid =
      (if isCore i then compMin isCore nbrs n i else invalid) := by
  have key : ∀ i0, i0 ≤ n →
      ((List.range i0).foldl
        (fun (acc : List Nat × List Nat) i =>
          if isCore i then (acc.1 ++ [(findRoot acc.2 i).1], (findRoot acc.2 i).2)
          else (acc.1 ++ [invalid], acc.2))
        ([], parents1)).1.length = i0 ∧
      goodParents isCore nbrs n
        ((List.range i0).foldl
          (fun (acc : List Nat × List Nat) i =>
            if isCore i then (acc.1 ++ [(findRoot acc.2 i).1], (findRoot acc.2 i).2)
            else (acc.1 ++ [invalid], acc.2))
          ([], parents1)).2 ∧
      (∀ j, j < n → isCore j = true →
        rootOf ((List.range i0).foldl
          (fun (acc : List Nat × List Nat) i =>
            if isCore i then (acc.1 ++ [(findRoot acc.2 i).1], (findRoot acc.2 i).2)
            else (acc.1 ++ [invalid], acc.2))
          ([], parents1)).2 j = rootOf parents1 j) ∧
      (∀ k, k < i0 →
        ((List.range i0).foldl
          (fun (acc : List Nat × List Nat) i =>
            if isCore i then (acc.1 ++ [(findRoot acc.2 i).1], (findRoot acc.2 i).2)
            else (acc.1 ++ [invalid], acc.2))
          ([], parents1)).1.getD k invalid =
        (if isCore k then compMin isCore nbrs n k else invalid)) := by
    intro i0
    induction i0 with
    | zero =>
      intro _
      exact ⟨rfl, hgood, fun j _ _ => rfl, fun k hk => absurd hk (by omega)⟩
    | succ i ih =>
      intro hin
      have hi : i < n := hin
      obtain ⟨hlen, hg, hpres, hvals⟩ := ih (Nat.le_of_succ_le hin)
      rw [List.range_succ, List.foldl_append, List.foldl_cons, List.foldl_nil]
      set st := (List.range i).foldl
        (fun (acc : List Nat × List Nat) i =>
          if isCore i then (acc.1 ++ [(findRoot acc.2 i).1], (findRoot acc.2 i).2)
          else (acc.1 ++ [invalid], acc.2))
        ([], parents1) with hst
      by_cases hc : isCore i = true
      · rw [if_pos hc]
        obtain ⟨f1, f2, f3⟩ := findRoot_spec isCore nbrs hninv Hmem st.2 i hg hi hc
        have hval : (findRoot st.2 i).1 = compMin isCore nbrs n i := by
          rw [f1, hpres i hi hc, hroot i hi hc]
        refine ⟨by simp [hlen], f2, ?_, ?_⟩
        · intro j hj hjc
          rw [f3 j hj hjc, hpres j hj hjc]
        · intro k hk
          by_cases hki : k < i
          · rw [List.getD_append _ _ _ _ (by omega)]
            exact hvals k hki
          · have hkeq : k = i := by omega
            subst hkeq
            rw [List.getD_append_right _ _ _ _ (by omega), hlen]
            simp only [Nat.sub_self]
            rw [hval, if_pos hc]
            rfl
      · rw [if_neg hc]
        refine ⟨by simp [hlen], hg, hpres, ?_⟩
        intro k hk
        by_cases hki : k < i
        · rw [List.getD_append _ _ _ _ (by omega)]
          exact hvals k hki
        · have hkeq : k = i := by omega
          subst hkeq
          rw [List.getD_append_right _ _ _ _ (by omega), hlen]
          simp only [Nat.sub_self]
          rw [if_neg hc]
          rfl
  obtain ⟨hlen, _, _, hvals⟩ := key n (le_refl n)
  exact ⟨hlen, fun i hi => hvals i hi⟩

/-- The component-minimum accumulator ends up marking exactly the seeds, each
with itself. -/
theorem cm_spec {n : Nat} (hninv : n ≤ invalid)
    (Hmem : ∀ u v, v ∈ nbrs u → v < n)
    (Hsym : ∀ u v, u < n → v < n → (v ∈ nbrs u ↔ u ∈ nbrs v))
    (rootFor : List Nat)
    (hrf : ∀ i, i < n → rootFor.getD i invalid =
      (if isCore i then compMin isCore nbrs n i else invalid)) :
    ∀ r, r < n →
      ((List.range n).foldl
        (fun cm i =>
          if isCore i then
            if rootFor.getD i invalid = invalid then cm
            else if i < cm.getD (rootFor.getD i invalid) invalid then
              cm.set (rootFor.getD i invalid) i
            else cm
          else cm)
        (List.replicate n invalid)).getD r invalid =
      (if seedB isCore nbrs n r = true then r else invalid) := by
  have key : ∀ i0, i0 ≤ n →
      ((List.range i0).foldl
        (fun cm i =>
          if isCore i then
            if rootFor.getD i invalid = invalid then cm
            else if i < cm.getD (rootFor.getD i invalid) invalid then
              cm.set (rootFor.getD i invalid) i
            else cm
          else cm)
        (List.replicate n invalid)).length = n ∧
      ∀ r, r < n →
        ((List.range i0).foldl
          (fun cm i =>
            if isCore i then
              if rootFor.getD i invalid = invalid then cm
              else if i < cm.getD (rootFor.getD i invalid) invalid then
                cm.set (rootFor.getD i invalid) i
              else cm
            else cm)
          (List.replicate n invalid)).getD r invalid =
        (if seedB isCore nbrs n r = true ∧ r < i0 then r else invalid) := by
    intro i0
    induction i0 with
    | zero =>
      intro _
      refine ⟨by simp, ?_⟩
      intro r hr
      rw [if_neg (by omega)]
      rw [List.getD_eq_getElem _ _ (by simpa using hr)]
      simp
    | succ i ih =>
      intro hin
      have hi : i < n := hin
      obtain ⟨hlen, hvals⟩ := ih (Nat.le_of_succ_le hin)
      rw [List.range_succ, List.foldl_append, List.foldl_cons, List.foldl_nil]
      set cm := (List.range i).foldl
        (fun cm i =>
          if isCore i then
            if rootFor.getD i invalid = invalid then cm
            else if i < cm.getD (rootFor.getD i invalid) invalid then
              cm.set (rootFor.getD i invalid) i
            else cm
          else cm)
        (List.replicate n invalid) with hcm
      by_cases hc : isCore i = true
      · rw [if_pos hc]
        have hrfi : rootFor.getD i invalid = compMin isCore nbrs n i := by
          rw [hrf i hi, if_pos hc]
        have hcmlt : compMin isCore nbrs n i < n := compMin_lt isCore nbrs hi
        have hrfne : ¬ (rootFor.getD i invalid = invalid) := by
          rw [hrfi]
          omega
        rw [if_neg hrfne, hrfi]
        have hseedm : seedB isCore nbrs n (compMin isCore nbrs n i) = true :=
          compMin_is_seed isCore nbrs hi hc Hmem Hsym
        have hmle : compMin isCore nbrs n i ≤ i := compMin_le_self isCore nbrs n i
        by_cases hmi : compMin isCore nbrs n i < i
        · -- already recorded: cm[min] = min, i not smaller
          have hcur : cm.getD (compMin isCore nbrs n i) invalid =
              compMin isCore nbrs n i := by
            rw [hvals _ hcmlt, if_pos ⟨hseedm, hmi⟩]
          rw [hcur, if_neg (by omega)]
          refine ⟨hlen, ?_⟩
          intro r hr
          rw [hvals r hr]
          have hnseed : ¬ (seedB isCore nbrs n i = true ∧ True) := by
            intro hcon
            have := hcon.1
            unfold seedB at this
            rw [hc, Bool.true_and, decide_eq_true_eq] at this
            omega
          by_cases hri : r = i
          · subst hri
            rw [if_neg (by omega), if_neg ?_]
            intro hcon
            exact hnseed ⟨hcon.1, trivial⟩
          · split_ifs with h1 h2 h2
            · rfl
            · exact absurd ⟨h1.1, by omega⟩ h2
            · exact absurd ⟨h2.1, by omega⟩ h1
            · rfl
        · -- i is its own component minimum: record it
          have hmeq : compMin isCore nbrs n i = i := by omega
          have hcur : cm.getD (compMin isCore nbrs n i) invalid = invalid := by
            rw [hvals _ hcmlt, if_neg (by rw [hmeq]; omega)]
          rw [hcur, if_pos (by omega)]
          refine ⟨by simp [hlen], ?_⟩
          intro r hr
          by_cases hri : r = compMin isCore nbrs n i
          · subst hri
            rw [set_getD_self _ _ _ _ (by omega)]
            rw [hmeq] at hseedm ⊢
            rw [if_pos ⟨hseedm, by omega⟩]
          · rw [set_getD_ne _ _ _ _ _ hri, hvals r hr]
            rw [hmeq] at hri
            split_ifs with h1 h2 h2
            · rfl
            · exact absurd ⟨h1.1, by omega⟩ h2
            · exfalso
              rcases Nat.lt_or_ge r i with hlt | hge
              · exact h1 ⟨h2.1, hlt⟩
              · exact hri (by omega)
            · rfl
      · rw [if_neg hc]
        refine ⟨hlen, ?_⟩
        intro r hr
        rw [hvals r hr]
        have hnseed : seedB isCore nbrs n i = false := by
          unfold seedB
          cases hcc : isCore i
          · rfl
          · exact absurd hcc (by simp [hc])
        split_ifs with h1 h2 h2
        · rfl
        · exact absurd ⟨h1.1, by omega⟩ h2
        · exfalso
          rcases Nat.lt_or_ge r i with hlt | hge
          · exact h1 ⟨h2.1, hlt⟩
          · have hri : r = i := by omega
            rw [hri] at h2
            rw [h2.1] at hnseed
            cases hnseed
        · rfl
  obtain ⟨_, hvals⟩ := key n (le_refl n)
  intro r hr
  rw [hvals r hr]
  split_ifs with h1 h2 h2
  · rfl
  · exact absurd h1.1 h2
  · exact absurd ⟨h2, hr⟩ h1
  · rfl

/-- The collected `(component_min, root)` pairs are exactly `(s, s)` for the
seeds `s`, in ascending order. -/
theorem components_char {n : Nat} (hninv : n ≤ invalid) (cm : List Nat)
    (hcm : ∀ r, r < n → cm.getD r invalid =
      (if seedB isCore nbrs n r = true then r else invalid)) :
    (List.range n).filterMap
      (fun i => if cm.getD i invalid ≠ invalid then some (cm.getD i invalid, i) else none) =
    ((List.range n).filter (fun s => seedB isCore nbrs n s)).map (fun s => (s, s)) := by
  have key : ∀ (l : List Nat), (∀ i ∈ l, i < n) →
      l.filterMap
        (fun i => if cm.getD i invalid ≠ invalid then some (cm.getD i invalid, i) else none) =
      (l.filter (fun s => seedB isCore nbrs n s)).map (fun s => (s, s)) := by
    intro l
    induction l with
    | nil => intro _; rfl
    | cons a l ih =>
      intro hb
      have ha : a < n := hb a (List.mem_cons_self a l)
      have hrest := ih (fun i hi => hb i (List.mem_cons_of_mem a hi))
      by_cases hs : seedB isCore nbrs n a = true
      · have hfa : (if cm.getD a invalid ≠ invalid then some (cm.getD a invalid, a)
            else none) = some (a, a) := by
          rw [hcm a ha, if_pos hs, if_pos (by omega)]
        rw [List.filterMap_cons, hfa, List.filter_cons, if_pos hs, List.map_cons, hrest]
      · have hfa : (if cm.getD a invalid ≠ invalid then some (cm.getD a invalid, a)
            else none) = none := by
          rw [hcm a ha, if_neg hs, if_neg (fun h => h rfl)]
        rw [List.filterMap_cons, hfa, List.filter_cons, if_neg hs, hrest]
  exact key (List.range n) (fun i hi => List.mem_range.mp hi)

theorem components_sorted (n : Nat) :
    List.Sorted lexPair
      (((List.range n).filter (fun s => seedB isCore nbrs n s)).map (fun s => (s, s))) := by
  exact List.Pairwise.map (fun s => (s, s)) (fun a b h => Or.inl h)
    ((List.pairwise_lt_range n).filter _)

/-- Assigning dense ids over the sorted seed list stores each seed's rank at
its root slot. -/
theorem rootLabel_spec (n : Nat) :
    ((((List.range n).filter (fun s => seedB isCore nbrs n s)).map (fun s => (s, s))).foldl
      (fun (acc : List Int × Nat) c => (acc.1.set c.2 (acc.2 : Int), acc.2 + 1))
      (List.replicate n (-1 : Int), 0)).1.length = n ∧
    ∀ r, r < n →
      ((((List.range n).filter (fun s => seedB isCore nbrs n s)).map (fun s => (s, s))).foldl
        (fun (acc : List Int × Nat) c => (acc.1.set c.2 (acc.2 : Int), acc.2 + 1))
        (List.replicate n (-1 : Int), 0)).1.getD r (-1) =
      (if seedB isCore nbrs n r = true then ((seedsBelow isCore nbrs n r : Nat) : Int)
        else -1) := by
  rw [List.foldl_map, foldl_filter_cond]
  have hfn : ∀ (acc : List Int × Nat) (s : Nat),
      (if seedB isCore nbrs n s = true then
        ((fun (acc : List Int × Nat) c => (acc.1.set c.2 (acc.2 : Int), acc.2 + 1)) acc
          ((fun s => (s, s)) s))
      else acc) =
      (if seedB isCore nbrs n s = true then (acc.1.set s (acc.2 : Int), acc.2 + 1)
        else acc) := fun _ _ => rfl
  rw [foldl_congr_fn _ _ _ _ (fun acc x _ => hfn acc x)]
  have key : ∀ i0, i0 ≤ n →
      ((List.range i0).foldl
        (fun (acc : List Int × Nat) s =>
          if seedB isCore nbrs n s = true then (acc.1.set s (acc.2 : Int), acc.2 + 1)
          else acc)
        (List.replicate n (-1 : Int), 0)).1.length = n ∧
      ((List.range i0).foldl
        (fun (acc : List Int × Nat) s =>
          if seedB isCore nbrs n s = true then (acc.1.set s (acc.2 : Int), acc.2 + 1)
          else acc)
        (List.replicate n (-1 : Int), 0)).2 = seedsBelow isCore nbrs n i0 ∧
      ∀ r, r < n →
        ((List.range i0).foldl
          (fun (acc : List Int × Nat) s =>
            if seedB isCore nbrs n s = true then (acc.1.set s (acc.2 : Int), acc.2 + 1)
            else acc)
          (List.replicate n (-1 : Int), 0)).1.getD r (-1) =
        (if seedB isCore nbrs n r = true ∧ r < i0 then
          ((seedsBelow isCore nbrs n r : Nat) : Int) else -1) := by
    intro i0
    induction i0 with
    | zero =>
      intro _
      refine ⟨by simp, by rw [seedsBelow_zero]; rfl, ?_⟩
      intro r hr
      rw [if_neg (by omega), List.getD_eq_getElem _ _ (by simpa using hr)]
      simp
    | succ i ih =>
      intro hin
      have hi : i < n := hin
      obtain ⟨hlen, hcnt, hvals⟩ := ih (Nat.le_of_succ_le hin)
      rw [List.range_succ, List.foldl_append, List.foldl_cons, List.foldl_nil]
      set st := (List.range i).foldl
        (fun (acc : List Int × Nat) s =>
          if seedB isCore nbrs n s = true then (acc.1.set s (acc.2 : Int), acc.2 + 1)
          else acc)
        (List.replicate n (-1 : Int), 0) with hst
      by_cases hs : seedB isCore nbrs n i = true
      · rw [if_pos hs]
        refine ⟨by simp [hlen], ?_, ?_⟩
        · show st.2 + 1 = seedsBelow isCore nbrs n (i + 1)
          rw [seedsBelow_succ_seed isCore nbrs hi hs, hcnt]
        · intro r hr
          show (st.1.set i (st.2 : Int)).getD r (-1) = _
          by_cases hri : r = i
          · subst hri
            rw [set_getD_self _ _ _ _ (by omega), if_pos ⟨hs, by omega⟩, hcnt]
          · rw [set_getD_ne _ _ _ _ _ hri, hvals r hr]
            split_ifs with h1 h2 h2
            · rfl
            · exact absurd ⟨h1.1, by omega⟩ h2
            · exfalso
              rcases Nat.lt_or_ge r i with hlt | hge
              · exact h1 ⟨h2.1, hlt⟩
              · exact hri (by omega)
            · rfl
      · rw [if_neg hs]
        refine ⟨hlen, ?_, ?_⟩
        · rw [seedsBelow_succ_not isCore nbrs (by
            cases hss : seedB isCore nbrs n i
            · rfl
            · exact absurd hss hs)]
          exact hcnt
        · intro r hr
          rw [hvals r hr]
          split_ifs with h1 h2 h2
          · rfl
          · exact absurd ⟨h1.1, by omega⟩ h2
          · exfalso
            rcases Nat.lt_or_ge r i with hlt | hge
            · exact h1 ⟨h2.1, hlt⟩
            · have : r = i := by omega
              subst this
              exact hs h2.1
          · rfl
  obtain ⟨hlen, _, hvals⟩ := key n (le_refl n)
  refine ⟨hlen, ?_⟩
  intro r hr
  rw [hvals r hr]
  split_ifs with h1 h2 h2
  · rfl
  · exact absurd h1.1 h2
  · exact absurd ⟨h2, hr⟩ h1
  · rfl

/-- Labeling the cores through their roots stores each core's component
rank. -/
theorem labelsCore_spec {n : Nat} (hninv : n ≤ invalid)
    (Hmem : ∀ u v, v ∈ nbrs u → v < n)
    (Hsym : ∀ u v, u < n → v < n → (v ∈ nbrs u ↔ u ∈ nbrs v))
    (rootFor : List Nat) (rootLabel : List Int)
    (hrf : ∀ i, i < n → rootFor.getD i invalid =
      (if isCore i then compMin isCore nbrs n i else invalid))
    (hrl : ∀ r, r < n → rootLabel.getD r (-1) =
      (if seedB isCore nbrs n r = true then ((seedsBelow isCore nbrs n r : Nat) : Int)
        else -1)) :
    ((List.range n).foldl
      (fun ls i =>
        if isCore i then
          if rootFor.getD i invalid = invalid then ls
          else ls.set i (rootLabel.getD (rootFor.getD i invalid) (-1))
        else ls)
      (List.replicate n (-1 : Int))).length = n ∧
    ∀ j, j < n →
      ((List.range n).foldl
        (fun ls i =>
          if isCore i then
            if rootFor.getD i invalid = invalid then ls
            else ls.set i (rootLabel.getD (rootFor.getD i invalid) (-1))
          else ls)
        (List.replicate n (-1 : Int))).getD j 0 =
      (if isCore j then ((rankOf isCore nbrs n j : Nat) : Int) else -1) := by
  have key : ∀ i0, i0 ≤ n →
      ((List.range i0).foldl
        (fun ls i =>
          if isCore i then
            if rootFor.getD i invalid = invalid then ls
            else ls.set i (rootLabel.getD (rootFor.getD i invalid) (-1))
          else ls)
        (List.replicate n (-1 : Int))).length = n ∧
      ∀ j, j < n →
        ((List.range i0).foldl
          (fun ls i =>
            if isCore i then
              if rootFor.getD i invalid = invalid then ls
              else ls.set i (rootLabel.getD (rootFor.getD i invalid) (-1))
            else ls)
          (List.replicate n (-1 : Int))).getD j 0 =
        (if isCore j ∧ j < i0 then ((rankOf isCore nbrs n j : Nat) : Int) else -1) := by
    intro i0
    induction i0 with
    | zero =>
      intro _
      refine ⟨by simp, ?_⟩
      intro j hj
      rw [if_neg (by omega), List.getD_eq_getElem _ _ (by simpa using hj)]
      simp
    | succ i ih =>
      intro hin
      have hi : i < n := hin
      obtain ⟨hlen, hvals⟩ := ih (Nat.le_of_succ_le hin)
      rw [List.range_succ, List.foldl_append, List.foldl_cons, List.foldl_nil]
      set st := (List.range i).foldl
        (fun ls i =>
          if isCore i then
            if rootFor.getD i invalid = invalid then ls
            else ls.set i (rootLabel.getD (rootFor.getD i invalid) (-1))
          else ls)
        (List.replicate n (-1 : Int)) with hst
      by_cases hc : isCore i = true
      · rw [if_pos hc]
        have hrfi : rootFor.getD i invalid = compMin isCore nbrs n i := by
          rw [hrf i hi, if_pos hc]
        have hcmlt : compMin isCore nbrs n i < n := compMin_lt isCore nbrs hi
        have hrfne : ¬ (rootFor.getD i invalid = invalid) := by
          rw [hrfi]
          omega
        rw [if_neg hrfne, hrfi]
        have hval : rootLabel.getD (compMin isCore nbrs n i) (-1) =
            ((rankOf isCore nbrs n i : Nat) : Int) := by
          rw [hrl _ hcmlt, if_pos (compMin_is_seed isCore nbrs hi hc Hmem Hsym)]
          rfl
        refine ⟨by simp [hlen], ?_⟩
        intro j hj
        by_cases hji : j = i
        · subst hji
          rw [set_getD_self _ _ _ _ (by omega), hval, if_pos ⟨hc, by omega⟩]
        · rw [set_getD_ne _ _ _ _ _ hji, hvals j hj]
          split_ifs with h1 h2 h2
          · rfl
          · exact absurd ⟨h1.1, by omega⟩ h2
          · exfalso
            rcases Nat.lt_or_ge j i with hlt | hge
            · exact h1 ⟨h2.1, hlt⟩
            · exact hji (by omega)
          · rfl
      · rw [if_neg hc]
        refine ⟨hlen, ?_⟩
        intro j hj
        rw [hvals j hj]
        split_ifs with h1 h2 h2
        · rfl
        · exact absurd ⟨h1.1, by omega⟩ h2
        · exfalso
          rcases Nat.lt_or_ge j i with hlt | hge
          · exact h1 ⟨h2.1, hlt⟩
          · have : j = i := by omega
            subst this
            exact hc h2.1
        · rfl
  obtain ⟨hlen, hvals⟩ := key n (le_refl n)
  refine ⟨hlen, ?_⟩
  intro j hj
  rw [hvals j hj]
  split_ifs with h1 h2 h2
  · rfl
  · exact absurd h1.1 h2
  · exact absurd ⟨h2, hj⟩ h1
  · rfl

theorem getD_irrel {l : List Int} {j : Nat} (h : j < l.length) (d1 d2 : Int) :
    l.getD j d1 = l.getD j d2 := by
  rw [List.getD_eq_getElem _ _ h, List.getD_eq_getElem _ _ h]

theorem bestFold_aux (cs : List Nat) :
    ∀ c : Nat,
      cs.foldl
        (fun best (m : Nat) =>
          if (m : Int) ≠ -1 ∧ (best = -1 ∨ (m : Int) < best) then (m : Int) else best)
        ((c : Nat) : Int) =
      ((cs.foldl min c : Nat) : Int) := by
  induction cs with
  | nil => intro c; rfl
  | cons a cs ih =>
    intro c
    rw [List.foldl_cons, List.foldl_cons]
    have hstep : (if ((a : Nat) : Int) ≠ -1 ∧
        (((c : Nat) : Int) = -1 ∨ ((a : Nat) : Int) < ((c : Nat) : Int)) then
          ((a : Nat) : Int) else ((c : Nat) : Int)) = ((min c a : Nat) : Int) := by
      by_cases hac : a < c
      · rw [if_pos ⟨by omega, Or.inr (by exact_mod_cast hac)⟩]
        have hmin : min c a = a := by omega
        rw [hmin]
      · have hcond : ¬ (((a : Nat) : Int) ≠ -1 ∧
            (((c : Nat) : Int) = -1 ∨ ((a : Nat) : Int) < ((c : Nat) : Int))) := by
          intro hcon
          rcases hcon.2 with h | h
          · omega
          · omega
        rw [if_neg hcond]
        have hmin : min c a = c := by omega
        rw [hmin]
    rw [hstep, ih]

/-- The best-neighbor scan of a non-core point computes the minimum rank among
its core neighbors (`-1` when there is none). -/
theorem foldl_map_rank (n : Nat) (l : List Nat) :
    ∀ init : Int,
      l.foldl
        (fun best j =>
          if ((rankOf isCore nbrs n j : Nat) : Int) ≠ -1 ∧
              (best = -1 ∨ ((rankOf isCore nbrs n j : Nat) : Int) < best) then
            ((rankOf isCore nbrs n j : Nat) : Int) else best) init =
      (l.map (fun j => rankOf isCore nbrs n j)).foldl
        (fun best (m : Nat) =>
          if (m : Int) ≠ -1 ∧ (best = -1 ∨ (m : Int) < best) then (m : Int) else best)
        init := by
  induction l with
  | nil => intro _; rfl
  | cons a l ih =>
    intro init
    rw [List.foldl_cons, List.map_cons, List.foldl_cons, ih]

theorem best_spec {n : Nat} (ls : List Int) (i : Nat)
    (hvals : ∀ j ∈ nbrs i, isCore j = true →
      ls.getD j (-1) = ((rankOf isCore nbrs n j : Nat) : Int)) :
    (nbrs i).foldl
      (fun best j =>
        if isCore j then
          if ls.getD j (-1) ≠ -1 ∧ (best = -1 ∨ ls.getD j (-1) < best) then ls.getD j (-1)
          else best
        else best)
      (-1 : Int) =
    (match minAdjRank isCore nbrs n i with
      | none => -1
      | some m => ((m : Nat) : Int)) := by
  have hcongr := foldl_congr_fn (nbrs i)
    (fun best j =>
      if isCore j then
        if ls.getD j (-1) ≠ -1 ∧ (best = -1 ∨ ls.getD j (-1) < best) then ls.getD j (-1)
        else best
      else best)
    (fun best j =>
      if isCore j = true then
        (if ((rankOf isCore nbrs n j : Nat) : Int) ≠ -1 ∧
            (best = -1 ∨ ((rankOf isCore nbrs n j : Nat) : Int) < best) then
          ((rankOf isCore nbrs n j : Nat) : Int) else best)
      else best)
    (-1 : Int)
    (by
      intro acc x hx
      dsimp only
      by_cases hc : isCore x = true
      · rw [if_pos hc, if_pos hc, hvals x hx hc]
      · rw [if_neg hc, if_neg hc])
  rw [hcongr, ← foldl_filter_cond, foldl_map_rank isCore nbrs n]
  show (coreRanks isCore nbrs n i).foldl
      (fun best (m : Nat) =>
        if (m : Int) ≠ -1 ∧ (best = -1 ∨ (m : Int) < best) then (m : Int) else best)
      (-1 : Int) = _
  unfold minAdjRank
  cases hcr : coreRanks isCore nbrs n i with
  | nil => rfl
  | cons c cs =>
    rw [List.foldl_cons]
    dsimp only
    have hcond : ((c : Int) ≠ -1 ∧ ((-1 : Int) = -1 ∨ (c : Int) < -1)) :=
      ⟨by omega, Or.inl rfl⟩
    rw [if_pos hcond, bestFold_aux cs c]

/-- The last pass gives every non-core point its minimum adjacent cluster id,
leaving core labels alone: the result is the canonical labeling. -/
theorem finalStage_spec {n : Nat}
    (Hmem : ∀ u v, v ∈ nbrs u → v < n)
    (labelsCore : List Int)
    (hlen : labelsCore.length = n)
    (hcorev : ∀ j, j < n → labelsCore.getD j 0 =
      (if isCore j then ((rankOf isCore nbrs n j : Nat) : Int) else -1)) :
    ((List.range n).foldl
      (fun ls i =>
        if isCore i then ls
        else ls.set i ((nbrs i).foldl
          (fun best j =>
            if isCore j then
              if ls.getD j (-1) ≠ -1 ∧ (best = -1 ∨ ls.getD j (-1) < best) then
                ls.getD j (-1)
              else best
            else best)
          (-1 : Int)))
      labelsCore).length = n ∧
    ∀ j, j < n →
      ((List.range n).foldl
        (fun ls i =>
          if isCore i then ls
          else ls.set i ((nbrs i).foldl
            (fun best j =>
              if isCore j then
                if ls.getD j (-1) ≠ -1 ∧ (best = -1 ∨ ls.getD j (-1) < best) then
                  ls.getD j (-1)
                else best
              else best)
            (-1 : Int)))
        labelsCore).getD j 0 = canonLabel isCore nbrs n j := by
  have key : ∀ i0, i0 ≤ n →
      ((List.range i0).foldl
        (fun ls i =>
          if isCore i then ls
          else ls.set i ((nbrs i).foldl
            (fun best j =>
              if isCore j then
                if ls.getD j (-1) ≠ -1 ∧ (best = -1 ∨ ls.getD j (-1) < best) then
                  ls.getD j (-1)
                else best
              else best)
            (-1 : Int)))
        labelsCore).length = n ∧
      (∀ j, j < n → isCore j = true →
        ((List.range i0).foldl
          (fun ls i =>
            if isCore i then ls
            else ls.set i ((nbrs i).foldl
              (fun best j =>
                if isCore j then
                  if ls.getD j (-1) ≠ -1 ∧ (best = -1 ∨ ls.getD j (-1) < best) then
                    ls.getD j (-1)
                  else best
                else best)
              (-1 : Int)))
          labelsCore).getD j 0 = ((rankOf isCore nbrs n j : Nat) : Int)) ∧
      (∀ j, j < n → isCore j = false →
        ((List.range i0).foldl
          (fun ls i =>
            if isCore i then ls
            else ls.set i ((nbrs i).foldl
              (fun best j =>
                if isCore j then
                  if ls.getD j (-1) ≠ -1 ∧ (best = -1 ∨ ls.getD j (-1) < best) then
                    ls.getD j (-1)
                  else best
                else best)
              (-1 : Int)))
          labelsCore).getD j 0 =
        (if j < i0 then canonLabel isCore nbrs n j else -1)) := by
    intro i0
    induction i0 with
    | zero =>
      intro _
      refine ⟨hlen, ?_, ?_⟩
      · intro j hj hjc
        show labelsCore.getD j 0 = _
        rw [hcorev j hj, if_pos hjc]
      · intro j hj hjc
        show labelsCore.getD j 0 = _
        rw [hcorev j hj, if_neg (by simp [hjc]), if_neg (by omega)]
    | succ i ih =>
      intro hin
      have hi : i < n := hin
      obtain ⟨hlen', hcorevals, hncvals⟩ := ih (Nat.le_of_succ_le hin)
      rw [List.range_succ, List.foldl_append, List.foldl_cons, List.foldl_nil]
      set st := (List.range i).foldl
        (fun ls i =>
          if isCore i then ls
          else ls.set i ((nbrs i).foldl
            (fun best j =>
              if isCore j then
                if ls.getD j (-1) ≠ -1 ∧ (best = -1 ∨ ls.getD j (-1) < best) then
                  ls.getD j (-1)
                else best
              else best)
            (-1 : Int)))
        labelsCore with hst
      by_cases hc : isCore i = true
      · rw [if_pos hc]
        refine ⟨hlen', hcorevals, ?_⟩
        intro j hj hjc
        rw [hncvals j hj hjc]
        have hji : j ≠ i := by
          intro h
          subst h
          rw [hc] at hjc
          cases hjc
        split_ifs with h1 h2 h2
        · rfl
        · omega
        · omega
        · rfl
      · rw [if_neg hc]
        have hbest := best_spec isCore nbrs (n := n) st i
          (fun j hjmem hjc =>
            by rw [getD_irrel (by rw [hlen']; exact Hmem i j hjmem) (-1) 0,
              hcorevals j (Hmem i j hjmem) hjc])
        refine ⟨by simp [hlen'], ?_, ?_⟩
        · intro j hj hjc
          have hji : j ≠ i := by
            intro h
            subst h
            rw [hjc] at hc
            exact hc rfl
          rw [set_getD_ne _ _ _ _ _ hji]
          exact hcorevals j hj hjc
        · intro j hj hjc
          by_cases hji : j = i
          · subst hji
            rw [set_getD_self _ _ _ _ (by omega), hbest, if_pos (by omega)]
            unfold canonLabel
            rw [if_neg (by simp [hjc])]
          · rw [set_getD_ne _ _ _ _ _ hji, hncvals j hj hjc]
            split_ifs with h1 h2 h2
            · rfl
            · omega
            · omega
            · rfl
  obtain ⟨hlen', hcorevals, hncvals⟩ := key n (le_refl n)
  refine ⟨hlen', ?_⟩
  intro j hj
  by_cases hc : isCore j = true
  · rw [hcorevals j hj hc]
    unfold canonLabel
    rw [if_pos hc]
  · have hc' : isCore j = false := by
      cases hh : isCore j
      · rfl
      · exact absurd hh hc
    rw [hncvals j hj hc', if_pos hj]

theorem rootLabel_spec2 (n : Nat) (components : List (Nat × Nat))
    (hcomp : components =
      ((List.range n).filter (fun s => seedB isCore nbrs n s)).map (fun s => (s, s))) :
    ((List.insertionSort lexPair components).foldl
      (fun (acc : List Int × Nat) c => (acc.1.set c.2 (acc.2 : Int), acc.2 + 1))
      (List.replicate n (-1 : Int), 0)).1.length = n ∧
    ∀ r, r < n →
      ((List.insertionSort lexPair components).foldl
        (fun (acc : List Int × Nat) c => (acc.1.set c.2 (acc.2 : Int), acc.2 + 1))
        (List.replicate n (-1 : Int), 0)).1.getD r (-1) =
      (if seedB isCore nbrs n r = true then ((seedsBelow isCore nbrs n r : Nat) : Int)
        else -1) := by
  rw [hcomp, List.Sorted.insertionSort_eq (components_sorted isCore nbrs n)]
  exact rootLabel_spec isCore nbrs n

/-- `union_find_expand` also computes exactly the canonical labeling.  The
count bound reflects the `uint32` index space of the source. -/
theorem unionFindExpand_canon (n : Nat) (hninv : n ≤ invalid)
    (Hmem : ∀ u v, v ∈ nbrs u → v < n)
    (Hsym : ∀ u v, u < n → v < n → (v ∈ nbrs u ↔ u ∈ nbrs v)) :
    unionFindExpand n isCore nbrs (List.replicate n (-1 : Int)) =
      canonLabels isCore nbrs n := by
  obtain ⟨hp1good, hp1root⟩ := parents1_rootOf isCore nbrs hninv Hmem Hsym
  obtain ⟨hrfl, hrfv⟩ := rfp_spec isCore nbrs hninv Hmem _ hp1good hp1root
  have hcmv := cm_spec isCore nbrs hninv Hmem Hsym _ hrfv
  have hcomponents := components_char isCore nbrs hninv _ hcmv
  obtain ⟨hrllen, hrlv⟩ := rootLabel_spec2 isCore nbrs n _ hcomponents
  obtain ⟨hlclen, hlcv⟩ := labelsCore_spec isCore nbrs hninv Hmem Hsym _ _ hrfv hrlv
  obtain ⟨hflen, hfval⟩ := finalStage_spec isCore nbrs Hmem _ hlclen hlcv
  have hflen' : (unionFindExpand n isCore nbrs (List.replicate n (-1 : Int))).length = n :=
    hflen
  have hfval' : ∀ j, j < n →
      (unionFindExpand n isCore nbrs (List.replicate n (-1 : Int))).getD j 0 =
        canonLabel isCore nbrs n j := hfval
  apply List.ext_getElem
  · rw [hflen']
    unfold canonLabels
    rw [List.length_map, List.length_range]
  · intro j h1 h2
    have hj : j < n := by
      rw [hflen'] at h1
      exact h1
    rw [← List.getD_eq_getElem _ 0 h1, hfval' j hj]
    unfold canonLabels
    rw [List.getElem_map, List.getElem_range]

theorem frontierExpand_canon (n : Nat)
    (Hmem : ∀ u v, v ∈ nbrs u → v < n)
    (Hsym : ∀ u v, u < n → v < n → (v ∈ nbrs u ↔ u ∈ nbrs v)) :
    frontierExpand n isCore nbrs (List.replicate n (-1 : Int)) =
      canonLabels isCore nbrs n := by
  rw [frontierExpand_eq_outerScan isCore nbrs n]
  exact outerScan_eq_canon isCore nbrs n Hmem Hsym _ (frontierLoop_expandSpec isCore nbrs n Hmem)

/-- Whenever `unite` merges two distinct classes, the numerically smaller root
becomes the parent of the larger one. -/
theorem unite_smaller_root_wins {n : Nat} (hninv : n ≤ invalid)
    (Hmem : ∀ u v, v ∈ nbrs u → v < n)
    (Hsym : ∀ u v, u < n → v < n → (v ∈ nbrs u ↔ u ∈ nbrs v))
    (parents : List Nat) (a b : Nat)
    (hgood : goodParents isCore nbrs n parents)
    (ha : a < n) (hb : b < n) (hacore : isCore a = true) (hbcore : isCore b = true)
    (hconn : b ∈ component isCore nbrs n a)
    (hne : rootOf parents a ≠ rootOf parents b) :
    (unite parents a b).getD (max (rootOf parents a) (rootOf parents b)) invalid =
      min (rootOf parents a) (rootOf parents b) := by
  obtain ⟨hra1, hra2, hra3⟩ := findRoot_spec isCore nbrs hninv Hmem parents a hgood ha hacore
  obtain ⟨hrb1, hrb2, hrb3⟩ := findRoot_spec isCore nbrs hninv Hmem (findRoot parents a).2 b
    hra2 hb hbcore
  have hra3' : ∀ j, j < n → isCore j = true →
      rootOf (findRoot (findRoot parents a).2 b).2 j = rootOf parents j := by
    intro j hj hjc
    rw [hrb3 j hj hjc, hra3 j hj hjc]
  obtain ⟨hrap1, hrap2, hrap3, hrap4, hrap5⟩ :=
    rootOf_props isCore nbrs hrb2 Hmem a ha hacore
  obtain ⟨hrbp1, hrbp2, hrbp3, hrbp4, hrbp5⟩ :=
    rootOf_props isCore nbrs hrb2 Hmem b hb hbcore
  rw [hra3' a ha hacore] at hrap1 hrap2 hrap3 hrap4 hrap5
  rw [hra3' b hb hbcore] at hrbp1 hrbp2 hrbp3 hrbp4 hrbp5
  have hlen2 : (findRoot (findRoot parents a).2 b).2.length = n := hrb2.1
  simp only [unite]
  rw [hra1, hrb1, hra3 b hb hbcore]
  have hcond : ¬ (rootOf parents a = invalid ∨ rootOf parents b = invalid ∨
      rootOf parents a = rootOf parents b) := by
    omega
  rw [if_neg hcond]
  by_cases hlt : rootOf parents a < rootOf parents b
  · rw [if_pos hlt]
    have hmax : max (rootOf parents a) (rootOf parents b) = rootOf parents b := by omega
    have hmin : min (rootOf parents a) (rootOf parents b) = rootOf parents a := by omega
    rw [hmax, hmin]
    exact set_getD_self _ _ _ _ (by omega)
  · rw [if_neg hlt]
    have hmax : max (rootOf parents a) (rootOf parents b) = rootOf parents a := by omega
    have hmin : min (rootOf parents a) (rootOf parents b) = rootOf parents b := by omega
    rw [hmax, hmin]
    exact set_getD_self _ _ _ _ (by omega)

/-- Folding `unite` over any list of core-core edges that covers the
adjacency relation leaves every core's root at its component minimum. -/
theorem uniteEdges_rootOf_compMin {n : Nat} (hninv : n ≤ invalid)
    (Hmem : ∀ u v, v ∈ nbrs u → v < n)
    (Hsym : ∀ u v, u < n → v < n → (v ∈ nbrs u ↔ u ∈ nbrs v))
    (E : List (Nat × Nat))
    (hE : ∀ e ∈ E, e.1 < n ∧ e.2 < n ∧ isCore e.1 = true ∧ isCore e.2 = true ∧
      e.2 ∈ component isCore nbrs n e.1)
    (hcompl : ∀ u v, u < n → isCore u = true → v ∈ nbrs u → isCore v = true →
      (u, v) ∈ E ∨ (v, u) ∈ E) :
    goodParents isCore nbrs n
      (E.foldl (fun ps e => unite ps e.1 e.2)
        ((List.range n).map (fun i => if isCore i then i else invalid))) ∧
    ∀ i, i < n → isCore i = true →
      rootOf (E.foldl (fun ps e => unite ps e.1 e.2)
        ((List.range n).map (fun i => if isCore i then i else invalid))) i =
      compMin isCore nbrs n i := by
  obtain ⟨g1, g2, g3⟩ := uniteEdges_spec isCore nbrs hninv Hmem Hsym E _
    (parents0_good isCore nbrs n) hE
  refine ⟨g1, ?_⟩
  intro i hi hicore
  have hconst : ∀ u ∈ component isCore nbrs n i,
      rootOf (E.foldl (fun ps e => unite ps e.1 e.2)
        ((List.range n).map (fun i => if isCore i then i else invalid))) u =
      rootOf (E.foldl (fun ps e => unite ps e.1 e.2)
        ((List.range n).map (fun i => if isCore i then i else invalid))) i := by
    intro u hu
    refine (component_minimal isCore nbrs n i
      (fun u => u ∈ component isCore nbrs n i ∧
        rootOf (E.foldl (fun ps e => unite ps e.1 e.2)
          ((List.range n).map (fun i => if isCore i then i else invalid))) u =
        rootOf (E.foldl (fun ps e => unite ps e.1 e.2)
          ((List.range n).map (fun i => if isCore i then i else invalid))) i)
      ⟨mem_component_self isCore nbrs n i, rfl⟩ ?_ u hu).2
    intro a v ha hav hvc
    have haC := ha.1
    have hacore : isCore a = true := component_mem_core isCore nbrs hicore a haC
    have han : a < n := component_mem_lt isCore nbrs hi Hmem a haC
    have hedge : rootOf (E.foldl (fun ps e => unite ps e.1 e.2)
        ((List.range n).map (fun i => if isCore i then i else invalid))) a =
        rootOf (E.foldl (fun ps e => unite ps e.1 e.2)
          ((List.range n).map (fun i => if isCore i then i else invalid))) v := by
      rcases hcompl a v han hacore hav hvc with he | he
      · exact g3 (a, v) he
      · exact (g3 (v, a) he).symm
    exact ⟨mem_component_closed isCore nbrs hi Hmem a haC v hav hvc,
      by rw [← hedge]; exact ha.2⟩
  have hm := compMin_mem isCore nbrs n i
  have hmn : compMin isCore nbrs n i < n := compMin_lt isCore nbrs hi
  have hmcore : isCore (compMin isCore nbrs n i) = true :=
    component_mem_core isCore nbrs hicore _ hm
  obtain ⟨q1, _, _, q4, _⟩ := rootOf_props isCore nbrs g1 Hmem (compMin isCore nbrs n i)
    hmn hmcore
  have hcc : component isCore nbrs n (compMin isCore nbrs n i) =
      component isCore nbrs n i :=
    component_congr isCore nbrs hi hicore Hmem Hsym hm
  have hrminmem : rootOf (E.foldl (fun ps e => unite ps e.1 e.2)
      ((List.range n).map (fun i => if isCore i then i else invalid)))
      (compMin isCore nbrs n i) ∈ component isCore nbrs n i := by
    rw [← hcc]
    exact q4
  have hge := compMin_le_mem isCore nbrs n i _ hrminmem
  have hrm : rootOf (E.foldl (fun ps e => unite ps e.1 e.2)
      ((List.range n).map (fun i => if isCore i then i else invalid)))
      (compMin isCore nbrs n i) = compMin isCore nbrs n i := by
    omega
  rw [← hconst (compMin isCore nbrs n i) hm, hrm]

end Components

/-- The symmetric adjacency induced by an explicit edge list. -/
def edgeNbrs (E : List (Nat × Nat)) (u : Nat) : List Nat :=
  E.flatMap (fun e =>
    (if e.1 = u then [e.2] else []) ++ (if e.2 = u then [e.1] else []))

theorem mem_edgeNbrs (E : List (Nat × Nat)) (u v : Nat) :
    v ∈ edgeNbrs E u ↔ ((u, v) ∈ E ∨ (v, u) ∈ E) := by
  unfold edgeNbrs
  rw [List.mem_flatMap]
  constructor
  · rintro ⟨e, he, hv⟩
    rw [List.mem_append] at hv
    rcases hv with hv | hv
    · by_cases h1 : e.1 = u
      · rw [if_pos h1, List.mem_singleton] at hv
        left
        have : e = (u, v) := by
          cases e
          simp only at h1 hv
          rw [h1, hv]
        rw [← this]
        exact he
      · rw [if_neg h1] at hv
        exact absurd hv (List.not_mem_nil v)
    · by_cases h2 : e.2 = u
      · rw [if_pos h2, List.mem_singleton] at hv
        right
        have : e = (v, u) := by
          cases e
          simp only at h2 hv
          rw [h2, hv]
        rw [← this]
        exact he
      · rw [if_neg h2] at hv
        exact absurd hv (List.not_mem_nil v)
  · rintro (he | he)
    · exact ⟨(u, v), he, by simp⟩
    · exact ⟨(v, u), he, by simp⟩

theorem Ctx.neighbors_lt (ctx : Ctx) : ∀ u v, v ∈ ctx.neighbors u → v < ctx.count := by
  intro u v hv
  unfold Ctx.neighbors at hv
  rw [List.mem_flatMap] at hv
  obtain ⟨c, _, hv⟩ := hv
  rw [List.mem_filter] at hv
  exact ((ctx.mem_lookupSlice _ v).mp hv.1).1

theorem Ctx.neighbors_symm (ctx : Ctx) : ∀ u v, u < ctx.count → v < ctx.count →
    (v ∈ ctx.neighbors u ↔ u ∈ ctx.neighbors v) := by
  intro u v hu hv
  rw [ctx.mem_neighbors u hu v, ctx.mem_neighbors v hv u, ctx.manhattan_comm u v]
  simp [hu, hv]

/-- All three expansion modes compute the canonical labeling, hence identical
label vectors.  The count bound reflects the `uint32` index space. -/
theorem implLabels_modes_agree (ctx : Ctx) (hcount : ctx.count ≤ invalid) :
    implLabels ctx GridExpansionMode.Sequential =
      implLabels ctx GridExpansionMode.FrontierParallel ∧
    implLabels ctx GridExpansionMode.Sequential =
      implLabels ctx GridExpansionMode.UnionFind := by
  unfold implLabels
  by_cases h : ctx.count = 0
  · rw [if_pos h, if_pos h, if_pos h]
    exact ⟨rfl, rfl⟩
  · rw [if_neg h, if_neg h, if_neg h]
    have hseq : sequentialExpand ctx.count ctx.isCore ctx.neighbors
        (List.replicate ctx.count (-1 : Int)) =
        canonLabels ctx.isCore ctx.neighbors ctx.count :=
      sequentialExpand_canon ctx.isCore ctx.neighbors ctx.count ctx.neighbors_lt
        ctx.neighbors_symm
    have hfr : frontierExpand ctx.count ctx.isCore ctx.neighbors
        (List.replicate ctx.count (-1 : Int)) =
        canonLabels ctx.isCore ctx.neighbors ctx.count :=
      frontierExpand_canon ctx.isCore ctx.neighbors ctx.count ctx.neighbors_lt
        ctx.neighbors_symm
    have huf : unionFindExpand ctx.count ctx.isCore ctx.neighbors
        (List.replicate ctx.count (-1 : Int)) =
        canonLabels ctx.isCore ctx.neighbors ctx.count :=
      unionFindExpand_canon ctx.isCore ctx.neighbors ctx.count hcount ctx.neighbors_lt
        ctx.neighbors_symm
    constructor
    · show sequentialExpand ctx.count ctx.isCore ctx.neighbors
        (List.replicate ctx.count (-1 : Int)) =
        frontierExpand ctx.count ctx.isCore ctx.neighbors
          (List.replicate ctx.count (-1 : Int))
      rw [hseq, hfr]
    · show sequentialExpand ctx.count ctx.isCore ctx.neighbors
        (List.replicate ctx.count (-1 : Int)) =
        unionFindExpand ctx.count ctx.isCore ctx.neighbors
          (List.replicate ctx.count (-1 : Int))
      rw [hseq, huf]

theorem implLabels_seq_canon (ctx : Ctx) (hc : ctx.count ≠ 0) :
    implLabels ctx GridExpansionMode.Sequential =
      canonLabels ctx.isCore ctx.neighbors ctx.count := by
  unfold implLabels
  rw [if_neg hc]
  show sequentialExpand ctx.count ctx.isCore ctx.neighbors
    (List.replicate ctx.count (-1 : Int)) = _
  exact sequentialExpand_canon ctx.isCore ctx.neighbors ctx.count ctx.neighbors_lt
    ctx.neighbors_symm

theorem canonLabels_length (isCore : Nat → Bool) (nbrs : Nat → List Nat) (n : Nat) :
    (canonLabels isCore nbrs n).length = n := by
  unfold canonLabels
  rw [List.length_map, List.length_range]

theorem canonLabels_getD (isCore : Nat → Bool) (nbrs : Nat → List Nat) (n j : Nat)
    (hj : j < n) :
    (canonLabels isCore nbrs n).getD j 0 = canonLabel isCore nbrs n j := by
  rw [List.getD_eq_getElem _ _ (by rw [canonLabels_length]; exact hj)]
  unfold canonLabels
  rw [List.getElem_map, List.getElem_range]

end L1

/-! ## Baseline engine (`src/src/dbscan.cpp`, class `DBSCAN<T>`, `T` as `ℚ`) -/

/-- A 2-D point with exact rational coordinates standing in for `double`. -/
structure PointQ where
  x : ℚ
  y : ℚ

namespace Baseline

/-- `DBSCAN::find_neighbors`: every index other than `point_idx` within
squared euclidean distance `eps²` of it, in ascending index order (the self
index is skipped). -/
def find_neighbors (eps : ℚ) (points : List PointQ) (point_idx : Nat) : List Nat :=
  (List.range points.length).filter (fun i =>
    decide (i ≠ point_idx ∧
      ((points.getD i ⟨0, 0⟩).x - (points.getD point_idx ⟨0, 0⟩).x) *
          ((points.getD i ⟨0, 0⟩).x - (points.getD point_idx ⟨0, 0⟩).x) +
        ((points.getD i ⟨0, 0⟩).y - (points.getD point_idx ⟨0, 0⟩).y) *
          ((points.getD i ⟨0, 0⟩).y - (points.getD point_idx ⟨0, 0⟩).y) ≤ eps * eps))

/-- Count of `-1` (unvisited) and `-2` (tentative noise) entries: the
termination measure of the seed queue loop. -/
def count12 (labels : List Int) : Nat :=
  labels.countP (fun v => v == -1 || v == -2)

theorem count12_set_of {labels : List Int} {j : Nat} {v : Int}
    (hj : j < labels.length)
    (hold : labels.get ⟨j, hj⟩ = -1 ∨ labels.get ⟨j, hj⟩ = -2)
    (hv : v ≠ -1 ∧ v ≠ -2) :
    count12 (labels.set j v) + 1 = count12 labels := by
  unfold count12
  induction labels generalizing j with
  | nil => simp at hj
  | cons a l ih =>
    cases j with
    | zero =>
      simp only [List.get] at hold
      have ha : (a == -1 || a == -2) = true := by
        rcases hold with h | h <;> simp [h]
      have hb : ((v == -1 || v == -2) : Bool) = false := by
        simp [hv.1, hv.2]
      simp [List.set, List.countP_cons, ha, hb]
    | succ j =>
      simp only [List.set, List.countP_cons]
      have := ih (j := j) (by simpa using hj) (by simpa using hold)
      omega

theorem count12_set_le (labels : List Int) (j : Nat) (v : Int)
    (hv : v ≠ -1 ∧ v ≠ -2) :
    count12 (labels.set j v) ≤ count12 labels := by
  unfold count12
  induction labels generalizing j with
  | nil => simp
  | cons a l ih =>
    cases j with
    | zero =>
      have hb : ((v == -1 || v == -2) : Bool) = false := by
        simp [hv.1, hv.2]
      cases h : (a == -1 || a == -2) <;> simp [List.set, List.countP_cons, hb, h]
    | succ j =>
      simp only [List.set, List.countP_cons]
      have := ih (j := j)
      omega

/-- The `labels[current] == -2` promotion at the head of the loop body. -/
def bumpNoise (cid : Nat) (labels : List Int) (current : Nat) : List Int :=
  if labels.getD current 0 = -2 then labels.set current (cid : Int) else labels

theorem count12_bumpNoise_le (cid : Nat) (labels : List Int) (current : Nat) :
    count12 (bumpNoise cid labels current) ≤ count12 labels := by
  unfold bumpNoise
  split
  · exact count12_set_le labels current (cid : Int) ⟨by omega, by omega⟩
  · exact le_refl _

theorem count12_set_cid {labels : List Int} {current : Nat} (cid : Nat)
    (h : labels.getD current 0 = -1) :
    count12 (labels.set current (cid : Int)) + 1 = count12 labels := by
  have hj : current < labels.length := by
    by_contra hc
    rw [List.getD_eq_default] at h
    · exact absurd h (by norm_num)
    · omega
  apply count12_set_of hj ?_ ⟨by omega, by omega⟩
  left
  rw [List.getD_eq_get?, List.get?_eq_get hj] at h
  simpa using h

theorem find_neighbors_length_le (eps : ℚ) (points : List PointQ) (i : Nat) :
    (find_neighbors eps points i).length ≤ points.length := by
  unfold find_neighbors
  exact le_trans (List.length_filter_le _ _) (by simp)

/-- The seed queue loop of `DBSCAN::expand_cluster` (FIFO: pop at the head,
push at the tail): a popped `-2` becomes a border member of the current
cluster; an unvisited point is labeled and, if core, enqueues its `-1`/`-2`
neighbors. -/
def expandClusterLoop (eps : ℚ) (min_pts : Int) (points : List PointQ) (cid : Nat)
    (labels : List Int) (seeds : List Nat) : List Int :=
  match seeds with
  | [] => labels
  | current :: rest =>
    let labels1 := bumpNoise cid labels current
    if labels1.getD current 0 ≠ -1 then expandClusterLoop eps min_pts points cid labels1 rest
    else
      let labels2 := labels1.set current (cid : Int)
      let nbrs := find_neighbors eps points current
      if (nbrs.length : Int) ≥ min_pts then
        expandClusterLoop eps min_pts points cid labels2
          (rest ++ nbrs.filter (fun nb => labels2.getD nb 0 == -1 || labels2.getD nb 0 == -2))
      else expandClusterLoop eps min_pts points cid labels2 rest
  termination_by count12 labels * (points.length + 1) + seeds.length
  decreasing_by
  · have h1 := count12_bumpNoise_le cid labels current
    have h2 : count12 (bumpNoise cid labels current) * (points.length + 1) ≤
        count12 labels * (points.length + 1) := Nat.mul_le_mul_right _ h1
    simp only [List.length_cons]
    omega
  · rename_i hne hcore
    push_neg at hne
    have h1 : count12 (bumpNoise cid labels current) ≤ count12 labels :=
      count12_bumpNoise_le cid labels current
    have h2 : count12 ((bumpNoise cid labels current).set current (cid : Int)) + 1 =
        count12 (bumpNoise cid labels current) := count12_set_cid cid hne
    have h3 : ((find_neighbors eps points current).filter
        (fun nb => ((bumpNoise cid labels current).set current (cid : Int)).getD nb 0 == -1 ||
          ((bumpNoise cid labels current).set current (cid : Int)).getD nb 0 == -2)).length ≤
        points.length :=
      le_trans (List.length_filter_le _ _) (find_neighbors_length_le eps points current)
    have h4 : (count12 ((bumpNoise cid labels current).set current (cid : Int)) + 1) *
        (points.length + 1) ≤ count12 labels * (points.length + 1) :=
      Nat.mul_le_mul_right _ (by omega)
    rw [Nat.add_mul, Nat.one_mul] at h4
    simp only [List.length_cons, List.length_append]
    omega
  · rename_i hne
    push_neg at hne
    unfold_let labels1 at hne
    have h1 : count12 (bumpNoise cid labels current) ≤ count12 labels :=
      count12_bumpNoise_le cid labels current
    have h2 : count12 ((bumpNoise cid labels current).set current (cid : Int)) + 1 =
        count12 (bumpNoise cid labels current) := count12_set_cid cid hne
    have h4 : (count12 ((bumpNoise cid labels current).set current (cid : Int)) + 1) *
        (points.length + 1) ≤ count12 labels * (points.length + 1) :=
      Nat.mul_le_mul_right _ (by omega)
    rw [Nat.add_mul, Nat.one_mul] at h4
    simp only [List.length_cons]
    omega

/-- `DBSCAN::cluster`: empty input short-circuits; otherwise scan indices in
order, tentatively marking sub-core points `-2` and expanding a fresh cluster
from every unvisited core point; finally `-2` becomes `-1`. -/
def cluster (eps : ℚ) (min_pts : Int) (points : List PointQ) : List Int × Int :=
  if points.isEmpty then ([], 0)
  else
    let res := (List.range points.length).foldl
      (fun (acc : List Int × Nat) i =>
        if acc.1.getD i 0 ≠ -1 then acc
        else
          let nbrs := find_neighbors eps points i
          if (nbrs.length : Int) < min_pts then (acc.1.set i (-2 : Int), acc.2)
          else
            (expandClusterLoop eps min_pts points acc.2 (acc.1.set i (acc.2 : Int)) nbrs,
              acc.2 + 1))
      (List.replicate points.length (-1 : Int), 0)
    (res.1.map (fun l => if l = -2 then -1 else l), (res.2 : Int))

/-! ### Invariants of the baseline scan: labels stay in `{-1, -2} ∪ [0, cid)`
and every allocated id survives in the vector. -/

theorem expandClusterLoop_nil (eps : ℚ) (min_pts : Int) (points : List PointQ) (cid : Nat)
    (labels : List Int) :
    expandClusterLoop eps min_pts points cid labels [] = labels := by
  rw [expandClusterLoop]

theorem expandClusterLoop_cons (eps : ℚ) (min_pts : Int) (points : List PointQ) (cid : Nat)
    (labels : List Int) (current : Nat) (rest : List Nat) :
    expandClusterLoop eps min_pts points cid labels (current :: rest) =
      (if (bumpNoise cid labels current).getD current 0 ≠ -1 then
        expandClusterLoop eps min_pts points cid (bumpNoise cid labels current) rest
      else
        (if ((find_neighbors eps points current).length : Int) ≥ min_pts then
          expandClusterLoop eps min_pts points cid
            ((bumpNoise cid labels current).set current (cid : Int))
            (rest ++ (find_neighbors eps points current).filter (fun nb =>
              ((bumpNoise cid labels current).set current (cid : Int)).getD nb 0 == -1 ||
              ((bumpNoise cid labels current).set current (cid : Int)).getD nb 0 == -2))
        else
          expandClusterLoop eps min_pts points cid
            ((bumpNoise cid labels current).set current (cid : Int)) rest)) := by
  rw [expandClusterLoop]

theorem bumpNoise_length (cid : Nat) (labels : List Int) (current : Nat) :
    (bumpNoise cid labels current).length = labels.length := by
  unfold bumpNoise
  split
  · rw [List.length_set]
  · rfl

theorem bumpNoise_getD (cid : Nat) (labels : List Int) (current j : Nat) :
    (bumpNoise cid labels current).getD j 0 = labels.getD j 0 ∨
      (bumpNoise cid labels current).getD j 0 = (cid : Int) := by
  unfold bumpNoise
  split
  · by_cases hj : j = current
    · subst hj
      by_cases hlt : j < labels.length
      · right
        rw [L1.getD_set_self _ _ _ hlt]
      · left
        rw [List.getD_eq_default _ _ (by rw [List.length_set]; omega)]
        rw [List.getD_eq_default _ _ (by omega)]
    · left
      exact L1.getD_set_ne _ _ _ _ hj
  · left
    rfl

theorem bumpNoise_getD_nonneg (cid : Nat) (labels : List Int) (current j : Nat)
    (h : 0 ≤ labels.getD j 0) :
    (bumpNoise cid labels current).getD j 0 = labels.getD j 0 := by
  unfold bumpNoise
  split
  · rename_i hcur
    by_cases hj : j = current
    · subst hj
      rw [hcur] at h
      omega
    · exact L1.getD_set_ne _ _ _ _ hj
  · rfl

theorem expandClusterLoop_length (eps : ℚ) (min_pts : Int) (points : List PointQ)
    (cid : Nat) (labels : List Int) (seeds : List Nat) :
    (expandClusterLoop eps min_pts points cid labels seeds).length = labels.length := by
  induction labels, seeds using expandClusterLoop.induct eps min_pts points cid with
  | case1 labels =>
    rw [expandClusterLoop_nil]
  | case2 labels current rest labels1 h ih =>
    unfold_let labels1 at h ih
    rw [expandClusterLoop_cons, if_pos h, ih, bumpNoise_length]
  | case3 labels current rest labels1 h labels2 nbrs hcore ih =>
    unfold_let nbrs labels2 labels1 at h hcore ih
    rw [expandClusterLoop_cons, if_neg h, if_pos hcore, ih, List.length_set,
      bumpNoise_length]
  | case4 labels current rest labels1 h labels2 nbrs hcore ih =>
    unfold_let nbrs labels2 labels1 at h hcore ih
    rw [expandClusterLoop_cons, if_neg h, if_neg hcore, ih, List.length_set,
      bumpNoise_length]

theorem expandClusterLoop_nonneg (eps : ℚ) (min_pts : Int) (points : List PointQ)
    (cid : Nat) (labels : List Int) (seeds : List Nat) (j : Nat)
    (h : 0 ≤ labels.getD j 0) :
    (expandClusterLoop eps min_pts points cid labels seeds).getD j 0 =
      labels.getD j 0 := by
  induction labels, seeds using expandClusterLoop.induct eps min_pts points cid with
  | case1 labels =>
    rw [expandClusterLoop_nil]
  | case2 labels current rest labels1 hcond ih =>
    unfold_let labels1 at hcond ih
    rw [expandClusterLoop_cons, if_pos hcond]
    rw [ih (by rw [bumpNoise_getD_nonneg _ _ _ _ h]; exact h),
      bumpNoise_getD_nonneg _ _ _ _ h]
  | case3 labels current rest labels1 hcond labels2 nbrs hcore ih =>
    unfold_let nbrs labels2 labels1 at hcond hcore ih
    rw [expandClusterLoop_cons, if_neg hcond, if_pos hcore]
    have hjc : j ≠ current := by
      intro hj
      subst hj
      rw [bumpNoise_getD_nonneg _ _ _ _ h] at hcond
      push_neg at hcond
      omega
    have hset : ((bumpNoise cid labels current).set current (cid : Int)).getD j 0 =
        labels.getD j 0 := by
      rw [L1.getD_set_ne _ _ _ _ hjc, bumpNoise_getD_nonneg _ _ _ _ h]
    rw [ih (by rw [hset]; exact h), hset]
  | case4 labels current rest labels1 hcond labels2 nbrs hcore ih =>
    unfold_let nbrs labels2 labels1 at hcond hcore ih
    rw [expandClusterLoop_cons, if_neg hcond, if_neg hcore]
    have hjc : j ≠ current := by
      intro hj
      subst hj
      rw [bumpNoise_getD_nonneg _ _ _ _ h] at hcond
      push_neg at hcond
      omega
    have hset : ((bumpNoise cid labels current).set current (cid : Int)).getD j 0 =
        labels.getD j 0 := by
      rw [L1.getD_set_ne _ _ _ _ hjc, bumpNoise_getD_nonneg _ _ _ _ h]
    rw [ih (by rw [hset]; exact h), hset]

theorem expandClusterLoop_values (eps : ℚ) (min_pts : Int) (points : List PointQ)
    (cid : Nat) (labels : List Int) (seeds : List Nat) (j : Nat) :
    (expandClusterLoop eps min_pts points cid labels seeds).getD j 0 =
      labels.getD j 0 ∨
    (expandClusterLoop eps min_pts points cid labels seeds).getD j 0 = (cid : Int) := by
  induction labels, seeds using expandClusterLoop.induct eps min_pts points cid with
  | case1 labels =>
    rw [expandClusterLoop_nil]
    left
    rfl
  | case2 labels current rest labels1 hcond ih =>
    unfold_let labels1 at hcond ih
    rw [expandClusterLoop_cons, if_pos hcond]
    rcases ih with hv | hv
    · rcases bumpNoise_getD cid labels current j with hb | hb
      · left
        rw [hv, hb]
      · right
        rw [hv, hb]
    · right
      exact hv
  | case3 labels current rest labels1 hcond labels2 nbrs hcore ih =>
    unfold_let nbrs labels2 labels1 at hcond hcore ih
    rw [expandClusterLoop_cons, if_neg hcond, if_pos hcore]
    rcases ih with hv | hv
    · by_cases hjc : j = current
      · subst hjc
        by_cases hlt : j < labels.length
        · right
          rw [hv, L1.getD_set_self _ _ _ (by rw [bumpNoise_length]; exact hlt)]
        · left
          rw [hv, List.getD_eq_default _ _
              (by rw [List.length_set, bumpNoise_length]; omega),
            List.getD_eq_default _ _ (by omega)]
      · rcases bumpNoise_getD cid labels current j with hb | hb
        · left
          rw [hv, L1.getD_set_ne _ _ _ _ hjc, hb]
        · right
          rw [hv, L1.getD_set_ne _ _ _ _ hjc, hb]
    · right
      exact hv
  | case4 labels current rest labels1 hcond labels2 nbrs hcore ih =>
    unfold_let nbrs labels2 labels1 at hcond hcore ih
    rw [expandClusterLoop_cons, if_neg hcond, if_neg hcore]
    rcases ih with hv | hv
    · by_cases hjc : j = current
      · subst hjc
        by_cases hlt : j < labels.length
        · right
          rw [hv, L1.getD_set_self _ _ _ (by rw [bumpNoise_length]; exact hlt)]
        · left
          rw [hv, List.getD_eq_default _ _
              (by rw [List.length_set, bumpNoise_length]; omega),
            List.getD_eq_default _ _ (by omega)]
      · rcases bumpNoise_getD cid labels current j with hb | hb
        · left
          rw [hv, L1.getD_set_ne _ _ _ _ hjc, hb]
        · right
          rw [hv, L1.getD_set_ne _ _ _ _ hjc, hb]
    · right
      exact hv

end Baseline

/-- A duplicate-free count: a list of integers whose members are exactly the
casts of `0, …, S-1` dedups to length `S`. -/
theorem dedup_length_eq_range (l : List Int) (S : Nat)
    (h : ∀ v : Int, v ∈ l ↔ ∃ r : Nat, r < S ∧ v = (r : Int)) :
    l.dedup.length = S := by
  have hperm : l.dedup.Perm ((List.range S).map (fun (r : Nat) => (r : Int))) := by
    rw [List.perm_ext_iff_of_nodup (List.nodup_dedup l)
      (List.Nodup.map Nat.cast_injective (List.nodup_range S))]
    intro v
    rw [List.mem_dedup, h v, List.mem_map]
    constructor
    · rintro ⟨r, hr, rfl⟩
      exact ⟨r, List.mem_range.mpr hr, rfl⟩
    · rintro ⟨r, hr, rfl⟩
      exact ⟨r, List.mem_range.mp hr, rfl⟩
  rw [hperm.length_eq, List.length_map, List.length_range]

namespace Baseline

/-- The outer index scan of `DBSCAN::cluster` truncated to the first `k`
indices, for prefix induction. -/
def scanFold (eps : ℚ) (min_pts : Int) (points : List PointQ) (k : Nat) :
    List Int × Nat :=
  (List.range k).foldl
    (fun (acc : List Int × Nat) i =>
      if acc.1.getD i 0 ≠ -1 then acc
      else
        if ((find_neighbors eps points i).length : Int) < min_pts then
          (acc.1.set i (-2 : Int), acc.2)
        else
          (expandClusterLoop eps min_pts points acc.2 (acc.1.set i (acc.2 : Int))
            (find_neighbors eps points i), acc.2 + 1))
    (List.replicate points.length (-1 : Int), 0)

theorem cluster_eq_scanFold {eps : ℚ} {min_pts : Int} {points : List PointQ}
    (hne : ¬ (points.isEmpty = true)) :
    cluster eps min_pts points =
      ((scanFold eps min_pts points points.length).1.map
          (fun l => if l = -2 then -1 else l),
        ((scanFold eps min_pts points points.length).2 : Int)) := by
  unfold cluster
  rw [if_neg hne]
  rfl

/-- Invariant of the outer scan: the vector keeps length `n`, entries are
`-1`, `-2` or an already-allocated id, and every allocated id occurs. -/
theorem scanFold_inv (eps : ℚ) (min_pts : Int) (points : List PointQ) (k : Nat)
    (hk : k ≤ points.length) :
    (scanFold eps min_pts points k).1.length = points.length ∧
    (∀ j, j < points.length →
      (scanFold eps min_pts points k).1.getD j 0 = -1 ∨
      (scanFold eps min_pts points k).1.getD j 0 = -2 ∨
      (∃ c : Nat, c < (scanFold eps min_pts points k).2 ∧
        (scanFold eps min_pts points k).1.getD j 0 = (c : Int))) ∧
    (∀ c : Nat, c < (scanFold eps min_pts points k).2 →
      ∃ j, j < points.length ∧
        (scanFold eps min_pts points k).1.getD j 0 = (c : Int)) := by
  induction k with
  | zero =>
    refine ⟨by simp [scanFold], ?_, ?_⟩
    · intro j hj
      left
      show (List.replicate points.length (-1 : Int)).getD j 0 = -1
      rw [List.getD_eq_getElem _ _ (by simpa using hj), List.getElem_replicate]
    · intro c hc
      exact absurd hc (by simp [scanFold])
  | succ k ih =>
    have hk' : k ≤ points.length := by omega
    obtain ⟨ihlen, ihval, ihocc⟩ := ih hk'
    have hstep : scanFold eps min_pts points (k + 1) =
        (if (scanFold eps min_pts points k).1.getD k 0 ≠ -1 then
          scanFold eps min_pts points k
        else
          if ((find_neighbors eps points k).length : Int) < min_pts then
            ((scanFold eps min_pts points k).1.set k (-2 : Int),
              (scanFold eps min_pts points k).2)
          else
            (expandClusterLoop eps min_pts points (scanFold eps min_pts points k).2
              ((scanFold eps min_pts points k).1.set k
                ((scanFold eps min_pts points k).2 : Int))
              (find_neighbors eps points k),
              (scanFold eps min_pts points k).2 + 1)) := by
      unfold scanFold
      rw [List.range_succ, List.foldl_append, List.foldl_cons, List.foldl_nil]
    set labels := (scanFold eps min_pts points k).1 with hlabels
    set cid := (scanFold eps min_pts points k).2 with hcid
    have hklen : k < labels.length := by rw [ihlen]; omega
    by_cases hvis : labels.getD k 0 ≠ -1
    · rw [hstep, if_pos hvis]
      exact ⟨ihlen, ihval, ihocc⟩
    · push_neg at hvis
      by_cases hcore : ((find_neighbors eps points k).length : Int) < min_pts
      · rw [hstep, if_neg (by rw [hvis]; simp), if_pos hcore]
        refine ⟨by rw [List.length_set, ihlen], ?_, ?_⟩
        · intro j hj
          by_cases hjk : j = k
          · right
            left
            rw [hjk, L1.getD_set_self _ _ _ hklen]
          · rcases ihval j hj with h | h | ⟨c, hc, h⟩
            · left
              rw [L1.getD_set_ne _ _ _ _ hjk, h]
            · right
              left
              rw [L1.getD_set_ne _ _ _ _ hjk, h]
            · right
              right
              exact ⟨c, hc, by rw [L1.getD_set_ne _ _ _ _ hjk, h]⟩
        · intro c hc
          obtain ⟨j, hj, hjval⟩ := ihocc c hc
          have hjk : j ≠ k := by
            intro he
            rw [he, hvis] at hjval
            omega
          exact ⟨j, hj, by rw [L1.getD_set_ne _ _ _ _ hjk, hjval]⟩
      · rw [hstep, if_neg (by rw [hvis]; simp), if_neg hcore]
        have hlen2 : (labels.set k (cid : Int)).length = points.length := by
          rw [List.length_set, ihlen]
        refine ⟨by rw [expandClusterLoop_length, hlen2], ?_, ?_⟩
        · intro j hj
          rcases expandClusterLoop_values eps min_pts points cid
              (labels.set k (cid : Int)) (find_neighbors eps points k) j with hv | hv
          · by_cases hjk : j = k
            · right
              right
              refine ⟨cid, by omega, ?_⟩
              rw [hv, hjk, L1.getD_set_self _ _ _ hklen]
            · rw [hv, L1.getD_set_ne _ _ _ _ hjk]
              rcases ihval j hj with h | h | ⟨c, hc, h⟩
              · left
                exact h
              · right
                left
                exact h
              · right
                right
                exact ⟨c, by omega, h⟩
          · right
            right
            exact ⟨cid, by omega, hv⟩
        · intro c hc
          by_cases hceq : c = cid
          · refine ⟨k, by omega, ?_⟩
            have hset : (labels.set k (cid : Int)).getD k 0 = (cid : Int) :=
              L1.getD_set_self _ _ _ hklen
            rw [expandClusterLoop_nonneg _ _ _ _ _ _ _ (by rw [hset]; exact Int.natCast_nonneg cid),
              hset, hceq]
          · have hclt : c < cid := by omega
            obtain ⟨j, hj, hjval⟩ := ihocc c hclt
            have hjk : j ≠ k := by
              intro he
              rw [he, hvis] at hjval
              omega
            have hset : (labels.set k (cid : Int)).getD j 0 = (c : Int) := by
              rw [L1.getD_set_ne _ _ _ _ hjk, hjval]
            refine ⟨j, hj, ?_⟩
            rw [expandClusterLoop_nonneg _ _ _ _ _ _ _ (by rw [hset]; exact Int.natCast_nonneg c),
              hset]

/-- The baseline engine meets the density-and-count contract: every returned
label is `-1` or an id in `[0, num_clusters)`, and `num_clusters` is exactly
the number of distinct non-noise labels. -/
theorem baseline_labels_spec (eps : ℚ) (min_pts : Int) (points : List PointQ) :
    (∀ l ∈ (cluster eps min_pts points).1,
      l = -1 ∨ (0 ≤ l ∧ l < (cluster eps min_pts points).2)) ∧
    ((((cluster eps min_pts points).1.filter (fun v => v ≠ -1)).dedup.length : Int) =
      (cluster eps min_pts points).2) := by
  by_cases hne : points.isEmpty = true
  · unfold cluster
    rw [if_pos hne]
    constructor
    · intro l hl
      exact absurd hl (List.not_mem_nil l)
    · rfl
  · rw [cluster_eq_scanFold hne]
    obtain ⟨hlen, hval, hocc⟩ := scanFold_inv eps min_pts points points.length (le_refl _)
    constructor
    · intro l hl
      rw [List.mem_map] at hl
      obtain ⟨a, ha, rfl⟩ := hl
      obtain ⟨j, hjlen, hja⟩ := List.mem_iff_getElem.mp ha
      have hj : j < points.length := by rw [← hlen]; exact hjlen
      have hgd : (scanFold eps min_pts points points.length).1.getD j 0 = a := by
        rw [List.getD_eq_getElem _ _ hjlen, hja]
      rcases hval j hj with h | h | ⟨c, hc, h⟩
      · left
        have ha1 : a = -1 := by rw [← hgd, h]
        rw [ha1]
        norm_num
      · left
        have ha2 : a = -2 := by rw [← hgd, h]
        rw [ha2]
        norm_num
      · right
        have hac : a = (c : Int) := by rw [← hgd, h]
        rw [hac, if_neg (by omega : ¬ ((c : Int) = -2))]
        constructor
        · exact Int.natCast_nonneg c
        · show (c : Int) < ((scanFold eps min_pts points points.length).2 : Int)
          exact_mod_cast hc
    · have hdl : (((scanFold eps min_pts points points.length).1.map
          (fun l => if l = -2 then -1 else l)).filter (fun v => v ≠ -1)).dedup.length =
          (scanFold eps min_pts points points.length).2 := by
        apply dedup_length_eq_range
        intro v
        rw [List.mem_filter, List.mem_map, decide_eq_true_iff]
        constructor
        · rintro ⟨⟨a, ha, rfl⟩, hvne⟩
          obtain ⟨j, hjlen, hja⟩ := List.mem_iff_getElem.mp ha
          have hj : j < points.length := by rw [← hlen]; exact hjlen
          have hgd : (scanFold eps min_pts points points.length).1.getD j 0 = a := by
            rw [List.getD_eq_getElem _ _ hjlen, hja]
          rcases hval j hj with h | h | ⟨c, hc, h⟩
          · have ha1 : a = -1 := by rw [← hgd, h]
            rw [ha1] at hvne
            exact absurd (by norm_num) hvne
          · have ha2 : a = -2 := by rw [← hgd, h]
            rw [ha2] at hvne
            exact absurd (by norm_num) hvne
          · have hac : a = (c : Int) := by rw [← hgd, h]
            refine ⟨c, hc, ?_⟩
            rw [hac, if_neg (by omega : ¬ ((c : Int) = -2))]
        · rintro ⟨r, hr, rfl⟩
          obtain ⟨j, hj, hjval⟩ := hocc r hr
          have hjlen : j < (scanFold eps min_pts points points.length).1.length := by
            rw [hlen]; exact hj
          have hmem : (r : Int) ∈ (scanFold eps min_pts points points.length).1 := by
            rw [← hjval, List.getD_eq_getElem _ _ hjlen]
            exact List.getElem_mem hjlen
          refine ⟨⟨(r : Int), hmem, by rw [if_neg (by omega : ¬ ((r : Int) = -2))]⟩, ?_⟩
          omega
      rw [hdl]

end Baseline

/-! ## Grid-L2 engine (`src/src/dbscan_optimized.cpp` with `src/include/dbscan_optimized.h`,
`T` as `ℚ`); `L2S` for the SpatialGrid-based optimized engine. -/

namespace L2S

/-- `static_cast<size_t>` of a nonnegative floating value: truncation toward
zero, i.e. the floor for nonnegative arguments. -/
def floorToNat (q : ℚ) : Nat := q.floor.toNat

def foldMin (f : PointQ → ℚ) (points : List PointQ) (init : ℚ) : ℚ :=
  points.foldl (fun m p => min m (f p)) init

def foldMax (f : PointQ → ℚ) (points : List PointQ) (init : ℚ) : ℚ :=
  points.foldl (fun m p => max m (f p)) init

/-- `SpatialGrid::min_x` after the bounds scan and the `padding = eps`
subtraction (the C++ scan seeds `min_x` with `points[0].x` and then folds
over every point, the first included). -/
def gridMinX (eps : ℚ) (points : List PointQ) : ℚ :=
  foldMin PointQ.x points (points.headD ⟨0, 0⟩).x - eps

def gridMinY (eps : ℚ) (points : List PointQ) : ℚ :=
  foldMin PointQ.y points (points.headD ⟨0, 0⟩).y - eps

def gridMaxX (eps : ℚ) (points : List PointQ) : ℚ :=
  foldMax PointQ.x points (points.headD ⟨0, 0⟩).x + eps

def gridMaxY (eps : ℚ) (points : List PointQ) : ℚ :=
  foldMax PointQ.y points (points.headD ⟨0, 0⟩).y + eps

/-- `grid_width = static_cast<size_t>((max_x - min_x) / cell_size) + 1`. -/
def gridW (eps : ℚ) (points : List PointQ) : Nat :=
  floorToNat ((gridMaxX eps points - gridMinX eps points) / eps) + 1

def gridH (eps : ℚ) (points : List PointQ) : Nat :=
  floorToNat ((gridMaxY eps points - gridMinY eps points) / eps) + 1

/-- The cell column of point `i`: `(points[i].x - min_x) / cell_size`
truncated. -/
def cellXOf (eps : ℚ) (points : List PointQ) (i : Nat) : Nat :=
  floorToNat (((points.getD i ⟨0, 0⟩).x - gridMinX eps points) / eps)

def cellYOf (eps : ℚ) (points : List PointQ) (i : Nat) : Nat :=
  floorToNat (((points.getD i ⟨0, 0⟩).y - gridMinY eps points) / eps)

/-- The point-insertion loop of the `SpatialGrid` constructor: row-major
nested lists (`grid[cell_y][cell_x]`), appending each in-bounds point index. -/
def insertFold (eps : ℚ) (points : List PointQ) : List (List (List Nat)) :=
  (List.range points.length).foldl (fun g i =>
    let cx := cellXOf eps points i
    let cy := cellYOf eps points i
    if cx < gridW eps points ∧ cy < gridH eps points then
      g.set cy ((g.getD cy []).set cx (((g.getD cy []).getD cx []) ++ [i]))
    else g)
    (List.replicate (gridH eps points) (List.replicate (gridW eps points) ([] : List Nat)))

structure SpatialGrid where
  cell_size : ℚ
  grid_width : Nat
  grid_height : Nat
  min_x : ℚ
  min_y : ℚ
  max_x : ℚ
  max_y : ℚ
  grid : List (List (List Nat))

/-- The `SpatialGrid` constructor.  On an empty input the C++ constructor
returns before initializing bounds or cells; `cluster` never consults the
grid in that case, and the model uses zeroed fields. -/
def buildGrid (eps : ℚ) (points : List PointQ) : SpatialGrid :=
  if points.isEmpty then ⟨eps, 0, 0, 0, 0, 0, 0, []⟩
  else
    ⟨eps, gridW eps points, gridH eps points, gridMinX eps points, gridMinY eps points,
      gridMaxX eps points, gridMaxY eps points, insertFold eps points⟩

/-- `SpatialGrid::get_neighbor_cells`: the in-bounds cells of the 3×3 block,
`dy` in the outer loop. -/
def get_neighbor_cells (g : SpatialGrid) (cell_x cell_y : Nat) : List (Nat × Nat) :=
  ([-1, 0, 1] : List Int).flatMap (fun dy =>
    ([-1, 0, 1] : List Int).flatMap (fun dx =>
      if 0 ≤ (cell_x : Int) + dx ∧ (cell_x : Int) + dx < (g.grid_width : Int) ∧
          0 ≤ (cell_y : Int) + dy ∧ (cell_y : Int) + dy < (g.grid_height : Int) then
        [(((cell_x : Int) + dx).toNat, ((cell_y : Int) + dy).toNat)]
      else []))

def get_points_in_cell (g : SpatialGrid) (cell_x cell_y : Nat) : List Nat :=
  if cell_y < g.grid_height ∧ cell_x < g.grid_width then (g.grid.getD cell_y []).getD cell_x []
  else []

def get_cell_coords (g : SpatialGrid) (p : PointQ) : Nat × Nat :=
  (floorToNat ((p.x - g.min_x) / g.cell_size), floorToNat ((p.y - g.min_y) / g.cell_size))

def distance_squared (a b : PointQ) : ℚ :=
  (a.x - b.x) * (a.x - b.x) + (a.y - b.y) * (a.y - b.y)

/-- `DBSCANOptimized::get_neighbors`: scan the 3×3 cell block around the
target's cell, skipping the point itself, keeping squared distances
`≤ eps²`. -/
def get_neighbors (eps : ℚ) (g : SpatialGrid) (points : List PointQ) (point_idx : Nat) :
    List Nat :=
  (get_neighbor_cells g (get_cell_coords g (points.getD point_idx ⟨0, 0⟩)).1
      (get_cell_coords g (points.getD point_idx ⟨0, 0⟩)).2).flatMap (fun c =>
    (get_points_in_cell g c.1 c.2).filter (fun j =>
      decide (j ≠ point_idx ∧
        distance_squared (points.getD point_idx ⟨0, 0⟩) (points.getD j ⟨0, 0⟩) ≤
          eps * eps)))

/-- `DBSCANOptimized::find_core_points`: `is_core[idx]` is set exactly when
the *self-excluding* neighbor count reaches `min_pts`. -/
def find_core_points (eps : ℚ) (min_pts : Int) (g : SpatialGrid) (points : List PointQ) :
    List Bool :=
  (List.range points.length).map
    (fun idx => decide (min_pts ≤ ((get_neighbors eps g points idx).length : Int)))

/-- The `UnionFind` of `dbscan_optimized.h`: parents initialized to self,
ranks to zero.  Parent entries always hold valid indices, so they are
modeled as `Nat`. -/
structure UnionFind where
  parent : List Nat
  rank : List Nat

def UnionFind.init (size : Nat) : UnionFind := ⟨List.range size, List.replicate size 0⟩

/-- `UnionFind::find` with path compression; the recursion is fueled, and a
parent list that is a forest never exhausts `parent.length` fuel. -/
def findAux : Nat → List Nat → Nat → Nat × List Nat
  | 0, parent, x => (parent.getD x 0, parent)
  | fuel + 1, parent, x =>
    let p := parent.getD x 0
    if p = x then (x, parent)
    else
      let r := findAux fuel parent p
      (r.1, r.2.set x r.1)

def UnionFind.find (uf : UnionFind) (x : Nat) : Nat × UnionFind :=
  let r := findAux uf.parent.length uf.parent x
  (r.1, ⟨r.2, uf.rank⟩)

/-- `UnionFind::union_sets`: union by rank; on equal ranks `root_y` is
attached under `root_x` and `rank[root_x]` is bumped. -/
def UnionFind.union_sets (uf : UnionFind) (x y : Nat) : UnionFind :=
  let fx := uf.find x
  let fy := fx.2.find y
  let uf2 := fy.2
  let root_x := fx.1
  let root_y := fy.1
  if root_x ≠ root_y then
    if uf2.rank.getD root_x 0 < uf2.rank.getD root_y 0 then
      ⟨uf2.parent.set root_x root_y, uf2.rank⟩
    else if uf2.rank.getD root_y 0 < uf2.rank.getD root_x 0 then
      ⟨uf2.parent.set root_y root_x, uf2.rank⟩
    else
      ⟨uf2.parent.set root_y root_x, uf2.rank.set root_x (uf2.rank.getD root_x 0 + 1)⟩
  else uf2

/-- `DBSCANOptimized::process_core_core_connections`: for every core point,
union with every *later* core neighbor. -/
def process_core_core_connections (eps : ℚ) (g : SpatialGrid) (points : List PointQ)
    (is_core : List Bool) (uf : UnionFind) : UnionFind :=
  (List.range points.length).foldl (fun uf idx =>
    if is_core.getD idx false then
      (get_neighbors eps g points idx).foldl (fun uf neighbor_idx =>
        if is_core.getD neighbor_idx false ∧ idx < neighbor_idx then
          uf.union_sets idx neighbor_idx
        else uf) uf
    else uf) uf

/-- The border-point inner loop: take the first core neighbor's root and
break; `find`'s path compression is threaded through. -/
def borderScan (is_core : List Bool) (idx : Nat) (labels : List Int) (uf : UnionFind) :
    List Nat → List Int × UnionFind
  | [] => (labels, uf)
  | neighbor_idx :: rest =>
    if is_core.getD neighbor_idx false then
      let r := uf.find neighbor_idx
      (labels.set idx (r.1 : Int), r.2)
    else borderScan is_core idx labels uf rest

/-- `DBSCANOptimized::assign_border_points`: cores get their root, borders
the root of their first core neighbor, others stay `-1`. -/
def assign_border_points (eps : ℚ) (g : SpatialGrid) (points : List PointQ)
    (is_core : List Bool) (uf : UnionFind) : List Int × UnionFind :=
  (List.range points.length).foldl (fun acc idx =>
    if is_core.getD idx false then
      let r := acc.2.find idx
      (acc.1.set idx (r.1 : Int), r.2)
    else borderScan is_core idx acc.1 acc.2 (get_neighbors eps g points idx))
    (List.replicate points.length (-1 : Int), uf)

/-- `DBSCANOptimized::count_clusters`: insert `uf.find(i)` for *every* point
`i` into a set when it is `>= 0` (which always holds, the roots being
indices), and report the set's size. -/
def count_clusters (n : Nat) (uf : UnionFind) : Int :=
  (((List.range n).foldl (fun (acc : List Int × UnionFind) i =>
    let r := acc.2.find i
    if (r.1 : Int) ≥ 0 then
      (if (r.1 : Int) ∈ acc.1 then acc.1 else acc.1 ++ [(r.1 : Int)], r.2)
    else (acc.1, r.2)) ([], uf)).1.length : Int)

/-- `DBSCANOptimized::cluster`: core detection, core-core union-find, border
assignment, cluster count. -/
def cluster (eps : ℚ) (min_pts : Int) (points : List PointQ) : List Int × Int :=
  if points.isEmpty then ([], 0)
  else
    let g := buildGrid eps points
    let is_core := find_core_points eps min_pts g points
    let uf0 := UnionFind.init points.length
    let uf1 := process_core_core_connections eps g points is_core uf0
    let lr := assign_border_points eps g points is_core uf1
    (lr.1, count_clusters points.length lr.2)

/-! ### Geometry of the `SpatialGrid`: every point lands in the grid, and the
3×3 block around a point's cell covers its entire eps-ball. -/

theorem ratFloor_eq (q : ℚ) : q.floor = ⌊q⌋ := rfl

theorem floorToNat_mono {a b : ℚ} (h : a ≤ b) : floorToNat a ≤ floorToNat b := by
  unfold floorToNat
  rw [ratFloor_eq, ratFloor_eq]
  exact Int.toNat_le_toNat (Int.floor_le_floor h)

theorem floorToNat_add_one {a : ℚ} (ha : 0 ≤ a) :
    floorToNat (a + 1) = floorToNat a + 1 := by
  unfold floorToNat
  rw [ratFloor_eq, ratFloor_eq, show ((1 : ℚ)) = ((1 : ℤ) : ℚ) by norm_num,
    Int.floor_add_int]
  have h : 0 ≤ ⌊a⌋ := Int.floor_nonneg.mpr ha
  omega

theorem foldMin_le_init (f : PointQ → ℚ) (points : List PointQ) (init : ℚ) :
    foldMin f points init ≤ init := by
  unfold foldMin
  induction points generalizing init with
  | nil => simp
  | cons p t ih =>
    simp only [List.foldl_cons]
    exact le_trans (ih (min init (f p))) (min_le_left _ _)

theorem foldMin_le_mem (f : PointQ → ℚ) (points : List PointQ) (init : ℚ) {p : PointQ}
    (hp : p ∈ points) : foldMin f points init ≤ f p := by
  unfold foldMin
  induction points generalizing init with
  | nil => simp at hp
  | cons q t ih =>
    simp only [List.foldl_cons]
    rcases List.mem_cons.mp hp with h | h
    · rw [h]
      exact le_trans (foldMin_le_init f t (min init (f q))) (min_le_right _ _)
    · exact ih (min init (f q)) h

theorem init_le_foldMax (f : PointQ → ℚ) (points : List PointQ) (init : ℚ) :
    init ≤ foldMax f points init := by
  unfold foldMax
  induction points generalizing init with
  | nil => simp
  | cons p t ih =>
    simp only [List.foldl_cons]
    exact le_trans (le_max_left _ _) (ih (max init (f p)))

theorem mem_le_foldMax (f : PointQ → ℚ) (points : List PointQ) (init : ℚ) {p : PointQ}
    (hp : p ∈ points) : f p ≤ foldMax f points init := by
  unfold foldMax
  induction points generalizing init with
  | nil => simp at hp
  | cons q t ih =>
    simp only [List.foldl_cons]
    rcases List.mem_cons.mp hp with h | h
    · rw [h]
      exact le_trans (le_max_right _ _) (init_le_foldMax f t (max init (f q)))
    · exact ih (max init (f q)) h

theorem getD_mem_of_lt {l : List PointQ} {i : Nat} (h : i < l.length) (d : PointQ) :
    l.getD i d ∈ l := by
  rw [List.getD_eq_getElem l d h]
  exact List.getElem_mem h

theorem getD_replicate {α : Type} (n : Nat) (a d : α) {i : Nat} (h : i < n) :
    (List.replicate n a).getD i d = a := by
  rw [List.getD_eq_getElem _ _ (by simpa using h), List.getElem_replicate]

/-- After padding, every input point sits at least `eps` inside the grid's x
bounds. -/
theorem coord_bounds_x (eps : ℚ) (points : List PointQ) {i : Nat} (hi : i < points.length) :
    gridMinX eps points + eps ≤ (points.getD i ⟨0, 0⟩).x ∧
      (points.getD i ⟨0, 0⟩).x + eps ≤ gridMaxX eps points := by
  unfold gridMinX gridMaxX
  have h1 := foldMin_le_mem PointQ.x points (points.headD ⟨0, 0⟩).x (getD_mem_of_lt hi ⟨0, 0⟩)
  have h2 := mem_le_foldMax PointQ.x points (points.headD ⟨0, 0⟩).x (getD_mem_of_lt hi ⟨0, 0⟩)
  constructor <;> linarith

theorem coord_bounds_y (eps : ℚ) (points : List PointQ) {i : Nat} (hi : i < points.length) :
    gridMinY eps points + eps ≤ (points.getD i ⟨0, 0⟩).y ∧
      (points.getD i ⟨0, 0⟩).y + eps ≤ gridMaxY eps points := by
  unfold gridMinY gridMaxY
  have h1 := foldMin_le_mem PointQ.y points (points.headD ⟨0, 0⟩).y (getD_mem_of_lt hi ⟨0, 0⟩)
  have h2 := mem_le_foldMax PointQ.y points (points.headD ⟨0, 0⟩).y (getD_mem_of_lt hi ⟨0, 0⟩)
  constructor <;> linarith

/-- The insertion bounds check always passes: every point's cell is inside
the grid. -/
theorem cellXOf_lt {eps : ℚ} {points : List PointQ} (heps : 0 < eps) {i : Nat}
    (hi : i < points.length) : cellXOf eps points i < gridW eps points := by
  unfold cellXOf gridW
  have hb := coord_bounds_x eps points hi
  have hle : ((points.getD i ⟨0, 0⟩).x - gridMinX eps points) / eps ≤
      (gridMaxX eps points - gridMinX eps points) / eps := by
    apply div_le_div_of_nonneg_right ?_ (le_of_lt heps)
    linarith
  have := floorToNat_mono hle
  omega

theorem cellYOf_lt {eps : ℚ} {points : List PointQ} (heps : 0 < eps) {i : Nat}
    (hi : i < points.length) : cellYOf eps points i < gridH eps points := by
  unfold cellYOf gridH
  have hb := coord_bounds_y eps points hi
  have hle : ((points.getD i ⟨0, 0⟩).y - gridMinY eps points) / eps ≤
      (gridMaxY eps points - gridMinY eps points) / eps := by
    apply div_le_div_of_nonneg_right ?_ (le_of_lt heps)
    linarith
  have := floorToNat_mono hle
  omega

/-- Points at most `eps` apart in x land in x-adjacent cell columns. -/
theorem cellXOf_within_one {eps : ℚ} {points : List PointQ} (heps : 0 < eps) {i j : Nat}
    (hi : i < points.length) (hj : j < points.length)
    (hd : (points.getD j ⟨0, 0⟩).x ≤ (points.getD i ⟨0, 0⟩).x + eps) :
    cellXOf eps points j ≤ cellXOf eps points i + 1 := by
  unfold cellXOf
  have hbi := coord_bounds_x eps points hi
  have hB : 0 ≤ ((points.getD i ⟨0, 0⟩).x - gridMinX eps points) / eps :=
    div_nonneg (by linarith) (le_of_lt heps)
  have key : ((points.getD j ⟨0, 0⟩).x - gridMinX eps points) / eps ≤
      ((points.getD i ⟨0, 0⟩).x - gridMinX eps points) / eps + 1 := by
    have h1 : ((points.getD j ⟨0, 0⟩).x - gridMinX eps points) / eps ≤
        ((points.getD i ⟨0, 0⟩).x - gridMinX eps points + eps) / eps := by
      apply div_le_div_of_nonneg_right ?_ (le_of_lt heps)
      linarith
    rw [add_div, div_self (ne_of_gt heps)] at h1
    exact h1
  calc floorToNat (((points.getD j ⟨0, 0⟩).x - gridMinX eps points) / eps) ≤
      floorToNat (((points.getD i ⟨0, 0⟩).x - gridMinX eps points) / eps + 1) :=
        floorToNat_mono key
    _ = floorToNat (((points.getD i ⟨0, 0⟩).x - gridMinX eps points) / eps) + 1 :=
        floorToNat_add_one hB

theorem cellYOf_within_one {eps : ℚ} {points : List PointQ} (heps : 0 < eps) {i j : Nat}
    (hi : i < points.length) (hj : j < points.length)
    (hd : (points.getD j ⟨0, 0⟩).y ≤ (points.getD i ⟨0, 0⟩).y + eps) :
    cellYOf eps points j ≤ cellYOf eps points i + 1 := by
  unfold cellYOf
  have hbi := coord_bounds_y eps points hi
  have hB : 0 ≤ ((points.getD i ⟨0, 0⟩).y - gridMinY eps points) / eps :=
    div_nonneg (by linarith) (le_of_lt heps)
  have key : ((points.getD j ⟨0, 0⟩).y - gridMinY eps points) / eps ≤
      ((points.getD i ⟨0, 0⟩).y - gridMinY eps points) / eps + 1 := by
    have h1 : ((points.getD j ⟨0, 0⟩).y - gridMinY eps points) / eps ≤
        ((points.getD i ⟨0, 0⟩).y - gridMinY eps points + eps) / eps := by
      apply div_le_div_of_nonneg_right ?_ (le_of_lt heps)
      linarith
    rw [add_div, div_self (ne_of_gt heps)] at h1
    exact h1
  calc floorToNat (((points.getD j ⟨0, 0⟩).y - gridMinY eps points) / eps) ≤
      floorToNat (((points.getD i ⟨0, 0⟩).y - gridMinY eps points) / eps + 1) :=
        floorToNat_mono key
    _ = floorToNat (((points.getD i ⟨0, 0⟩).y - gridMinY eps points) / eps) + 1 :=
        floorToNat_add_one hB

theorem filter_range_succ (p : Nat → Bool) (k : Nat) :
    (List.range (k + 1)).filter p =
      (List.range k).filter p ++ (if p k = true then [k] else []) := by
  rw [List.range_succ, List.filter_append]
  by_cases h : p k = true
  · rw [if_pos h]
    simp [List.filter_cons, h]
  · rw [if_neg h]
    have hb : p k = false := by
      cases hpk : p k
      · rfl
      · exact absurd hpk h
    simp [List.filter_cons, hb]

/-- The insertion fold truncated to the first `k` points, for prefix
induction. -/
def gFold (eps : ℚ) (points : List PointQ) (k : Nat) : List (List (List Nat)) :=
  (List.range k).foldl (fun g i =>
    let cx := cellXOf eps points i
    let cy := cellYOf eps points i
    if cx < gridW eps points ∧ cy < gridH eps points then
      g.set cy ((g.getD cy []).set cx (((g.getD cy []).getD cx []) ++ [i]))
    else g)
    (List.replicate (gridH eps points) (List.replicate (gridW eps points) ([] : List Nat)))

theorem insertFold_eq_gFold (eps : ℚ) (points : List PointQ) :
    insertFold eps points = gFold eps points points.length := rfl

/-- Shape and contents of the grid after inserting the first `k` points:
cell `(cx, cy)` holds exactly the already-inserted points with that cell, in
insertion (= index) order. -/
theorem gFold_spec (eps : ℚ) (points : List PointQ) (k : Nat) :
    (gFold eps points k).length = gridH eps points ∧
    (∀ cy, cy < gridH eps points →
      ((gFold eps points k).getD cy []).length = gridW eps points) ∧
    (∀ cx cy, cx < gridW eps points → cy < gridH eps points →
      ((gFold eps points k).getD cy []).getD cx [] =
        (List.range k).filter (fun i =>
          decide (cellXOf eps points i = cx ∧ cellYOf eps points i = cy))) := by
  induction k with
  | zero =>
    refine ⟨by simp [gFold], ?_, ?_⟩
    · intro cy hcy
      show ((List.replicate (gridH eps points)
        (List.replicate (gridW eps points) ([] : List Nat))).getD cy []).length = _
      rw [getD_replicate _ _ _ hcy, List.length_replicate]
    · intro cx cy hcx hcy
      show ((List.replicate (gridH eps points)
        (List.replicate (gridW eps points) ([] : List Nat))).getD cy []).getD cx [] = _
      rw [getD_replicate _ _ _ hcy, getD_replicate _ _ _ hcx]
      simp
  | succ k ih =>
    obtain ⟨ihlen, ihrow, ihcell⟩ := ih
    have hstep : gFold eps points (k + 1) =
        (if cellXOf eps points k < gridW eps points ∧
            cellYOf eps points k < gridH eps points then
          (gFold eps points k).set (cellYOf eps points k)
            (((gFold eps points k).getD (cellYOf eps points k) []).set
              (cellXOf eps points k)
              ((((gFold eps points k).getD (cellYOf eps points k) []).getD
                (cellXOf eps points k) []) ++ [k]))
        else gFold eps points k) := by
      unfold gFold
      rw [List.range_succ, List.foldl_append, List.foldl_cons, List.foldl_nil]
    by_cases hbc : cellXOf eps points k < gridW eps points ∧
        cellYOf eps points k < gridH eps points
    · rw [hstep, if_pos hbc]
      set G := gFold eps points k with hG
      set cxk := cellXOf eps points k with hcxk
      set cyk := cellYOf eps points k with hcyk
      have hcyklt : cyk < G.length := by rw [ihlen]; exact hbc.2
      have hrowlen : (G.getD cyk []).length = gridW eps points := ihrow cyk hbc.2
      refine ⟨by rw [List.length_set, ihlen], ?_, ?_⟩
      · intro cy hcy
        by_cases hcyeq : cy = cyk
        · rw [hcyeq, L1.set_getD_self _ _ _ _ hcyklt, List.length_set, hrowlen]
        · rw [L1.set_getD_ne _ _ _ _ _ hcyeq]
          exact ihrow cy hcy
      · intro cx cy hcx hcy
        rw [filter_range_succ]
        by_cases hcyeq : cy = cyk
        · rw [hcyeq, L1.set_getD_self _ _ _ _ hcyklt]
          by_cases hcxeq : cx = cxk
          · rw [hcxeq, L1.set_getD_self _ _ _ _ (by rw [hrowlen]; exact hbc.1)]
            have hpred : decide (cellXOf eps points k = cxk ∧
                cellYOf eps points k = cyk) = true := by
              rw [hcxk, hcyk]
              simp
            rw [if_pos hpred, ihcell cxk cyk hbc.1 hbc.2]
          · rw [L1.set_getD_ne _ _ _ _ _ hcxeq]
            have hpred : ¬ (decide (cellXOf eps points k = cx ∧
                cellYOf eps points k = cyk) = true) := by
              simp only [decide_eq_true_iff]
              intro hc
              exact hcxeq (by rw [hcxk, ← hc.1])
            rw [if_neg hpred, List.append_nil]
            exact ihcell cx cyk hcx hbc.2
        · rw [L1.set_getD_ne _ _ _ _ _ hcyeq]
          have hpred : ¬ (decide (cellXOf eps points k = cx ∧
              cellYOf eps points k = cy) = true) := by
            simp only [decide_eq_true_iff]
            intro hc
            exact hcyeq (by rw [hcyk, ← hc.2])
          rw [if_neg hpred, List.append_nil]
          exact ihcell cx cy hcx hcy
    · rw [hstep, if_neg hbc]
      refine ⟨ihlen, ihrow, ?_⟩
      intro cx cy hcx hcy
      rw [filter_range_succ]
      have hpred : ¬ (decide (cellXOf eps points k = cx ∧
          cellYOf eps points k = cy) = true) := by
        simp only [decide_eq_true_iff]
        intro hc
        exact hbc ⟨hc.1 ▸ hcx, hc.2 ▸ hcy⟩
      rw [if_neg hpred, List.append_nil]
      exact ihcell cx cy hcx hcy

theorem buildGrid_fields {eps : ℚ} {points : List PointQ} (hne : points ≠ []) :
    buildGrid eps points =
      ⟨eps, gridW eps points, gridH eps points, gridMinX eps points, gridMinY eps points,
        gridMaxX eps points, gridMaxY eps points, insertFold eps points⟩ := by
  unfold buildGrid
  rw [if_neg (by simpa using hne)]

/-- Membership in a grid cell: the in-range points whose cell is exactly
`(cx, cy)`, which must be an in-bounds cell. -/
theorem mem_get_points_in_cell {eps : ℚ} {points : List PointQ} (hne : points ≠ [])
    {j cx cy : Nat} :
    j ∈ get_points_in_cell (buildGrid eps points) cx cy ↔
      j < points.length ∧ cellXOf eps points j = cx ∧ cellYOf eps points j = cy ∧
        cx < gridW eps points ∧ cy < gridH eps points := by
  rw [buildGrid_fields hne]
  show j ∈ (if cy < gridH eps points ∧ cx < gridW eps points then
    ((insertFold eps points).getD cy []).getD cx [] else []) ↔ _
  by_cases hb : cy < gridH eps points ∧ cx < gridW eps points
  · rw [if_pos hb, insertFold_eq_gFold,
      (gFold_spec eps points points.length).2.2 cx cy hb.2 hb.1]
    rw [List.mem_filter, List.mem_range, decide_eq_true_iff]
    constructor
    · rintro ⟨h1, h2, h3⟩
      exact ⟨h1, h2, h3, hb.2, hb.1⟩
    · rintro ⟨h1, h2, h3, _, _⟩
      exact ⟨h1, h2, h3⟩
  · rw [if_neg hb]
    simp only [List.not_mem_nil, false_iff]
    rintro ⟨_, _, _, h4, h5⟩
    exact hb ⟨h5, h4⟩

/-- Membership in the 3×3 neighbor-cell enumeration: the in-bounds cells at
Chebyshev distance at most one. -/
theorem mem_get_neighbor_cells {g : SpatialGrid} {cx cy a b : Nat} :
    (a, b) ∈ get_neighbor_cells g cx cy ↔
      a < g.grid_width ∧ b < g.grid_height ∧
        cx ≤ a + 1 ∧ a ≤ cx + 1 ∧ cy ≤ b + 1 ∧ b ≤ cy + 1 := by
  unfold get_neighbor_cells
  simp only [List.mem_flatMap, List.mem_cons, List.not_mem_nil, or_false]
  constructor
  · rintro ⟨dy, hdy, dx, hdx, hmem⟩
    by_cases hc : 0 ≤ (cx : Int) + dx ∧ (cx : Int) + dx < (g.grid_width : Int) ∧
        0 ≤ (cy : Int) + dy ∧ (cy : Int) + dy < (g.grid_height : Int)
    · rw [if_pos hc] at hmem
      have heq := List.mem_singleton.mp hmem
      rw [Prod.mk.injEq] at heq
      obtain ⟨ha, hb⟩ := heq
      subst ha
      subst hb
      rcases hdy with rfl | rfl | rfl <;> rcases hdx with rfl | rfl | rfl <;>
        refine ⟨by omega, by omega, by omega, by omega, by omega, by omega⟩
    · rw [if_neg hc] at hmem
      exact absurd hmem (List.not_mem_nil _)
  · rintro ⟨ha, hb, h1, h2, h3, h4⟩
    refine ⟨(b : Int) - (cy : Int), by omega, (a : Int) - (cx : Int), by omega, ?_⟩
    rw [if_pos (by omega)]
    simp only [List.mem_singleton, Prod.mk.injEq]
    constructor <;> omega

/-- A squared-distance bound yields per-coordinate bounds. -/
theorem coord_of_dist {p q : PointQ} {eps : ℚ} (heps : 0 ≤ eps)
    (h : distance_squared p q ≤ eps * eps) :
    q.x ≤ p.x + eps ∧ p.x ≤ q.x + eps ∧ q.y ≤ p.y + eps ∧ p.y ≤ q.y + eps := by
  unfold distance_squared at h
  refine ⟨?_, ?_, ?_, ?_⟩ <;>
    nlinarith [sq_nonneg (p.x - q.x), sq_nonneg (p.y - q.y),
      sq_nonneg (p.x - q.x + eps), sq_nonneg (p.x - q.x - eps),
      sq_nonneg (p.y - q.y + eps), sq_nonneg (p.y - q.y - eps)]

/-- `get_neighbors` on the constructed grid enumerates exactly the other
points within euclidean distance `eps` — the grid loses nothing, since the
padded grid contains every point and the 3×3 block covers the eps-ball. -/
theorem mem_get_neighbors {eps : ℚ} {points : List PointQ} (heps : 0 < eps)
    (hne : points ≠ []) {i : Nat} (hi : i < points.length) {j : Nat} :
    j ∈ get_neighbors eps (buildGrid eps points) points i ↔
      j < points.length ∧ j ≠ i ∧
        distance_squared (points.getD i ⟨0, 0⟩) (points.getD j ⟨0, 0⟩) ≤ eps * eps := by
  have hcc : get_cell_coords (buildGrid eps points) (points.getD i ⟨0, 0⟩) =
      (cellXOf eps points i, cellYOf eps points i) := by
    rw [buildGrid_fields hne]
    rfl
  unfold get_neighbors
  rw [hcc, List.mem_flatMap]
  constructor
  · rintro ⟨c, hc, hj⟩
    rw [List.mem_filter, decide_eq_true_iff] at hj
    obtain ⟨hcell, hne', hdist⟩ := hj
    exact ⟨((mem_get_points_in_cell hne).mp hcell).1, hne', hdist⟩
  · rintro ⟨hj, hne', hdist⟩
    have hco := coord_of_dist (le_of_lt heps) hdist
    have hx1 : cellXOf eps points j ≤ cellXOf eps points i + 1 :=
      cellXOf_within_one heps hi hj hco.1
    have hx2 : cellXOf eps points i ≤ cellXOf eps points j + 1 :=
      cellXOf_within_one heps hj hi hco.2.1
    have hy1 : cellYOf eps points j ≤ cellYOf eps points i + 1 :=
      cellYOf_within_one heps hi hj hco.2.2.1
    have hy2 : cellYOf eps points i ≤ cellYOf eps points j + 1 :=
      cellYOf_within_one heps hj hi hco.2.2.2
    refine ⟨(cellXOf eps points j, cellYOf eps points j), ?_, ?_⟩
    · rw [mem_get_neighbor_cells, buildGrid_fields hne]
      exact ⟨cellXOf_lt heps hj, cellYOf_lt heps hj, hx2, hx1, hy2, hy1⟩
    · rw [List.mem_filter, decide_eq_true_iff]
      exact ⟨(mem_get_points_in_cell hne).mpr
        ⟨hj, rfl, rfl, cellXOf_lt heps hj, cellYOf_lt heps hj⟩, hne', hdist⟩

theorem mem_ite_singleton {α : Type} {c : Prop} [Decidable c] {z w : α}
    (h : z ∈ (if c then [w] else [])) : c ∧ z = w := by
  by_cases hc : c
  · rw [if_pos hc] at h
    exact ⟨hc, List.mem_singleton.mp h⟩
  · rw [if_neg hc] at h
    exact absurd h (List.not_mem_nil _)

/-- Any member of the fixed-`dy` row of the 3×3 enumeration records `dy` in
its second component. -/
theorem mem_neighbor_row {g : SpatialGrid} {cx cy : Nat} {dy : Int} {z : Nat × Nat}
    (h : z ∈ ([-1, 0, 1] : List Int).flatMap (fun dx =>
      if 0 ≤ (cx : Int) + dx ∧ (cx : Int) + dx < (g.grid_width : Int) ∧
          0 ≤ (cy : Int) + dy ∧ (cy : Int) + dy < (g.grid_height : Int) then
        [((((cx : Int) + dx)).toNat, (((cy : Int) + dy)).toNat)]
      else [])) :
    0 ≤ (cy : Int) + dy ∧ z.2 = ((cy : Int) + dy).toNat := by
  obtain ⟨dx, _, hz⟩ := List.mem_flatMap.mp h
  obtain ⟨hc, hz⟩ := mem_ite_singleton hz
  rw [hz]
  exact ⟨hc.2.2.1, rfl⟩

theorem get_neighbor_cells_nodup (g : SpatialGrid) (cx cy : Nat) :
    (get_neighbor_cells g cx cy).Nodup := by
  unfold get_neighbor_cells
  rw [List.nodup_flatMap]
  constructor
  · intro dy _
    rw [List.nodup_flatMap]
    constructor
    · intro dx _
      split
      · exact List.nodup_singleton _
      · exact List.nodup_nil
    · refine List.Pairwise.imp_of_mem ?_ (by decide : ([-1, 0, 1] : List Int).Nodup)
      intro dx dx' _ _ hne z hz hz'
      obtain ⟨hc, hze⟩ := mem_ite_singleton hz
      obtain ⟨hc', hze'⟩ := mem_ite_singleton hz'
      apply hne
      have h1 : z.1 = ((cx : Int) + dx).toNat := by rw [hze]
      have h2 : z.1 = ((cx : Int) + dx').toNat := by rw [hze']
      have h3 := hc.1
      have h4 := hc'.1
      omega
  · refine List.Pairwise.imp_of_mem ?_ (by decide : ([-1, 0, 1] : List Int).Nodup)
    intro dy dy' _ _ hne z hz hz'
    obtain ⟨h1, h2⟩ := mem_neighbor_row hz
    obtain ⟨h3, h4⟩ := mem_neighbor_row hz'
    apply hne
    omega

theorem get_points_in_cell_nodup {eps : ℚ} {points : List PointQ} (hne : points ≠ [])
    (cx cy : Nat) : (get_points_in_cell (buildGrid eps points) cx cy).Nodup := by
  rw [buildGrid_fields hne]
  show (if cy < gridH eps points ∧ cx < gridW eps points then
    ((insertFold eps points).getD cy []).getD cx [] else []).Nodup
  split
  · rename_i hb
    rw [insertFold_eq_gFold,
      (gFold_spec eps points points.length).2.2 cx cy hb.2 hb.1]
    exact List.Nodup.filter _ (List.nodup_range _)
  · exact List.nodup_nil

theorem get_neighbors_nodup {eps : ℚ} {points : List PointQ} (hne : points ≠ [])
    (i : Nat) : (get_neighbors eps (buildGrid eps points) points i).Nodup := by
  unfold get_neighbors
  rw [List.nodup_flatMap]
  constructor
  · intro c _
    exact List.Nodup.filter _ (get_points_in_cell_nodup hne c.1 c.2)
  · refine List.Pairwise.imp_of_mem ?_
      (get_neighbor_cells_nodup (buildGrid eps points) _ _)
    intro c c' _ _ hcne j hj hj'
    rw [List.mem_filter] at hj hj'
    have h1 := (mem_get_points_in_cell hne).mp hj.1
    have h2 := (mem_get_points_in_cell hne).mp hj'.1
    apply hcne
    have e1 : c.1 = c'.1 := by rw [← h1.2.1, ← h2.2.1]
    have e2 : c.2 = c'.2 := by rw [← h1.2.2.1, ← h2.2.2.1]
    exact Prod.ext e1 e2

/-- The grid neighbor enumeration is a permutation of the self-excluding
closed eps-ball. -/
theorem get_neighbors_perm {eps : ℚ} {points : List PointQ} (heps : 0 < eps)
    (hne : points ≠ []) {i : Nat} (hi : i < points.length) :
    (get_neighbors eps (buildGrid eps points) points i).Perm
      ((List.range points.length).filter (fun j =>
        decide (j ≠ i ∧
          distance_squared (points.getD i ⟨0, 0⟩) (points.getD j ⟨0, 0⟩) ≤ eps * eps))) := by
  rw [List.perm_ext_iff_of_nodup (get_neighbors_nodup hne i)
    (List.Nodup.filter _ (List.nodup_range _))]
  intro j
  rw [mem_get_neighbors heps hne hi, List.mem_filter, List.mem_range, decide_eq_true_iff]

theorem find_core_points_getD (eps : ℚ) (min_pts : Int) (g : SpatialGrid)
    (points : List PointQ) {i : Nat} (hi : i < points.length) :
    (find_core_points eps min_pts g points).getD i false =
      decide (min_pts ≤ ((get_neighbors eps g points i).length : Int)) := by
  unfold find_core_points
  rw [List.getD_eq_getElem _ _ (by simpa using hi), List.getElem_map, List.getElem_range]

/-- Grid-L2 core detection, characterized against the *closed* ball: the flag
is set iff the closed eps-ball around `i` (which contains `i`) has at least
`min_pts + 1` points — one more than the spec's closed-ball reading, because
the implementation skips the point itself when counting. -/
theorem l2s_isCore_iff {eps : ℚ} {points : List PointQ} (min_pts : Int) (heps : 0 < eps)
    (hne : points ≠ []) {i : Nat} (hi : i < points.length) :
    ((find_core_points eps min_pts (buildGrid eps points) points).getD i false = true ↔
      min_pts + 1 ≤ (((List.range points.length).filter (fun j =>
        decide (distance_squared (points.getD i ⟨0, 0⟩) (points.getD j ⟨0, 0⟩) ≤
          eps * eps))).length : Int)) := by
  rw [find_core_points_getD eps min_pts _ points hi, decide_eq_true_iff,
    (get_neighbors_perm heps hne hi).length_eq]
  have hsplit : ((List.range points.length).filter (fun j =>
      decide (distance_squared (points.getD i ⟨0, 0⟩) (points.getD j ⟨0, 0⟩) ≤
        eps * eps))).length =
      ((List.range points.length).filter (fun j =>
        decide (j ≠ i ∧
          distance_squared (points.getD i ⟨0, 0⟩) (points.getD j ⟨0, 0⟩) ≤
            eps * eps))).length + 1 := by
    rw [← List.countP_eq_length_filter, ← List.countP_eq_length_filter]
    exact L1.countP_split_one (List.nodup_range _) (List.mem_range.mpr hi)
      (by
        rw [decide_eq_true_iff]
        unfold distance_squared
        nlinarith [mul_self_nonneg eps])
      (by simp)
      (fun x _ hx => by
        simp only [decide_eq_decide]
        constructor
        · intro h
          exact h.2
        · intro h
          exact ⟨hx, h⟩)
  rw [hsplit]
  omega

end L2S

/-! ## Parallel loop drivers (`utils::parallel_for` / `utils::parallelize`,
`include/dbscan_optimized.h` and `parallel.hpp`)

Only the decomposition of `[begin, end)` into callback sub-ranges is modelled;
which worker executes a chunk does not affect the chunk set.  The unknown
`std::thread::hardware_concurrency()` is an explicit parameter `hw`. -/

namespace Par

/-- Effective thread count: `0` requests hardware concurrency, floored at 1. -/
def effectiveThreads (nThreads hw : Nat) : Nat :=
  if nThreads = 0 then (if hw = 0 then 1 else hw) else nThreads

/-- The chunk list of `parallel_for` (static split): `chunk = ceil(total / T)`;
thread `t` gets `[begin + t*chunk, min(end, begin + t*chunk + chunk))`, and the
loop breaks at the first `chunk_begin ≥ end` (as `chunk_begin` is monotone in
`t`, the break is equivalent to dropping those entries). -/
def parallelForChunks (b e nThreads hw : Nat) : List (Nat × Nat) :=
  let T := effectiveThreads nThreads hw
  let chunk := (e - b + T - 1) / T
  (List.range T).filterMap fun t =>
    let cb := b + t * chunk
    if cb < e then some (cb, min e (cb + chunk)) else none

/-- The effective chunk size of `parallelize`:
`chunk_size == 0 ? max(1, ceil(total / T)) : chunk_size`. -/
def parallelizeChunkSize (b e nThreads hw chunkSize : Nat) : Nat :=
  if chunkSize = 0 then
    max 1 ((e - b + effectiveThreads nThreads hw - 1) / effectiveThreads nThreads hw)
  else chunkSize

/-- The chunk list of `parallelize` (dynamic steal): the atomic cursor hands
out starts `begin, begin + cs, begin + 2*cs, …` while they are below `end`;
each start is claimed by exactly one worker. -/
def parallelizeChunks (b e nThreads hw chunkSize : Nat) : List (Nat × Nat) :=
  if e ≤ b then []
  else
    let cs := parallelizeChunkSize b e nThreads hw chunkSize
    (List.range ((e - b + cs - 1) / cs)).map fun k => (b + k * cs, min e (b + k * cs + cs))

/-- Ceiling division recovers at least the numerator: `total ≤ ceil(total/T) * T`. -/
theorem ceil_mul_ge (total T : Nat) (hT : 0 < T) : total ≤ T * ((total + T - 1) / T) := by
  have hdiv := Nat.div_add_mod (total + T - 1) T
  have hmod := Nat.mod_lt (total + T - 1) hT
  omega

theorem flatMap_filterMap_if {α β γ : Type} (l : List α) (q : α → Prop) [DecidablePred q]
    (g : α → β) (h : β → List γ) :
    (l.filterMap fun t => if q t then some (g t) else none).flatMap h =
      l.flatMap fun t => if q t then h (g t) else [] := by
  induction l with
  | nil => simp
  | cons a l ih =>
    by_cases hq : q a <;> simp [List.filterMap_cons, hq, ih]

/-- Chunks of size `cs` starting at `b, b+cs, …` cover `[b, e)` exactly
once, provided enough chunks are offered. -/
theorem chunks_cover (cs : Nat) :
    ∀ T b e : Nat, e ≤ b + T * cs →
      ((List.range T).flatMap fun t =>
        if b + t * cs < e then List.range' (b + t * cs) (min e (b + t * cs + cs) - (b + t * cs))
        else []) = List.range' b (e - b) := by
  intro T
  induction T with
  | zero =>
    intro b e he
    have h0 : e - b = 0 := by omega
    simp [h0]
  | succ T ih =>
    intro b e he
    rw [List.range_succ_eq_map]
    simp only [List.flatMap_cons, List.flatMap_map]
    have harith : ∀ t : Nat, b + (t + 1) * cs = (b + cs) + t * cs := by intro t; ring
    have hrest : ((List.range T).flatMap fun t =>
        if b + (t + 1) * cs < e then
          List.range' (b + (t + 1) * cs) (min e (b + (t + 1) * cs + cs) - (b + (t + 1) * cs))
        else []) = List.range' (b + cs) (e - (b + cs)) := by
      have hsucc : b + (T + 1) * cs = (b + cs) + T * cs := by ring
      have := ih (b + cs) e (by omega)
      calc ((List.range T).flatMap fun t =>
            if b + (t + 1) * cs < e then
              List.range' (b + (t + 1) * cs) (min e (b + (t + 1) * cs + cs) - (b + (t + 1) * cs))
            else [])
          = ((List.range T).flatMap fun t =>
            if (b + cs) + t * cs < e then
              List.range' ((b + cs) + t * cs) (min e ((b + cs) + t * cs + cs) - ((b + cs) + t * cs))
            else []) := by
            apply List.flatMap_congr  -- pointwise rewrite by `harith`
            intro t _
            rw [harith t]
        _ = List.range' (b + cs) (e - (b + cs)) := this
    by_cases hb : b < e
    · have h0 : b + 0 * cs = b := by ring
      rw [h0, if_pos hb, hrest]
      by_cases hbe : b + cs ≤ e
      · have hmin : min e (b + cs) = b + cs := by omega
        rw [hmin]
        have : b + cs - b = cs := by omega
        rw [this]
        have := List.range'_append b cs (e - (b + cs)) 1
        simp only [Nat.one_mul] at this
        rw [this]
        congr 1
        omega
      · have hmin : min e (b + cs) = e := by omega
        rw [hmin]
        have hz : e - (b + cs) = 0 := by omega
        simp [hz]
    · have h0 : b + 0 * cs = b := by ring
      rw [h0, if_neg hb]
      have hz : e - (b + cs) = 0 := by omega
      have hz2 : e - b = 0 := by omega
      simp [hz, hz2, hrest]

theorem effectiveThreads_pos (nThreads hw : Nat) : 0 < effectiveThreads nThreads hw := by
  unfold effectiveThreads
  split_ifs <;> omega

theorem parallelForChunks_cover (b e nThreads hw : Nat) (hbe : b ≤ e) :
    (parallelForChunks b e nThreads hw).flatMap
      (fun c => List.range' c.1 (c.2 - c.1)) = List.range' b (e - b) := by
  unfold parallelForChunks
  have hT := effectiveThreads_pos nThreads hw
  set T := effectiveThreads nThreads hw with hTdef
  set chunk := (e - b + T - 1) / T with hchunkdef
  rw [flatMap_filterMap_if]
  have hcov : e ≤ b + T * chunk := by
    have h := ceil_mul_ge (e - b) T hT
    rw [← hchunkdef] at h
    omega
  have := chunks_cover chunk T b e hcov
  convert this using 2

theorem parallelizeChunks_cover (b e nThreads hw chunkSize : Nat) (hbe : b ≤ e) :
    (parallelizeChunks b e nThreads hw chunkSize).flatMap
      (fun c => List.range' c.1 (c.2 - c.1)) = List.range' b (e - b) := by
  unfold parallelizeChunks
  by_cases hb : e ≤ b
  · have h0 : e - b = 0 := by omega
    simp [hb, h0]
  · rw [if_neg hb]
    have hcs : 0 < parallelizeChunkSize b e nThreads hw chunkSize := by
      unfold parallelizeChunkSize
      split_ifs with h
      · omega
      · omega
    set cs := parallelizeChunkSize b e nThreads hw chunkSize with hcsdef
    set K := (e - b + cs - 1) / cs with hKdef
    have hKcs : e ≤ b + K * cs := by
      have h1 := ceil_mul_ge (e - b) cs hcs
      rw [← hKdef] at h1
      have h2 : cs * K = K * cs := Nat.mul_comm _ _
      omega
    have hmap : ((List.range K).map fun k => (b + k * cs, min e (b + k * cs + cs))).flatMap
        (fun c => List.range' c.1 (c.2 - c.1)) =
        (List.range K).flatMap fun k =>
          if b + k * cs < e then List.range' (b + k * cs) (min e (b + k * cs + cs) - (b + k * cs))
          else [] := by
      rw [List.flatMap_map]
      apply List.flatMap_congr
      intro k hk
      have hkK : k < K := List.mem_range.mp hk
      have hlt : b + k * cs < e := by
        have h1 : k * cs ≤ (K - 1) * cs := Nat.mul_le_mul_right cs (by omega)
        have h2 : (K - 1) * cs = K * cs - cs := by
          rw [Nat.sub_one_mul]
        have h3 : K * cs ≤ e - b + cs - 1 := Nat.div_mul_le_self _ _
        omega
      simp [hlt]
    rw [hmap, chunks_cover cs K b e hKcs]

/-- Claim C6: `parallel_for` and `parallelize` invoke the callback on
sub-ranges that together cover each index of `[begin, end)` exactly once (the
concatenation of the chunk ranges, in order, is exactly `[begin, end)`); an
empty range yields zero invocations; and with `chunk_size = 0`, `parallelize`
uses `ceil((end - begin) / num_threads)`. -/
theorem parallel_loop_drivers_partition_range
    (b e nThreads hw chunkSize : Nat) (hbe : b ≤ e) :
    ((parallelForChunks b e nThreads hw).flatMap
        (fun c => List.range' c.1 (c.2 - c.1)) = List.range' b (e - b)) ∧
    ((parallelizeChunks b e nThreads hw chunkSize).flatMap
        (fun c => List.range' c.1 (c.2 - c.1)) = List.range' b (e - b)) ∧
    (b = e → parallelForChunks b e nThreads hw = [] ∧
      parallelizeChunks b e nThreads hw chunkSize = []) ∧
    (0 < nThreads → b < e → chunkSize = 0 →
      parallelizeChunkSize b e nThreads hw chunkSize = (e - b + nThreads - 1) / nThreads) := by
  refine ⟨parallelForChunks_cover b e nThreads hw hbe,
    parallelizeChunks_cover b e nThreads hw chunkSize hbe, ?_, ?_⟩
  · intro heq
    subst heq
    constructor
    · unfold parallelForChunks
      simp only [List.filterMap_eq_nil_iff]
      intro t _
      rw [if_neg (by omega)]
    · unfold parallelizeChunks
      rw [if_pos (le_refl b)]
  · intro hnt hlt hcz
    subst hcz
    unfold parallelizeChunkSize effectiveThreads
    rw [if_pos rfl, if_neg (by omega)]
    have h1 : 1 ≤ (e - b + nThreads - 1) / nThreads := by
      rw [Nat.one_le_div_iff hnt]
      omega
    omega

/-- Witness for C6 at `begin = 2, end = 7, num_threads = 3, chunk_size = 0`. -/
theorem parallel_loop_drivers_partition_range_witness :
    ((parallelForChunks 2 7 3 8).flatMap
        (fun c => List.range' c.1 (c.2 - c.1)) = List.range' 2 5) ∧
    ((parallelizeChunks 2 7 3 8 0).flatMap
        (fun c => List.range' c.1 (c.2 - c.1)) = List.range' 2 5) ∧
    ((2 : Nat) = 7 → parallelForChunks 2 7 3 8 = [] ∧ parallelizeChunks 2 7 3 8 0 = []) ∧
    (0 < 3 → 2 < 7 → (0 : Nat) = 0 → parallelizeChunkSize 2 7 3 8 0 = (7 - 2 + 3 - 1) / 3) :=
  parallel_loop_drivers_partition_range 2 7 3 8 0 (by omega)

end Par

namespace L1

/-- Every rank below the total seed count is attained by some seed. -/
theorem rank_surjective (isCore : Nat → Bool) (nbrs : Nat → List Nat) (n : Nat) :
    ∀ x, x ≤ n → ∀ r, r < seedsBelow isCore nbrs n x →
      ∃ s, s < x ∧ seedB isCore nbrs n s = true ∧ seedsBelow isCore nbrs n s = r := by
  intro x
  induction x with
  | zero =>
    intro _ r hr
    rw [seedsBelow_zero] at hr
    omega
  | succ x ih =>
    intro hx r hr
    by_cases hs : seedB isCore nbrs n x = true
    · rw [seedsBelow_succ_seed isCore nbrs (by omega) hs] at hr
      by_cases hrx : r < seedsBelow isCore nbrs n x
      · obtain ⟨s, hs1, hs2, hs3⟩ := ih (by omega) r hrx
        exact ⟨s, by omega, hs2, hs3⟩
      · exact ⟨x, by omega, hs, by omega⟩
    · have hs' : seedB isCore nbrs n x = false := by
        cases h : seedB isCore nbrs n x
        · rfl
        · exact absurd h hs
      rw [seedsBelow_succ_not isCore nbrs hs'] at hr
      obtain ⟨s, hs1, hs2, hs3⟩ := ih (by omega) r hr
      exact ⟨s, by omega, hs2, hs3⟩

/-- The canonical labeling is dense: labels are `-1` or ids in `[0, S)` with
`S` the seed count, and exactly `S` distinct non-noise labels occur. -/
theorem canonLabels_dense (isCore : Nat → Bool) (nbrs : Nat → List Nat) (n : Nat)
    (Hmem : ∀ u v, v ∈ nbrs u → v < n)
    (Hsym : ∀ u v, u < n → v < n → (v ∈ nbrs u ↔ u ∈ nbrs v)) :
    (∀ l ∈ canonLabels isCore nbrs n,
      l = -1 ∨ (0 ≤ l ∧ l < (seedsBelow isCore nbrs n n : Int))) ∧
    ((canonLabels isCore nbrs n).filter (fun v => v ≠ -1)).dedup.length =
      seedsBelow isCore nbrs n n := by
  have hbound : ∀ j, j < n → isCore j = true →
      rankOf isCore nbrs n j < seedsBelow isCore nbrs n n := by
    intro j hj hc
    exact (rankOf_lt_iff isCore nbrs hj hc Hmem Hsym).mpr (compMin_lt isCore nbrs hj)
  have hshape : ∀ l ∈ canonLabels isCore nbrs n,
      l = -1 ∨ ∃ r : Nat, r < seedsBelow isCore nbrs n n ∧ l = (r : Int) := by
    intro l hl
    unfold canonLabels at hl
    rw [List.mem_map] at hl
    obtain ⟨j, hjr, rfl⟩ := hl
    have hj : j < n := List.mem_range.mp hjr
    by_cases hc : isCore j = true
    · right
      refine ⟨rankOf isCore nbrs n j, hbound j hj hc, ?_⟩
      exact canonLabel_core isCore nbrs n j hc
    · have hcf : isCore j = false := by
        cases h : isCore j
        · rfl
        · exact absurd h hc
      cases hm : minAdjRank isCore nbrs n j with
      | none =>
        left
        exact canonLabel_noncore_none isCore nbrs n j hcf hm
      | some m =>
        right
        obtain ⟨⟨u, hu, hucore, hurank⟩, _⟩ := minAdjRank_spec isCore nbrs hm
        refine ⟨m, ?_, canonLabel_noncore_some isCore nbrs n j m hcf hm⟩
        rw [← hurank]
        exact hbound u (Hmem j u hu) hucore
  have hocc : ∀ r : Nat, r < seedsBelow isCore nbrs n n →
      (r : Int) ∈ canonLabels isCore nbrs n := by
    intro r hr
    obtain ⟨s, hsn, hseed, hsval⟩ := rank_surjective isCore nbrs n n (le_refl _) r hr
    unfold seedB at hseed
    rw [Bool.and_eq_true, decide_eq_true_iff] at hseed
    unfold canonLabels
    rw [List.mem_map]
    refine ⟨s, List.mem_range.mpr hsn, ?_⟩
    rw [canonLabel_core isCore nbrs n s hseed.1, rankOf_seed isCore nbrs hseed.2, hsval]
  constructor
  · intro l hl
    rcases hshape l hl with h | ⟨r, hr, rfl⟩
    · left
      exact h
    · right
      exact ⟨Int.natCast_nonneg r, by exact_mod_cast hr⟩
  · apply dedup_length_eq_range
    intro v
    rw [List.mem_filter, decide_eq_true_iff]
    constructor
    · rintro ⟨hv, hvne⟩
      rcases hshape v hv with h | ⟨r, hr, rfl⟩
      · exact absurd h hvne
      · exact ⟨r, hr, rfl⟩
    · rintro ⟨r, hr, rfl⟩
      refine ⟨hocc r hr, by omega⟩

end L1

/-! ## Claims C9 (AoS/SoA delegation) and C5 (input validation) -/

/-- Claim C9: `dbscan_grid2d_l1_aos` returns exactly the result of
`dbscan_grid2d_l1` applied to the u32 view of the packed array at
`&points[0].x` / `&points[0].y` with stride 2 for both coordinates, for every
point array, count, parameter set and expansion mode. -/
theorem aos_delegates_to_soa_stride2 (p : Nat → Nat × Nat) (count : Nat) (params : L1.Params)
    (mode : GridExpansionMode) :
    L1.dbscan_grid2d_l1_aos (some p) count params mode =
      L1.dbscan_grid2d_l1 (some (L1.interleave p)) 2
        (some (fun j => L1.interleave p (j + 1))) 2 count params mode := by
  by_cases he : params.eps = 0
  · simp [L1.dbscan_grid2d_l1_aos, L1.dbscan_grid2d_l1, he]
  · by_cases hm : params.minSamples = 0
    · simp [L1.dbscan_grid2d_l1_aos, L1.dbscan_grid2d_l1, he, hm]
    · by_cases hc : count = 0
      · subst hc
        simp [L1.dbscan_grid2d_l1_aos, L1.dbscan_grid2d_l1, he, hm, L1.implLabels]
      · simp [L1.dbscan_grid2d_l1_aos, L1.dbscan_grid2d_l1, he, hm, hc]

/-- Counterexample to claim C5: the `DBSCANGrid2D_L1` class interface throws
on a null coordinate pointer even when `count == 0` (the null check in
`fit_predict` precedes the empty-input return), whereas the claim predicts an
error only when `count > 0`; at `eps = 1, min_samples = 1, x = y = null,
count = 0` none of the claimed error conditions holds, yet the call fails. -/
theorem class_interface_rejects_null_even_when_empty :
    L1.classFitPredict 1 1 none none 0 = .error .invalidInput ∧
      ¬ ((1 : Nat) = 0 ∨ (1 : Nat) = 0 ∨
        (0 < (0 : Nat) ∧ ((Option.isNone (none : Option (Nat → Nat)) = true) ∨
          (Option.isNone (none : Option (Nat → Nat)) = true)))) := by
  constructor
  · rfl
  · simp

/-- Claim C5 as amended: the free functions `dbscan_grid2d_l1` (SoA) and
`dbscan_grid2d_l1_aos` fail exactly when `eps == 0`, `min_samples == 0`, or
`count > 0` with a null pointer or zero stride; the class interface
additionally rejects null pointers even when `count == 0`.  Errors are raised
before any grid construction, so no labels are produced on failure (an
`Except.error` result carries no label vector). -/
theorem grid_l1_validation_iff (x y : Option (Nat → Nat)) (xs ys count : Nat)
    (params : L1.Params) (points : Option (Nat → Nat × Nat)) (eps ms : Nat)
    (mode : GridExpansionMode) :
    ((∃ e, L1.dbscan_grid2d_l1 x xs y ys count params mode = .error e) ↔
      (params.eps = 0 ∨ params.minSamples = 0 ∨
        (0 < count ∧ (x.isNone ∨ y.isNone ∨ xs = 0 ∨ ys = 0)))) ∧
    ((∃ e, L1.dbscan_grid2d_l1_aos points count params mode = .error e) ↔
      (params.eps = 0 ∨ params.minSamples = 0 ∨ (0 < count ∧ points.isNone))) ∧
    ((∃ e, L1.classFitPredict eps ms x y count = .error e) ↔
      (eps = 0 ∨ ms = 0 ∨ x.isNone ∨ y.isNone)) := by
  refine ⟨?_, ?_, ?_⟩
  · unfold L1.dbscan_grid2d_l1
    simp only [Nat.pos_iff_ne_zero]
    split_ifs with h1 h2 h3 h4 <;>
      first
        | exact iff_of_true ⟨_, rfl⟩ (by tauto)
        | exact iff_of_false (by simp) (by tauto)
  · unfold L1.dbscan_grid2d_l1_aos L1.dbscan_grid2d_l1
    simp only [Nat.pos_iff_ne_zero]
    rcases points with _ | p <;>
      split_ifs <;>
        first
          | exact iff_of_true ⟨_, rfl⟩ (by simp_all)
          | exact iff_of_false (by simp) (by simp_all)
  · unfold L1.classFitPredict
    split_ifs <;>
      first
        | exact iff_of_true ⟨_, rfl⟩ (by tauto)
        | exact iff_of_false (by simp) (by tauto)

/-! ## Claim C7: grid build invariants -/

/-- Claim C7: after the grid-L1 grid build, `ordered_indices` is a permutation
of `0..count` sorted by `(packed key, index)` (so equal keys are contiguous and
ascending by index), `unique_keys` is strictly increasing, `cell_offsets` has
`K + 1` entries ending in `count`, and every point of the `k`-th run has packed
key `unique_keys[k]`. -/
theorem grid_build_invariants (ctx : L1.Ctx) (hpos : 0 < ctx.count) :
    ctx.orderedIndices.Perm (List.range ctx.count) ∧
    ctx.orderedIndices.Pairwise
      (fun a b => ctx.key a < ctx.key b ∨ (ctx.key a = ctx.key b ∧ a < b)) ∧
    ctx.uniqueKeys.Pairwise (· < ·) ∧
    ctx.cellOffsets.length = ctx.uniqueKeys.length + 1 ∧
    ctx.cellOffsets.getLast? = some ctx.count ∧
    (∀ kIdx q, kIdx < ctx.uniqueKeys.length →
      ctx.cellOffsets.getD kIdx 0 ≤ q → q < ctx.cellOffsets.getD (kIdx + 1) 0 →
      ctx.key (ctx.orderedIndices.getD q 0) = ctx.uniqueKeys.getD kIdx 0) := by
  refine ⟨ctx.orderedIndices_perm, ctx.orderedIndices_pairwise_strict, ?_, ?_, ?_, ?_⟩
  · exact L1.bc_fst_strict ctx.key _ _ ctx.orderedIndices_keySorted
  · exact L1.bc_snd_length ctx.key _ _
  · rw [show ctx.cellOffsets = (L1.buildCellOffsets ctx.key ctx.orderedIndices 0).2 from rfl,
      L1.bc_last]
    rw [ctx.orderedIndices_length, Nat.zero_add]
  · intro kIdx q hk hlo hhi
    exact L1.bc_pure ctx.key ctx.orderedIndices ctx.orderedIndices 0 (List.drop_zero _)
      kIdx q hk hlo hhi

/-- A concrete grid-L1 input (the spec's L1 end-to-end scenario 5) used to
instantiate claim hypotheses. -/
def ctxW : L1.Ctx :=
  ⟨fun i => [0, 1, 2, 100].getD i 0, 1, fun i => [0, 0, 1, 200].getD i 0, 1, 4, 4, 3⟩

/-- Witness for C7 on the concrete four-point input. -/
theorem grid_build_invariants_witness :
    ctxW.orderedIndices.Perm (List.range ctxW.count) ∧
    ctxW.orderedIndices.Pairwise
      (fun a b => ctxW.key a < ctxW.key b ∨ (ctxW.key a = ctxW.key b ∧ a < b)) ∧
    ctxW.uniqueKeys.Pairwise (· < ·) ∧
    ctxW.cellOffsets.length = ctxW.uniqueKeys.length + 1 ∧
    ctxW.cellOffsets.getLast? = some ctxW.count ∧
    (∀ kIdx q, kIdx < ctxW.uniqueKeys.length →
      ctxW.cellOffsets.getD kIdx 0 ≤ q → q < ctxW.cellOffsets.getD (kIdx + 1) 0 →
      ctxW.key (ctxW.orderedIndices.getD q 0) = ctxW.uniqueKeys.getD kIdx 0) :=
  grid_build_invariants ctxW (by decide)

/-! ## Claim C2: the three expansion modes agree -/

/-- Claim C2: for every grid-L1 input, the label vectors of the Sequential,
FrontierParallel and UnionFind expansion modes are equal up to a bijective
relabeling of cluster ids — in fact literally equal: all three compute the
canonical labeling (clusters numbered by ascending minimum core index, each
non-core point adopting the smallest adjacent cluster id, noise `-1`
everywhere else).  The count bound is the `uint32` index capacity of the
source arrays. -/
theorem grid_l1_expansion_modes_agree (ctx : L1.Ctx) (hcount : ctx.count ≤ L1.invalid) :
    L1.implLabels ctx GridExpansionMode.Sequential =
      L1.implLabels ctx GridExpansionMode.FrontierParallel ∧
    L1.implLabels ctx GridExpansionMode.Sequential =
      L1.implLabels ctx GridExpansionMode.UnionFind :=
  L1.implLabels_modes_agree ctx hcount

/-- Witness for C2: on the concrete four-point input the three modes coincide
(and the count bound holds). -/
theorem grid_l1_expansion_modes_agree_witness :
    ctxW.count ≤ L1.invalid ∧
    (L1.implLabels ctxW GridExpansionMode.Sequential =
        L1.implLabels ctxW GridExpansionMode.FrontierParallel ∧
      L1.implLabels ctxW GridExpansionMode.Sequential =
        L1.implLabels ctxW GridExpansionMode.UnionFind) :=
  ⟨by decide, grid_l1_expansion_modes_agree ctxW (by decide)⟩

/-! ## Claim C4: union-find root selection and final representatives -/

/-- Claim C4: in the grid-L1 union-find expansion, whenever `unite` merges two
distinct roots the numerically smaller root becomes the new root (parent of
the larger), and — for any list of core-core edges — after all unite
operations complete, `find` returns the minimum point index of each connected
component (of the graph formed by those edges) as its representative. -/
theorem uf_smaller_root_wins_and_find_min (n : Nat) (isCore : Nat → Bool)
    (E : List (Nat × Nat)) (hninv : n ≤ L1.invalid)
    (hE : ∀ e ∈ E, e.1 < n ∧ e.2 < n ∧ isCore e.1 = true ∧ isCore e.2 = true) :
    (∀ parents a b, L1.goodParents isCore (L1.edgeNbrs E) n parents →
      a < n → b < n → isCore a = true → isCore b = true →
      b ∈ L1.component isCore (L1.edgeNbrs E) n a →
      L1.rootOf parents a ≠ L1.rootOf parents b →
      (L1.unite parents a b).getD
          (max (L1.rootOf parents a) (L1.rootOf parents b)) L1.invalid =
        min (L1.rootOf parents a) (L1.rootOf parents b)) ∧
    (∀ i, i < n → isCore i = true →
      (L1.findRoot (E.foldl (fun ps e => L1.unite ps e.1 e.2)
          ((List.range n).map (fun i => if isCore i then i else L1.invalid))) i).1 =
        L1.compMin isCore (L1.edgeNbrs E) n i) := by
  have Hmem : ∀ u v, v ∈ L1.edgeNbrs E u → v < n := by
    intro u v hv
    rw [L1.mem_edgeNbrs] at hv
    rcases hv with h | h
    · exact (hE _ h).2.1
    · exact (hE _ h).1
  have Hsym : ∀ u v, u < n → v < n →
      (v ∈ L1.edgeNbrs E u ↔ u ∈ L1.edgeNbrs E v) := by
    intro u v _ _
    rw [L1.mem_edgeNbrs, L1.mem_edgeNbrs]
    tauto
  have hE' : ∀ e ∈ E, e.1 < n ∧ e.2 < n ∧ isCore e.1 = true ∧ isCore e.2 = true ∧
      e.2 ∈ L1.component isCore (L1.edgeNbrs E) n e.1 := by
    intro e he
    obtain ⟨h1, h2, h3, h4⟩ := hE e he
    refine ⟨h1, h2, h3, h4, ?_⟩
    refine L1.mem_component_closed isCore (L1.edgeNbrs E) h1 Hmem e.1
      (L1.mem_component_self _ _ _ _) e.2 ?_ h4
    rw [L1.mem_edgeNbrs]
    left
    exact he
  have hcompl : ∀ u v, u < n → isCore u = true → v ∈ L1.edgeNbrs E u →
      isCore v = true → (u, v) ∈ E ∨ (v, u) ∈ E := by
    intro u v _ _ hv _
    rw [L1.mem_edgeNbrs] at hv
    exact hv
  obtain ⟨g1, g2⟩ := L1.uniteEdges_rootOf_compMin isCore (L1.edgeNbrs E) hninv Hmem Hsym
    E hE' hcompl
  constructor
  · intro parents a b hgood ha hb hac hbc hconn hne
    exact L1.unite_smaller_root_wins isCore (L1.edgeNbrs E) hninv Hmem Hsym parents a b
      hgood ha hb hac hbc hconn hne
  · intro i hi hic
    rw [(L1.findRoot_spec isCore (L1.edgeNbrs E) hninv Hmem _ i g1 hi hic).1]
    exact g2 i hi hic

/-- Witness for C4 on three all-core points with edges `(0,1)` and `(1,2)`:
`find` returns `0`, the component minimum, for every point. -/
theorem uf_smaller_root_wins_and_find_min_witness :
    (3 : Nat) ≤ L1.invalid ∧
    (∀ e ∈ ([((0 : Nat), (1 : Nat)), (1, 2)] : List (Nat × Nat)),
      e.1 < 3 ∧ e.2 < 3 ∧ (fun _ : Nat => true) e.1 = true ∧
        (fun _ : Nat => true) e.2 = true) ∧
    (∀ i, i < 3 → (fun _ : Nat => true) i = true →
      (L1.findRoot (([((0 : Nat), (1 : Nat)), (1, 2)] : List (Nat × Nat)).foldl
          (fun ps e => L1.unite ps e.1 e.2)
          ((List.range 3).map
            (fun i => if (fun _ : Nat => true) i then i else L1.invalid))) i).1 =
        L1.compMin (fun _ : Nat => true)
          (L1.edgeNbrs [((0 : Nat), (1 : Nat)), (1, 2)]) 3 i) :=
  ⟨by decide, by decide,
    (uf_smaller_root_wins_and_find_min 3 (fun _ => true) [(0, 1), (1, 2)]
      (by decide) (by decide)).2⟩

/-! ## Claim C10: the sequential expansion writes labels exactly once -/

/-- Claim C10: in the grid-L1 sequential expansion, a cluster id is stored
into `labels[j]` only when `labels[j]` is `-1` (the seed check is explicit in
the scan; neighbor visits are characterized here), so each point's label
changes at most once, from `-1` to a nonnegative id; consequently a non-core
point reachable from several clusters keeps the id of the first cluster, in
ascending seed-index order, to reach it — the smallest adjacent cluster id. -/
theorem sequential_expansion_write_once (ctx : L1.Ctx) :
    (∀ (lab : Nat) (acc : List Int × List Nat) (j x : Nat),
      (L1.seqStep ctx.isCore lab acc j).1.getD x 0 ≠ acc.1.getD x 0 →
      acc.1.getD x 0 = -1 ∧
        (L1.seqStep ctx.isCore lab acc j).1.getD x 0 = ((lab : Nat) : Int) ∧ x = j) ∧
    (∀ (lab : Nat) (labels : List Int) (stack : List Nat) (j : Nat),
      labels.getD j 0 ≠ -1 →
      (L1.expandLoop ctx.neighbors ctx.isCore lab labels stack).getD j 0 =
        labels.getD j 0) ∧
    (∀ j, (L1.implLabels ctx GridExpansionMode.Sequential).getD j 0 = -1 ∨
      0 ≤ (L1.implLabels ctx GridExpansionMode.Sequential).getD j 0) ∧
    (∀ j, j < ctx.count → ctx.isCore j = false →
      (L1.implLabels ctx GridExpansionMode.Sequential).getD j 0 =
        (match L1.minAdjRank ctx.isCore ctx.neighbors ctx.count j with
          | none => -1
          | some m => ((m : Nat) : Int))) := by
  refine ⟨?_, ?_, ?_, ?_⟩
  · intro lab acc j x hne
    by_cases h : acc.1.getD j 0 = -1
    · by_cases hxj : x = j
      · subst hxj
        refine ⟨h, ?_, rfl⟩
        rw [L1.seqStep_fst ctx.isCore lab acc x, if_pos h]
        exact L1.getD_set_self _ _ _ (L1.getD_neg_lt h)
      · exfalso
        apply hne
        rw [L1.seqStep_fst ctx.isCore lab acc j, if_pos h]
        exact L1.getD_set_ne _ _ _ _ hxj
    · exfalso
      apply hne
      rw [L1.seqStep_fst ctx.isCore lab acc j, if_neg h]
  · intro lab labels stack j hj
    exact L1.expandLoop_write_once ctx.isCore ctx.neighbors lab labels stack j hj
  · intro j
    by_cases hc : ctx.count = 0
    · right
      simp [L1.implLabels, hc]
    · rw [L1.implLabels_seq_canon ctx hc]
      by_cases hj : j < ctx.count
      · rw [L1.canonLabels_getD ctx.isCore ctx.neighbors ctx.count j hj]
        unfold L1.canonLabel
        by_cases hcore : ctx.isCore j = true
        · rw [if_pos hcore]
          right
          exact Int.natCast_nonneg _
        · rw [if_neg hcore]
          cases L1.minAdjRank ctx.isCore ctx.neighbors ctx.count j with
          | none => left; rfl
          | some m =>
            right
            exact Int.natCast_nonneg _
      · right
        rw [List.getD_eq_default]
        rw [L1.canonLabels_length]
        omega
  · intro j hj hjc
    rw [L1.implLabels_seq_canon ctx (by omega),
      L1.canonLabels_getD ctx.isCore ctx.neighbors ctx.count j hj]
    unfold L1.canonLabel
    rw [if_neg (by simp [hjc])]

/-- Witness for C10: an already-labeled entry survives a whole expansion
untouched. -/
theorem sequential_expansion_write_once_witness :
    (([(5 : Int)]).getD 0 0 ≠ -1) ∧
      (L1.expandLoop ctxW.neighbors ctxW.isCore 7 [(5 : Int)] []).getD 0 0 =
        ([(5 : Int)]).getD 0 0 :=
  ⟨by decide,
    (sequential_expansion_write_once ctxW).2.1 7 [(5 : Int)] [] 0 (by decide)⟩

/-! ## Claim C8: `min_samples == 1` leaves no noise -/

/-- Claim C8, counterexample: the baseline engine does not satisfy the claim.
With `min_pts = 1` and the nonempty input `[(0, 0)]`, the single point has
zero neighbors (`find_neighbors` excludes the point itself), fails the core
test `0 >= 1`, is marked `-2`, and the final rewrite returns the noise label
`-1` for it. -/
theorem baseline_minpts_one_has_noise :
    ([(⟨0, 0⟩ : PointQ)] ≠ []) ∧ (Baseline.cluster 1 1 [⟨0, 0⟩]).1 = [-1] := by
  constructor
  · intro h
    exact absurd (congrArg List.length h) (by simp)
  · rfl

/-- Claim C8, amended: the no-noise-at-`min_samples = 1` property holds for
the grid-L1 engine in every expansion mode (its neighborhood includes the
point itself, so every point is core and receives a cluster rank), for any
input with `count ≤ 2^32 - 1`. -/
theorem grid_l1_minsamples_one_no_noise (ctx : L1.Ctx) (hms : ctx.minSamples = 1)
    (hcount : ctx.count ≤ L1.invalid) (mode : GridExpansionMode) :
    ∀ j, j < ctx.count → (L1.implLabels ctx mode).getD j 0 ≠ -1 := by
  intro j hj
  have hc : ctx.count ≠ 0 := by omega
  have hseq : ∀ m : GridExpansionMode, L1.implLabels ctx m =
      L1.implLabels ctx GridExpansionMode.Sequential := by
    intro m
    cases m with
    | Sequential => rfl
    | FrontierParallel => exact ((L1.implLabels_modes_agree ctx hcount).1).symm
    | UnionFind => exact ((L1.implLabels_modes_agree ctx hcount).2).symm
  rw [hseq mode, L1.implLabels_seq_canon ctx hc,
    L1.canonLabels_getD ctx.isCore ctx.neighbors ctx.count j hj]
  have hcore : ctx.isCore j = true := by
    rw [ctx.isCore_iff j hj, hms]
    exact List.length_pos_of_mem
      (List.mem_filter.mpr ⟨List.mem_range.mpr hj, by
        rw [ctx.manhattan_self]; exact decide_eq_true (Nat.zero_le _)⟩)
  unfold L1.canonLabel
  rw [if_pos hcore]
  omega

/-- A four-point grid-L1 input with `min_samples = 1` instantiating C8. -/
def ctxW1 : L1.Ctx :=
  ⟨fun i => [0, 1, 2, 100].getD i 0, 1, fun i => [0, 0, 1, 200].getD i 0, 1, 4, 4, 1⟩

/-! ## Claim C1: label density and cluster counting -/

/-- Claim C1, counterexample: the grid-L2 optimized engine
(`dbscan_optimized.cpp`) reports `num_clusters = 1` on a single-point input
that is entirely noise.  `count_clusters` inserts `uf.find(i)` for *every*
point and the guard `cluster_id >= 0` always holds (roots are indices), so
each noise singleton's union-find root is counted as a cluster: the reported
count is not the number of distinct non-noise labels (which is `0` here). -/
theorem gridL2_count_clusters_counts_noise :
    L2S.cluster 1 1 [⟨0, 0⟩] = ([-1], 1) ∧
    ((L2S.cluster 1 1 [⟨0, 0⟩]).1.filter (fun v => v ≠ -1)).dedup.length = 0 := by
  constructor
  · decide
  · decide

/-- Claim C1, amended: the density-and-count contract holds for the baseline
engine — every label is `-1` or a dense id in `[0, num_clusters)`, and the
reported `num_clusters` equals the number of distinct non-noise labels — and
for the grid-L1 engine in every expansion mode, whose labels are `-1` or
dense ids in `[0, S)` with all `S` ids attained (`S` the number of seed
components; grid-L1 returns no count).  The grid-L2 optimized engine does not
satisfy it: its reported count includes a cluster per noise point (see the
counterexample). -/
theorem labels_dense_and_counted (eps : ℚ) (min_pts : Int) (points : List PointQ)
    (ctx : L1.Ctx) (hcount : ctx.count ≤ L1.invalid) (mode : GridExpansionMode) :
    ((∀ l ∈ (Baseline.cluster eps min_pts points).1,
        l = -1 ∨ (0 ≤ l ∧ l < (Baseline.cluster eps min_pts points).2)) ∧
      ((((Baseline.cluster eps min_pts points).1.filter
          (fun v => v ≠ -1)).dedup.length : Int)
        = (Baseline.cluster eps min_pts points).2)) ∧
    ((∀ l ∈ L1.implLabels ctx mode,
        l = -1 ∨ (0 ≤ l ∧
          l < (L1.seedsBelow ctx.isCore ctx.neighbors ctx.count ctx.count : Int))) ∧
      ((L1.implLabels ctx mode).filter (fun v => v ≠ -1)).dedup.length =
        L1.seedsBelow ctx.isCore ctx.neighbors ctx.count ctx.count) := by
  constructor
  · exact Baseline.baseline_labels_spec eps min_pts points
  · by_cases hc : ctx.count = 0
    · have himpl : L1.implLabels ctx mode = [] := by
        unfold L1.implLabels
        rw [if_pos hc]
      have hS : L1.seedsBelow ctx.isCore ctx.neighbors ctx.count ctx.count = 0 := by
        rw [hc]
        exact L1.seedsBelow_zero ctx.isCore ctx.neighbors 0
      rw [himpl, hS]
      constructor
      · intro l hl
        exact absurd hl (List.not_mem_nil l)
      · rfl
    · have hseq : L1.implLabels ctx mode =
          L1.canonLabels ctx.isCore ctx.neighbors ctx.count := by
        cases mode with
        | Sequential => exact L1.implLabels_seq_canon ctx hc
        | FrontierParallel =>
          rw [← (L1.implLabels_modes_agree ctx hcount).1]
          exact L1.implLabels_seq_canon ctx hc
        | UnionFind =>
          rw [← (L1.implLabels_modes_agree ctx hcount).2]
          exact L1.implLabels_seq_canon ctx hc
      rw [hseq]
      exact L1.canonLabels_dense ctx.isCore ctx.neighbors ctx.count
        ctx.neighbors_lt ctx.neighbors_symm

/-- Witness for the C1 amended statement at a concrete baseline input and the
concrete four-point grid-L1 input. -/
theorem labels_dense_and_counted_witness :
    ctxW.count ≤ L1.invalid ∧
    (((∀ l ∈ (Baseline.cluster 1 1 [⟨0, 0⟩]).1,
        l = -1 ∨ (0 ≤ l ∧ l < (Baseline.cluster 1 1 [⟨0, 0⟩]).2)) ∧
      ((((Baseline.cluster 1 1 [⟨0, 0⟩]).1.filter
          (fun v => v ≠ -1)).dedup.length : Int)
        = (Baseline.cluster 1 1 [⟨0, 0⟩]).2)) ∧
    ((∀ l ∈ L1.implLabels ctxW GridExpansionMode.Sequential,
        l = -1 ∨ (0 ≤ l ∧
          l < (L1.seedsBelow ctxW.isCore ctxW.neighbors ctxW.count ctxW.count : Int))) ∧
      ((L1.implLabels ctxW GridExpansionMode.Sequential).filter
          (fun v => v ≠ -1)).dedup.length =
        L1.seedsBelow ctxW.isCore ctxW.neighbors ctxW.count ctxW.count)) :=
  ⟨by decide,
    labels_dense_and_counted 1 1 [⟨0, 0⟩] ctxW (by decide) GridExpansionMode.Sequential⟩

/-! ## Claim C3: core detection against the closed eps-neighborhood -/

/-- Claim C3, counterexample: grid-L2 core detection does not implement the
closed-neighborhood rule.  On the single-point input `[(0, 0)]` with
`eps = 1` and `min_pts = 1` the point stays non-core, although its closed
eps-neighborhood (which includes the point itself) has `1 ≥ min_samples`
members: `get_neighbors` skips `neighbor_idx == point_idx`. -/
theorem gridL2_core_detection_excludes_self :
    L2S.find_core_points 1 1 (L2S.buildGrid 1 [⟨0, 0⟩]) [⟨0, 0⟩] = [false] ∧
    1 ≤ ((List.range 1).filter (fun j =>
      decide (L2S.distance_squared (([⟨0, 0⟩] : List PointQ).getD 0 ⟨0, 0⟩)
        (([⟨0, 0⟩] : List PointQ).getD j ⟨0, 0⟩) ≤ 1 * 1))).length := by
  constructor
  · decide
  · decide

/-- Claim C3, amended: grid-L1 core detection does satisfy the closed-ball
reading — `is_core[i] = 1` iff the closed eps L1-ball of `i` (which always
contains `i`) has at least `min_samples` members.  Grid-L2 core detection
counts the self-excluding neighborhood instead: `is_core[i] = 1` iff the
closed eps L2-ball of `i` (which always contains `i`) has at least
`min_pts + 1` members. -/
theorem grid_core_detection_characterization (ctx : L1.Ctx)
    (eps : ℚ) (min_pts : Int) (points : List PointQ) (heps : 0 < eps)
    (hne : points ≠ []) :
    (∀ i, i < ctx.count →
      ((ctx.isCore i = true ↔
        ctx.minSamples ≤ ((List.range ctx.count).filter
          (fun j => ctx.manhattan i j ≤ ctx.eps)).length) ∧
       i ∈ (List.range ctx.count).filter (fun j => ctx.manhattan i j ≤ ctx.eps))) ∧
    (∀ i, i < points.length →
      (((L2S.find_core_points eps min_pts (L2S.buildGrid eps points) points).getD i false
          = true ↔
        min_pts + 1 ≤ (((List.range points.length).filter (fun j =>
          decide (L2S.distance_squared (points.getD i ⟨0, 0⟩) (points.getD j ⟨0, 0⟩) ≤
            eps * eps))).length : Int)) ∧
       i ∈ (List.range points.length).filter (fun j =>
          decide (L2S.distance_squared (points.getD i ⟨0, 0⟩) (points.getD j ⟨0, 0⟩) ≤
            eps * eps)))) := by
  constructor
  · intro i hi
    refine ⟨ctx.isCore_iff i hi, List.mem_filter.mpr ⟨List.mem_range.mpr hi, ?_⟩⟩
    rw [ctx.manhattan_self]
    exact decide_eq_true (Nat.zero_le _)
  · intro i hi
    refine ⟨L2S.l2s_isCore_iff min_pts heps hne hi,
      List.mem_filter.mpr ⟨List.mem_range.mpr hi, decide_eq_true ?_⟩⟩
    unfold L2S.distance_squared
    nlinarith [mul_self_nonneg eps]

/-- Witness for the C3 amended statement on a concrete single-point grid-L2
input. -/
theorem grid_core_detection_characterization_witness :
    (0 : ℚ) < 1 ∧ ([(⟨0, 0⟩ : PointQ)] ≠ []) ∧
    ((L2S.find_core_points 1 1 (L2S.buildGrid 1 [⟨0, 0⟩]) [⟨0, 0⟩]).getD 0 false = true ↔
      1 + 1 ≤ ((((List.range 1).filter (fun j =>
        decide (L2S.distance_squared (([⟨0, 0⟩] : List PointQ).getD 0 ⟨0, 0⟩)
          (([⟨0, 0⟩] : List PointQ).getD j ⟨0, 0⟩) ≤ 1 * 1))).length : Nat) : Int)) :=
  ⟨by decide, by simp,
    ((grid_core_detection_characterization ctxW 1 1 [⟨0, 0⟩] (by decide) (by simp)).2 0
      (by decide)).1⟩

/-- Witness for C8 on a concrete `min_samples = 1` input. -/
theorem grid_l1_minsamples_one_no_noise_witness :
    ctxW1.minSamples = 1 ∧ ctxW1.count ≤ L1.invalid ∧
    (∀ j, j < ctxW1.count →
      (L1.implLabels ctxW1 GridExpansionMode.Sequential).getD j 0 ≠ -1) :=
  ⟨by decide, by decide,
    grid_l1_minsamples_one_no_noise ctxW1 (by decide) (by decide)
      GridExpansionMode.Sequential⟩

end DbscanCpp
